import Mathlib

/-!
# jstd hash maps: `flat16_hash_map` and `robin32_hash_map`

A shallow embedding of `src/jstd/hashmap/flat16_hash_map.h`,
`src/jstd/hashmap/robin32_hash_map.h` and `src/jstd/support/Power2.h`.

Conventions of the embedding.

* `std::size_t` is 64 bits wide; values are natural numbers and every
  operation that can wrap is written with an explicit `% 2 ^ 64`.
* Raw memory (the control array and the slot array) is a total function from
  the element index to its content.  Memory obtained from `new[]` or from the
  allocator is not initialised by the C++ code; its content is a parameter
  of the allocating operation.
* `assert` is compiled out (`NDEBUG`).  `erase_slot` of `robin32_hash_map`
  names an undeclared variable inside its first `assert`, so that header only
  builds with `NDEBUG` defined.
* The hasher is a function `hash : K → Nat`, the key equality is `=`.
* An iterator is the index of the slot it points to; `end()` is the index
  `capacity`.
* `robin32_hash_map::at` is not embedded: its body returns `slot->second`, and
  `slot_type` has no member of that name, so the function cannot be
  instantiated.
-/

/-! ## Bit utilities (`jstd/support/BitUtils.h`) -/

namespace BitUtils

/-- Auxiliary loop of `bsf32`: the first index at or after `i` whose bit is set,
looking at no more than `fuel` positions. -/
def bsfAux : Nat → Nat → Nat → Nat
  | 0, _, i => i
  | fuel + 1, x, i => if x.testBit i then i else bsfAux fuel x (i + 1)

/-- Modelled from the spec: `BitUtils.h` is not part of the sources. The spec
(4.A) describes `lowest_set(x)` as the bit index of the lowest 1-bit of `x`
(undefined for zero). -/
def bsf32 (x : Nat) : Nat := bsfAux 32 x 0

/-- Modelled from the spec: `clear_lowest(x)` is `x` with its lowest 1-bit
cleared (4.A); written as in `jstd::clear_low_bit` of `Power2.h`. -/
def clearLowBit32 (x : Nat) : Nat := x &&& (x - 1)

/-- Modelled from the spec: the index of the highest set bit of a non-zero
64-bit value (`BitUtils::bsr64`, used by `pow2::countTrailingZeros`). -/
def bsr64 (x : Nat) : Nat := Nat.log2 x

end BitUtils

/-- The loop `while (mask != 0) { pos = bsf32(mask); mask = clearLowBit32(mask);
if (hit(pos)) return pos; }` shared by every probing routine: the first set bit
of `mask`, in increasing order, at which `hit` holds. A 32-bit mask has at most
32 set bits, which bounds the number of iterations. -/
def scanMask (hit : Nat → Bool) : Nat → Nat → Option Nat
  | 0, _ => none
  | fuel + 1, mask =>
    if mask = 0 then none
    else if hit (BitUtils.bsf32 mask) then some (BitUtils.bsf32 mask)
    else scanMask hit fuel (BitUtils.clearLowBit32 mask)

/-- The bit mask with bit `i` set exactly when `i < n` and `p i` holds (the
result of `_mm_movemask_epi8` on a byte-wise comparison, or of the scalar loop
`if (...) mask |= bit; bit <<= 1;`). -/
def maskOf (p : Nat → Bool) : Nat → Nat
  | 0 => 0
  | n + 1 => maskOf p n + (if p n then 2 ^ n else 0)

/-! ## `flat16_hash_map` -/

namespace flat16

def npow64 : Nat := 2 ^ 64

def kEmptyEntry : Nat := 0xFF
def kDeletedEntry : Nat := 0x80
def kUnusedMask : Nat := 0x80
def kControlHashMask : Nat := 0x7F
def kControlShift : Nat := 7
def kClusterEntries : Nat := 16
def kDefaultInitialCapacity : Nat := 16
def kMinimumCapacity : Nat := 16

/-- `round_size(size, alignment)`. -/
def round_size (size alignment : Nat) : Nat :=
  (((size + alignment - 1) % npow64) / alignment * alignment) % npow64

/-- `align_to(size, alignment)`: `(size + alignment - 1) & ~(alignment - 1)`. -/
def align_to (size alignment : Nat) : Nat :=
  ((size + alignment - 1) % npow64) &&& (npow64 - 1 - (alignment - 1))

/-- `round_up_pow2(n)` of `flat16_hash_map.h`: both branches return `n`. -/
def round_up_pow2 (n : Nat) : Nat :=
  if n &&& (n - 1) = 0 then n else n

/-- The value of a control byte read as `std::int8_t`. -/
def asInt8 (v : Nat) : Int := if v < 128 then (v : Int) else (v : Int) - 256

def control_byte.isEmpty (v : Nat) : Bool := v == kEmptyEntry
def control_byte.isDeleted (v : Nat) : Bool := v == kDeletedEntry
def control_byte.isUsed (v : Nat) : Bool := decide (0 ≤ asInt8 v)
def control_byte.isEmptyOrDeleted (v : Nat) : Bool := decide (asInt8 v < 0)

/-- The table. `controls i` is the control byte `clusters_[i / 16].controls[i % 16]`,
`entries i` the content of the cell `entries_[i]`. -/
structure Table (K V : Type) where
  controls : Nat → Nat
  cluster_mask : Nat
  entries : Nat → K × V
  entry_size : Nat
  entry_mask : Nat
  entry_threshold : Nat

variable {K V : Type}

def Table.capacity (t : Table K V) : Nat := (t.entry_mask + 1) % npow64
def Table.entry_capacity (t : Table K V) : Nat := (t.entry_mask + 1) % npow64
def Table.size (t : Table K V) : Nat := t.entry_size
def Table.cluster_count (t : Table K V) : Nat := (t.cluster_mask + 1) % npow64

/-- `cluster::getMatchMask(control_tag)` of the cluster with index `c`. -/
def getMatchMask (t : Table K V) (c : Nat) (control_tag : Nat) : Nat :=
  maskOf (fun i => t.controls (c * kClusterEntries + i) == control_tag) kClusterEntries

def matchHash (t : Table K V) (c : Nat) (control_hash : Nat) : Nat :=
  getMatchMask t c control_hash

def matchEmpty (t : Table K V) (c : Nat) : Nat := getMatchMask t c kEmptyEntry

def matchDeleted (t : Table K V) (c : Nat) : Nat := getMatchMask t c kDeletedEntry

def hasAnyEmpty (t : Table K V) (c : Nat) : Bool := matchEmpty t c != 0

/-- `cluster::matchEmptyOrDeleted()`: the sign bits of the sixteen control bytes. -/
def matchEmptyOrDeleted (t : Table K V) (c : Nat) : Nat :=
  maskOf (fun i => t.controls (c * kClusterEntries + i) &&& kUnusedMask != 0) kClusterEntries

def get_hash (hash : K → Nat) (key : K) : Nat := hash key % npow64

def get_control_hash (hash_code : Nat) : Nat := (hash_code &&& kControlHashMask) % 256

def index_for (t : Table K V) (hash_code : Nat) : Nat :=
  (hash_code >>> kControlShift) &&& t.cluster_mask

def next_cluster (t : Table K V) (cluster_index : Nat) : Nat :=
  ((cluster_index + 1) % npow64) &&& t.cluster_mask

/-- `init_cluster(init_capacity)`, called on the zero-initialised members by the
constructor. `mem` is the content of the freshly allocated entry array. -/
def init_cluster (mem : Nat → K × V) (init_capacity : Nat) : Table K V :=
  let new_capacity := align_to init_capacity kClusterEntries
  let cluster_count := new_capacity / kClusterEntries
  { controls := fun _ => kEmptyEntry
    cluster_mask := (cluster_count + npow64 - 1) % npow64
    entries := mem
    entry_size := 0
    entry_mask := (new_capacity + npow64 - 1) % npow64
    entry_threshold := new_capacity / 2 }

/-- The constructor `flat16_hash_map(initialCapacity)`. -/
def flat16_hash_map (mem : Nat → K × V) (initialCapacity : Nat) : Table K V :=
  init_cluster mem initialCapacity

section ops
variable [DecidableEq K]

/-- The key comparison loop over the set bits of `mask16` in the cluster that
starts at `start_index`. -/
def matchKey (t : Table K V) (key : K) (start_index mask16 : Nat) : Option Nat :=
  scanMask (fun pos => decide ((t.entries (start_index + pos)).1 = key)) 32 mask16

/-- What the private `find_impl` hands back: the index (`none` is `npos`) and the
out-parameters `first_cluster`, `last_cluster` (`none` is `npos`), `ctrl_hash`. -/
structure FindInfo where
  index : Option Nat
  first_cluster : Nat
  last_cluster : Option Nat
  ctrl_hash : Nat
deriving DecidableEq, Repr

/-- The `do ... while (cluster_index != start_cluster)` loop of `find_impl`; the
result is `(index, last_cluster)`. The loop body runs at most once per cluster. -/
def find_impl_loop (t : Table K V) (key : K) (control_hash start_cluster : Nat) :
    Nat → Nat → Option Nat × Option Nat
  | 0, _ => (none, none)
  | fuel + 1, cluster_index =>
    match matchKey t key (cluster_index * kClusterEntries)
        (matchHash t cluster_index control_hash) with
    | some pos => (some (cluster_index * kClusterEntries + pos), some cluster_index)
    | none =>
      if hasAnyEmpty t cluster_index then (none, some cluster_index)
      else if next_cluster t cluster_index = start_cluster then (none, none)
      else find_impl_loop t key control_hash start_cluster fuel (next_cluster t cluster_index)

/-- The private `find_impl(key, first_cluster, last_cluster, ctrl_hash)`. -/
def find_impl (hash : K → Nat) (t : Table K V) (key : K) : FindInfo :=
  let hash_code := get_hash hash key
  let control_hash := get_control_hash hash_code
  let start_cluster := index_for t hash_code
  let r := find_impl_loop t key control_hash start_cluster (t.cluster_mask + 1) start_cluster
  { index := r.1, first_cluster := start_cluster, last_cluster := r.2, ctrl_hash := control_hash }

/-- The loop of the public `find`. -/
def find_loop (t : Table K V) (key : K) (control_hash start_cluster : Nat) :
    Nat → Nat → Nat
  | 0, _ => t.entry_capacity
  | fuel + 1, cluster_index =>
    match matchKey t key (cluster_index * kClusterEntries)
        (matchHash t cluster_index control_hash) with
    | some pos => cluster_index * kClusterEntries + pos
    | none =>
      if hasAnyEmpty t cluster_index then t.entry_capacity
      else if next_cluster t cluster_index = start_cluster then t.entry_capacity
      else find_loop t key control_hash start_cluster fuel (next_cluster t cluster_index)

/-- The public `find(key)`: the iterator to the entry, or `end()`. -/
def find (hash : K → Nat) (t : Table K V) (key : K) : Nat :=
  let hash_code := get_hash hash key
  let control_hash := get_control_hash hash_code
  let start_cluster := index_for t hash_code
  find_loop t key control_hash start_cluster (t.cluster_mask + 1) start_cluster

/-- The loop of `emplace_impl` looking for the first deleted entry between
`first_cluster` and `last_cluster`; the result is `(index, cluster_index)` when
the loop is left. -/
def find_deleted_loop (t : Table K V) (first_cluster : Nat) (last_cluster : Option Nat) :
    Nat → Nat → Option Nat × Nat
  | 0, cluster_index => (none, cluster_index)
  | fuel + 1, cluster_index =>
    if matchDeleted t cluster_index ≠ 0 then
      (some (cluster_index * kClusterEntries + BitUtils.bsf32 (matchDeleted t cluster_index)),
        cluster_index)
    else if some cluster_index = last_cluster then (none, cluster_index)
    else if next_cluster t cluster_index = first_cluster then
      (none, next_cluster t cluster_index)
    else find_deleted_loop t first_cluster last_cluster fuel (next_cluster t cluster_index)

/-- Construct `value` in the cell `index` and mark its control byte used. -/
def place (t : Table K V) (index ctrl_hash : Nat) (value : K × V) : Table K V :=
  { t with
    controls := fun i => if i = index then ctrl_hash else t.controls i
    entries := fun i => if i = index then value else t.entries i
    entry_size := t.entry_size + 1 }

/-- `emplace_impl<update_always>(value)`: the new table, the iterator and the
`inserted` flag. In the branch "container is full" the code calls `grow()`,
whose `rehash` has an empty body, and then `emplace` again on the unchanged
table, so the call never returns: the result is `none`. -/
def emplace_impl (hash : K → Nat) (update_always : Bool) (t : Table K V) (value : K × V) :
    Option (Table K V × Nat × Bool) :=
  let fi := find_impl hash t value.1
  match fi.index with
  | none =>
    let d := find_deleted_loop t fi.first_cluster fi.last_cluster (t.cluster_mask + 1)
      fi.first_cluster
    match d.1 with
    | some index => some (place t index fi.ctrl_hash value, index, true)
    | none =>
      match fi.last_cluster with
      | some last_cluster =>
        let pos := BitUtils.bsf32 (matchEmpty t last_cluster)
        let index := d.2 * kClusterEntries + pos
        some (place t index fi.ctrl_hash value, index, true)
      | none => none
  | some index =>
    if update_always then
      some ({ t with entries := fun i => if i = index then ((t.entries i).1, value.2)
                                         else t.entries i }, index, false)
    else some (t, index, false)

/-- `insert(value)`. -/
def insert (hash : K → Nat) (t : Table K V) (value : K × V) :
    Option (Table K V × Nat × Bool) :=
  emplace_impl hash true t value

/-- `emplace(args...)`. -/
def emplace (hash : K → Nat) (t : Table K V) (value : K × V) :
    Option (Table K V × Nat × Bool) :=
  emplace_impl hash false t value

end ops

end flat16

/-! ## `flat16_hash_map`: predicates used in the statements -/

namespace flat16

variable {K V : Type}

/-- The shape of a table as the constructor builds it: a power-of-two number
of clusters, sixteen entries per cluster. -/
def WellFormed (t : Table K V) : Prop :=
  ∃ j, t.cluster_mask + 1 = 2 ^ j ∧ t.entry_mask + 1 = 16 * 2 ^ j ∧ 16 * 2 ^ j < 2 ^ 64

/-- No entry of cluster `c` carries the tag and the key. -/
def NoMatch (t : Table K V) (key : K) (tag c : Nat) : Prop :=
  ∀ i, i < 16 → t.controls (c * 16 + i) = tag → (t.entries (c * 16 + i)).1 ≠ key

/-- The probe went through cluster `c`: no match and no empty entry. -/
def Passed (t : Table K V) (key : K) (tag c : Nat) : Prop :=
  NoMatch t key tag c ∧ ∀ i, i < 16 → t.controls (c * 16 + i) ≠ kEmptyEntry

/-- The possible outcomes of the probe loop that starts at cluster `start` of a
table with `N` clusters. -/
inductive FindSpec (t : Table K V) (key : K) (tag start N : Nat) :
    Option Nat × Option Nat → Prop
  | found (n pos : Nat) (hn : n < N)
      (hpass : ∀ m, m < n → Passed t key tag ((start + m) % N))
      (hpos : pos < 16)
      (htag : t.controls ((start + n) % N * 16 + pos) = tag)
      (hkey : (t.entries ((start + n) % N * 16 + pos)).1 = key)
      (hmin : ∀ q, q < pos → t.controls ((start + n) % N * 16 + q) = tag →
        (t.entries ((start + n) % N * 16 + q)).1 ≠ key) :
      FindSpec t key tag start N (some ((start + n) % N * 16 + pos), some ((start + n) % N))
  | stopped (n : Nat) (hn : n < N)
      (hpass : ∀ m, m < n → Passed t key tag ((start + m) % N))
      (hno : NoMatch t key tag ((start + n) % N))
      (hempty : ∃ i, i < 16 ∧ t.controls ((start + n) % N * 16 + i) = kEmptyEntry) :
      FindSpec t key tag start N (none, some ((start + n) % N))
  | full (hpass : ∀ m, m < N → Passed t key tag ((start + m) % N)) :
      FindSpec t key tag start N (none, none)


/-- The representation invariant of the tables built by the constructor and by
insertions: every control byte below the capacity is empty or the tag of the key
stored in its cell; on the probe path of a stored key no cluster before the one
that holds it has an empty entry; no key is stored twice. -/
structure Inv (hash : K → Nat) (t : Table K V) : Prop where
  wf : WellFormed t
  ctl : ∀ i, i < t.capacity → t.controls i = kEmptyEntry ∨
    t.controls i = get_control_hash (get_hash hash (t.entries i).1)
  path : ∀ i, i < t.capacity → t.controls i ≠ kEmptyEntry →
    ∃ n, n < t.cluster_mask + 1 ∧
      (index_for t (get_hash hash (t.entries i).1) + n) % (t.cluster_mask + 1) = i / 16 ∧
      ∀ m, m < n → ∀ q, q < 16 →
        t.controls ((index_for t (get_hash hash (t.entries i).1) + m) % (t.cluster_mask + 1) * 16 + q)
          ≠ kEmptyEntry
  uniq : ∀ i i', i < t.capacity → i' < t.capacity → t.controls i ≠ kEmptyEntry →
    t.controls i' ≠ kEmptyEntry → (t.entries i).1 = (t.entries i').1 → i = i'

/-- The tables built by the constructor with a power-of-two capacity and then
only by `insert` and `emplace`. -/
inductive Reachable [DecidableEq K] (hash : K → Nat) : Table K V → Prop
  | ctor (mem : Nat → K × V) (initialCapacity j : Nat)
      (hcap : (flat16_hash_map mem initialCapacity).capacity = 2 ^ j) :
      Reachable hash (flat16_hash_map mem initialCapacity)
  | insert (t t' : Table K V) (value : K × V) (it : Nat) (b : Bool)
      (ht : Reachable hash t) (h : insert hash t value = some (t', it, b)) :
      Reachable hash t'
  | emplace (t t' : Table K V) (value : K × V) (it : Nat) (b : Bool)
      (ht : Reachable hash t) (h : emplace hash t value = some (t', it, b)) :
      Reachable hash t'

end flat16

/-! ## `pow2` helpers (`jstd/support/Power2.h`) -/

namespace pow2

/-- `jstd::is_pow2(N)`: `(n & (n - 1)) == 0` on the unsigned 64-bit value. -/
def is_pow2 (n : Nat) : Bool := (n &&& ((n + 2 ^ 64 - 1) % 2 ^ 64)) == 0

/-- `pow2::countTrailingZeros(N)` for an 8-byte type: it returns `BitUtils::bsr64(n)`. -/
def countTrailingZeros (n : Nat) : Nat := BitUtils.bsr64 n

/-- `pow2::round_up<SizeType, Min_n>(N)` for a 64-bit `SizeType`. -/
def round_up (Min_n : Nat) (n : Nat) : Nat :=
  if n ≤ (2 ^ 64 - 1) / 2 + 1 ∨ True then
    if n > 1 ∨ Min_n > 1 then
      (1 <<< (countTrailingZeros ((n + 2 ^ 64 - 1) % 2 ^ 64) + 1)) % 2 ^ 64
    else n
  else 2 ^ 64 - 1

/-- `pow2::next_pow2<SizeType, Min_n>(N)` for a 64-bit `SizeType`. -/
def next_pow2 (Min_n : Nat) (n : Nat) : Nat :=
  if n < (2 ^ 64 - 1) / 2 + 1 ∨ True then
    if n > 0 ∨ Min_n > 0 then
      (1 <<< (countTrailingZeros n + 1)) % 2 ^ 64
    else 1
  else 2 ^ 64 - 1

end pow2

/-! ## `compile_time` helpers (`jstd/support/Power2.h`), for a 64-bit `std::size_t` -/

namespace compile_time

/-- `(std::numeric_limits<std::size_t>::max)()`. -/
def max_num : Nat := 2 ^ 64 - 1

/-- `(std::numeric_limits<std::size_t>::max)() / 2 + 1`. -/
def max_power2 : Nat := (2 ^ 64 - 1) / 2 + 1

/-- Modelled from the spec: `jstd::integral_traits<std::size_t>::max_num`, whose
header is not among the sources, is the maximum `std::size_t` value. -/
def integral_traits_max_num : Nat := 2 ^ 64 - 1

/-- `compile_time::is_pow2<N>::value`: `(N & (N - 1)) == 0`. -/
def is_pow2 (N : Nat) : Bool := (N &&& ((N + 2 ^ 64 - 1) % 2 ^ 64)) == 0

/-- `round_up_pow2_impl<N, Power2>::value`. Every instantiation names the next
one, `round_up_pow2_impl<N, next_power2>`, until the specialisation for
`Power2 = 0` ends the chain; the fuel counts the instantiations, and `none` is a
chain that does not end within it. -/
def round_up_pow2_impl (N : Nat) : Nat → Nat → Option Nat
  | 0, _ => none
  | fuel + 1, Power2 =>
    if Power2 = 0 then some integral_traits_max_num
    else
      let next_power2 := if Power2 < max_power2 then (Power2 <<< 1) % 2 ^ 64 else 0
      match round_up_pow2_impl N fuel next_power2 with
      | none => none
      | some next_value =>
        some (if N > max_power2 then max_num
              else if Power2 = max_power2 ∨ Power2 ≥ N then Power2
              else next_value)

/-- `round_up_pow2<N>::value`; the chain of `round_up_pow2_impl<N, 1>` is
instantiated whichever branch is selected. -/
def round_up_pow2 (N : Nat) : Option Nat :=
  (round_up_pow2_impl N 66 1).map fun impl_value => if is_pow2 N then N else impl_value

/-- `round_up_power2_impl<N>::value` on a 64-bit target. -/
def round_up_power2_impl (N : Nat) : Nat :=
  let N1 := (N + 2 ^ 64 - 1) % 2 ^ 64
  let N2 := N1 ||| (N1 >>> 1)
  let N3 := N2 ||| (N2 >>> 2)
  let N4 := N3 ||| (N3 >>> 4)
  let N5 := N4 ||| (N4 >>> 8)
  let N6 := N5 ||| (N5 >>> 16)
  let N7 := N6 ||| (N6 >>> 32)
  if N7 ≠ max_num then (N7 + 1) % 2 ^ 64 else max_num

/-- `round_up_power2<N>::value`. -/
def round_up_power2 (N : Nat) : Nat :=
  if is_pow2 N then N else round_up_power2_impl N

end compile_time

/-! ## `robin32_hash_map` -/

namespace robin32

def npow64 : Nat := 2 ^ 64

def kControlHashMask : Nat := 0xFF
def kGroupBits : Nat := 5
def kGroupWidth : Nat := 32
def kMinimumCapacity : Nat := 4
def kDefaultCapacity : Nat := 4
def kLoadFactorAmplify : Nat := 65536
/-- `uint32(kDefaultLoadFactor * kLoadFactorAmplify)` with `kDefaultLoadFactor = 0.5f`. -/
def kDefaultLoadFactorInt : Nat := 32768
/-- `uint32(1.0f / kDefaultLoadFactor * kLoadFactorAmplify)`. -/
def kDefaultLoadFactorRevInt : Nat := 131072
def kEmptyEntry : Nat := 0xFF
def kEndOfMark : Nat := 0xFE

/-- `control_data`: the distance byte and the hash byte of a slot. -/
structure control_data where
  distance : Nat
  hash : Nat
deriving DecidableEq, Repr

def control_data.isEmpty (c : control_data) : Bool := c.distance == kEmptyEntry
def control_data.isEndOf (c : control_data) : Bool := c.distance == kEndOfMark
def control_data.isUsed (c : control_data) : Bool := decide (c.distance < kEmptyEntry)
def control_data.isUnused (c : control_data) : Bool := decide (c.distance ≥ kEmptyEntry)
def control_data.setHash (c : control_data) (ctrl_hash : Nat) : control_data :=
  { c with hash := ctrl_hash }
def control_data.setEmpty (c : control_data) : control_data := { c with distance := kEmptyEntry }
def control_data.setEndOf (c : control_data) : control_data := { c with distance := kEndOfMark }
def control_data.setDistance (c : control_data) (distance : Nat) : control_data :=
  { c with distance := distance }
/-- The condition of the `assert` that opens `control_data::setDistance(distance)`:
`distance < kEndOfMark`. -/
def control_data.setDistance_assert (distance : Nat) : Bool := decide (distance < kEndOfMark)
def control_data.setUsed (c : control_data) (ctrl_hash distance : Nat) : control_data :=
  (c.setHash ctrl_hash).setDistance distance

/-- The two mask results of `matchHashAndEmpty`. -/
structure MatchMask2 where
  maskHash : Nat
  maskEmpty : Nat
deriving DecidableEq, Repr

/-- The three mask results of `matchHashAndDistance`. -/
structure MatchMask3 where
  maskHash : Nat
  maskEmpty : Nat
  maskDistance : Nat
deriving DecidableEq, Repr

/-! ### `BitMask256_AVX2`

A 256-bit load at `data` covers the sixteen 2-byte control records
`data[0..15]`; lane `j` holds the 16-bit value `distance + 256 * hash` of record
`j`. A lane-wise comparison yields all-ones or zero per lane, and
`_mm256_movemask_epi8` turns lane `j` into the mask bits `2 * j` and `2 * j + 1`. -/

/-- `_mm256_movemask_epi8` of a lane-wise comparison result. -/
def movemask (lane : Nat → Bool) : Nat := maskOf (fun i => lane (i / 2)) 32

/-- The low byte of lane `j`: `ctrl_bits & 0x00FF`. -/
def lowBits (ctrl : Nat → control_data) (data j : Nat) : Nat := (ctrl (data + j)).distance

/-- The lane `j` with its low byte cleared: `ctrl_bits & 0xFF00`. -/
def highBits (ctrl : Nat → control_data) (data j : Nat) : Nat := 256 * (ctrl (data + j)).hash

/-- `fillAll16<ControlTag>(data)`: store the 16-bit value `ControlTag` into the
sixteen records at `data`. -/
def fillAll16 (ControlTag : Nat) (ctrl : Nat → control_data) (data : Nat) : Nat → control_data :=
  fun p => if data ≤ p ∧ p < data + 16 then ⟨ControlTag % 256, ControlTag / 256⟩ else ctrl p

def matchControlTag (ctrl : Nat → control_data) (data control_tag : Nat) : Nat :=
  movemask (fun j => lowBits ctrl data j + highBits ctrl data j == control_tag)

def matchLowControlTag (ctrl : Nat → control_data) (data control_tag : Nat) : Nat :=
  movemask (fun j => lowBits ctrl data j == control_tag)

def matchHighControlTag (ctrl : Nat → control_data) (data control_tag : Nat) : Nat :=
  movemask (fun j => highBits ctrl data j == control_tag)

/-- `matchHashAndEmpty(data, ctrl_hash)`: `ctrl_hash` is compared, unshifted,
with the high byte of every lane. -/
def matchHashAndEmpty (ctrl : Nat → control_data) (data ctrl_hash : Nat) : MatchMask2 :=
  let empty_mask := fun j => lowBits ctrl data j == kEmptyEntry
  let match_mask := fun j => highBits ctrl data j == ctrl_hash
  let result_mask := fun j => !empty_mask j && match_mask j
  { maskHash := movemask result_mask, maskEmpty := movemask empty_mask }

/-- The constant table `kDistance16[t]`, lane `j`, for the four rows `t < 4`
the code declares. -/
def kDistance16 (t j : Nat) : Nat :=
  match t with
  | 0 => j
  | 1 => if j < 4 then 0xFF else j - 4
  | 2 => if j < 8 then 0xFF else j - 8
  | 3 => if j < 12 then 0xFF else j - 12
  | _ => 0

/-- `_mm256_adds_epi16` on two non-negative lanes: signed saturating addition. -/
def adds_epi16 (a b : Nat) : Nat := min (a + b) 32767

/-- `matchHashAndDistance(data, ctrl_hash, distance)`. The row
`kDistance16[(distance % kGroupWidth) / 4]` exists only for an index below 4;
callers that can pass another index are guarded where they call. As in
`matchHashAndEmpty`, `ctrl_hash` is compared unshifted with the high byte. -/
def matchHashAndDistance (ctrl : Nat → control_data) (data ctrl_hash distance : Nat) :
    MatchMask3 :=
  let dist_base := kDistance16 ((distance % kGroupWidth) / 4)
  let dist_index := fun j => adds_epi16 (dist_base j) distance
  let empty_mask := fun j => lowBits ctrl data j == kEmptyEntry
  let dist_mask := fun j => decide (lowBits ctrl data j > dist_index j)
  let empty_mask' := fun j => empty_mask j || dist_mask j
  let match_mask := fun j => highBits ctrl data j == ctrl_hash
  let result_mask := fun j => !empty_mask' j && match_mask j
  { maskHash := movemask result_mask
    maskEmpty := movemask empty_mask'
    maskDistance := movemask dist_mask }

/-- `matchHash(data, control_hash)`: here the hash is shifted into the high byte. -/
def matchHash (ctrl : Nat → control_data) (data control_hash : Nat) : Nat :=
  matchHighControlTag ctrl data ((control_hash <<< 8) % 65536)

def matchEmpty (ctrl : Nat → control_data) (data : Nat) : Nat :=
  matchLowControlTag ctrl data kEmptyEntry

/-- `matchUsed(data)`: `_mm256_cmpgt_epi16(low_bits, tag_bits)` with
`tag_bits = kEndOfMark`, that is `low_bits > 0xFE` lane by lane. -/
def matchUsed (ctrl : Nat → control_data) (data : Nat) : Nat :=
  movemask (fun j => decide (lowBits ctrl data j > kEndOfMark))

def matchUnused (ctrl : Nat → control_data) (data : Nat) : Nat := matchEmpty ctrl data

/-- The table. `controls p` is the control record number `p` of the array
`groups_` (a group is 32 records), `slots i` the content of the cell `slots_[i]`. -/
structure Table (K V : Type) where
  controls : Nat → control_data
  group_mask : Nat
  slots : Nat → K × V
  slot_size : Nat
  slot_mask : Nat
  slot_threshold : Nat
  n_mlf : Nat
  n_mlf_rev : Nat

/-- The content of freshly allocated memory: the control records of
`new group_type[n]` and the cells of `slot_allocator_.allocate(n)`. -/
structure Fresh (K V : Type) where
  controls : Nat → control_data
  slots : Nat → K × V

variable {K V : Type}

def Table.size (t : Table K V) : Nat := t.slot_size
def Table.capacity (t : Table K V) : Nat := (t.slot_mask + 1) % npow64
def Table.slot_capacity (t : Table K V) : Nat := (t.slot_mask + 1) % npow64
def Table.group_count (t : Table K V) : Nat := (t.group_mask + 1) % npow64
def Table.integral_mlf (t : Table K V) : Nat := t.n_mlf
def Table.integral_mlf_rev (t : Table K V) : Nat := t.n_mlf_rev

/-- `slot_threshold(now_slot_capacity)`. -/
def slot_threshold_for (t : Table K V) (now_slot_capacity : Nat) : Nat :=
  (now_slot_capacity * t.integral_mlf % npow64) / kLoadFactorAmplify

/-- `calc_capacity(init_capacity)`. -/
def calc_capacity (init_capacity : Nat) : Nat :=
  let new_capacity := max init_capacity kMinimumCapacity
  if !pow2.is_pow2 new_capacity then pow2.round_up kMinimumCapacity new_capacity
  else new_capacity

/-- `min_require_capacity(init_capacity)`. -/
def min_require_capacity (t : Table K V) (init_capacity : Nat) : Nat :=
  (init_capacity * t.integral_mlf_rev % npow64) / kLoadFactorAmplify

def get_hash (hash : K → Nat) (key : K) : Nat := hash key % npow64

/-- `get_second_hash(value)` for an 8-byte `size_type`. -/
def get_second_hash (value : Nat) : Nat := (value * 14695981039346656037) % npow64

def get_ctrl_hash (hash_code : Nat) : Nat := (hash_code &&& kControlHashMask) % 256

def round_index (t : Table K V) (index : Nat) : Nat := index &&& t.slot_mask

/-- `round_distance(distance)`. -/
def round_distance (distance : Nat) : Nat :=
  if distance ≤ kEndOfMark then distance % 256 else kEndOfMark

def index_for (t : Table K V) (hash_code : Nat) : Nat := hash_code &&& t.slot_mask

def slot_next_group (t : Table K V) (slot_index : Nat) : Nat :=
  ((slot_index + kGroupWidth) % npow64) &&& t.slot_mask

/-- `for (index = 0; index < n; index++) groups[index].fillAll16<ControlTag>()`. -/
def fillGroups (ControlTag : Nat) (ctrl : Nat → control_data) : Nat → (Nat → control_data)
  | 0 => ctrl
  | n + 1 => fillAll16 ControlTag (fillGroups ControlTag ctrl n) (n * kGroupWidth)

/-- `create_group<init>(init_capacity)`. The allocator cannot hand out `2 ^ 63`
or more cells (a cell is at least two bytes), so the call fails with an
allocation error (`none`) for such a capacity; a capacity below
`kMinimumCapacity` only comes out of the undefined shift in `pow2::round_up`
and is treated alike. -/
def create_group (init : Bool) (fresh : Fresh K V) (t : Table K V) (init_capacity : Nat) :
    Option (Table K V) :=
  let new_capacity := if init then calc_capacity init_capacity else init_capacity
  if new_capacity < kMinimumCapacity ∨ 2 ^ 63 ≤ new_capacity then none
  else
    let group_count := ((new_capacity + (kGroupWidth - 1)) % npow64) / kGroupWidth
    let c1 := fillGroups kEmptyEntry fresh.controls group_count
    let c2 :=
      if new_capacity ≥ kGroupWidth then fillAll16 kEmptyEntry c1 (group_count * kGroupWidth)
      else fillAll16 kEndOfMark (fillAll16 kEndOfMark c1 new_capacity) (group_count * kGroupWidth)
    let c3 := fun p => if p = new_capacity then (c2 p).setEndOf else c2 p
    some
      { controls := c3
        group_mask := (group_count + npow64 - 1) % npow64
        slots := fresh.slots
        slot_size := if init then t.slot_size else 0
        slot_mask := (new_capacity + npow64 - 1) % npow64
        slot_threshold := (new_capacity * t.integral_mlf % npow64) / kLoadFactorAmplify
        n_mlf := t.n_mlf
        n_mlf_rev := t.n_mlf_rev }

/-- The constructor `robin32_hash_map(init_capacity)`. -/
def robin32_hash_map (fresh : Fresh K V) (init_capacity : Nat) : Option (Table K V) :=
  create_group true fresh
    { controls := fresh.controls, group_mask := 0, slots := fresh.slots, slot_size := 0,
      slot_mask := 0, slot_threshold := 0, n_mlf := kDefaultLoadFactorInt,
      n_mlf_rev := kDefaultLoadFactorRevInt } init_capacity

/-- The default constructor: `robin32_hash_map(kDefaultCapacity)`. -/
def robin32_hash_map_default (fresh : Fresh K V) : Option (Table K V) :=
  robin32_hash_map fresh kDefaultCapacity

/-- `setUsedMirrorCtrl(index, ctrl_hash, distance)`. -/
def setUsedMirrorCtrl (t : Table K V) (index ctrl_hash distance : Nat) : Table K V :=
  if index < kGroupWidth then
    { t with controls := fun p =>
        if p = index + t.slot_capacity then (t.controls p).setUsed ctrl_hash distance
        else t.controls p }
  else t

/-- `setUnusedMirrorCtrl(index, tag)`. -/
def setUnusedMirrorCtrl (t : Table K V) (index tag : Nat) : Table K V :=
  if index < kGroupWidth then
    { t with controls := fun p =>
        if p = index + t.slot_capacity then
          (if index = 0 then ((t.controls p).setDistance tag).setEndOf
           else (t.controls p).setDistance tag)
        else t.controls p }
  else t

/-- `setUsedCtrl(index, ctrl_hash, distance)`. -/
def setUsedCtrl (t : Table K V) (index ctrl_hash distance : Nat) : Table K V :=
  setUsedMirrorCtrl
    { t with controls := fun p =>
        if p = index then (t.controls p).setUsed ctrl_hash distance else t.controls p }
    index ctrl_hash distance

/-- `setUnusedCtrl(index, tag)`. -/
def setUnusedCtrl (t : Table K V) (index tag : Nat) : Table K V :=
  setUnusedMirrorCtrl
    { t with controls := fun p =>
        if p = index then (t.controls p).setDistance tag else t.controls p }
    index tag

def need_grow (t : Table K V) : Bool := decide (t.slot_threshold ≤ 0)

/-- The loop of `find_first_empty_slot`: `(target, distance)`. The loop has no
exit but the `return`; when no probed group shows an empty record it runs
forever, which is the result `none`. The groups it visits repeat after at most
`slot_mask + 1` steps. -/
def find_first_empty_loop (t : Table K V) (first_slot : Nat) : Nat → Nat → Option (Nat × Nat)
  | 0, _ => none
  | fuel + 1, slot_index =>
    if matchEmpty t.controls slot_index ≠ 0 then
      let pos := BitUtils.bsf32 (matchEmpty t.controls slot_index)
      let index := slot_index + (pos >>> 1)
      some (round_index t index, round_distance ((index + npow64 - first_slot) % npow64))
    else find_first_empty_loop t first_slot fuel (slot_next_group t slot_index)

/-- `find_first_empty_slot(key, o_ctrl_hash, distance)`: `(target, ctrl_hash, distance)`. -/
def find_first_empty_slot (hash : K → Nat) (t : Table K V) (key : K) : Option (Nat × Nat × Nat) :=
  let hash_code := get_hash hash key
  let ctrl_hash := get_ctrl_hash (get_second_hash hash_code)
  let slot_index := index_for t hash_code
  (find_first_empty_loop t slot_index (t.slot_mask + 1) slot_index).map
    fun r => (r.1, ctrl_hash, r.2)

/-- `move_insert_unique(slot)`. -/
def move_insert_unique (hash : K → Nat) (t : Table K V) (slot : K × V) : Option (Table K V) :=
  (find_first_empty_slot hash t slot.1).map fun r =>
    let t1 := setUsedCtrl t r.1 r.2.1 r.2.2
    { t1 with
      slots := fun i => if i = r.1 then slot else t1.slots i
      slot_size := (t1.slot_size + 1) % npow64 }

/-- The `while (maskUsed != 0)` loop of `rehash_impl` for one group of the old table. -/
def rehash_group (hash : K → Nat) (old_slots : Nat → K × V) (start_index : Nat) :
    Nat → Nat → Table K V → Option (Table K V)
  | 0, _, t => some t
  | fuel + 1, maskUsed, t =>
    if maskUsed = 0 then some t
    else
      let pos := BitUtils.bsf32 maskUsed
      let old_index := start_index + pos
      match move_insert_unique hash t (old_slots old_index) with
      | none => none
      | some t1 => rehash_group hash old_slots start_index fuel (BitUtils.clearLowBit32 maskUsed) t1

/-- The `for (group = old_groups; group != last_group; group++)` loop of
`rehash_impl`; `g` is the index of the group, `n` the number of groups left. -/
def rehash_groups (hash : K → Nat) (old : Table K V) : Nat → Nat → Table K V → Option (Table K V)
  | 0, _, t => some t
  | n + 1, g, t =>
    match rehash_group hash old.slots (g * kGroupWidth) 32
        (matchUsed old.controls (g * kGroupWidth)) t with
    | none => none
    | some t1 => rehash_groups hash old n (g + 1) t1

/-- The `for (control = old_controls; control != last_control; control++)` loop of
`rehash_impl` for an old table below the group width. -/
def rehash_controls (hash : K → Nat) (old : Table K V) : Nat → Nat → Table K V → Option (Table K V)
  | 0, _, t => some t
  | n + 1, i, t =>
    if (old.controls i).isUsed then
      match move_insert_unique hash t (old.slots i) with
      | none => none
      | some t1 => rehash_controls hash old n (i + 1) t1
    else rehash_controls hash old n (i + 1) t

/-- `rehash_impl<AllowShrink, AlwaysResize>(new_capacity)`; `none` when the
allocation fails or a `move_insert_unique` never returns. -/
def rehash_impl (hash : K → Nat) (AllowShrink AlwaysResize : Bool) (fresh : Fresh K V)
    (t : Table K V) (new_capacity : Nat) : Option (Table K V) :=
  let new_capacity := calc_capacity new_capacity
  if AlwaysResize ∨ (¬ AllowShrink ∧ new_capacity > t.slot_capacity) ∨
      (AllowShrink ∧ new_capacity ≠ t.slot_capacity) then
    match create_group false fresh t new_capacity with
    | none => none
    | some t0 =>
      let moved :=
        if t.slot_capacity ≥ kGroupWidth then rehash_groups hash t t.group_count 0 t0
        else rehash_controls hash t t.slot_capacity 0 t0
      moved.map fun t1 =>
        { t1 with slot_threshold := (t1.slot_threshold + npow64 - t1.slot_size % npow64) % npow64 }
  else some t

/-- `grow_if_necessary()`. -/
def grow_if_necessary (hash : K → Nat) (fresh : Fresh K V) (t : Table K V) : Option (Table K V) :=
  rehash_impl hash false true fresh t (((t.slot_mask + 1) % npow64 * 2) % npow64)

/-- `rehash(new_capacity, read_only)`. -/
def rehash (hash : K → Nat) (fresh : Fresh K V) (t : Table K V) (new_capacity : Nat)
    (read_only : Bool) : Option (Table K V) :=
  let new_capacity :=
    if !read_only then max (min_require_capacity t new_capacity) t.slot_size
    else max new_capacity t.slot_size
  rehash_impl hash true false fresh t new_capacity

/-- `shrink_to_fit(read_only)`. -/
def shrink_to_fit (hash : K → Nat) (fresh : Fresh K V) (t : Table K V) (read_only : Bool) :
    Option (Table K V) :=
  let new_capacity := if !read_only then min_require_capacity t t.slot_size else t.slot_size
  rehash_impl hash true false fresh t new_capacity

/-- `for (group_index = 0; group_index <= group_mask; group_index++)
group_at(group_index)->clear()` of `destory_group<false>`: `group_at` takes a
slot index, so the cleared block starts at the record `group_index`. -/
def clearGroups (ctrl : Nat → control_data) : Nat → (Nat → control_data)
  | 0 => ctrl
  | n + 1 => fillAll16 kEmptyEntry (clearGroups ctrl n) n

/-- `destroy<false>()`: `destory_slots<false>()` then `destory_group<false>()`. -/
def destroy_false (t : Table K V) : Table K V :=
  { t with slot_size := 0, controls := clearGroups t.controls (t.group_mask + 1) }

/-- `clear(need_destory)`. -/
def clear (fresh : Fresh K V) (t : Table K V) (need_destory : Bool) : Option (Table K V) :=
  if t.slot_capacity > kDefaultCapacity ∧ need_destory then
    create_group false fresh { t with slot_size := 0 } kDefaultCapacity
  else some (destroy_false t)

/-- The integer part of `max_load_factor(mlf)`. The two conversions
`(uint32) ceil(mlf * kLoadFactorAmplify)` and
`(uint32) ceil(1.0f / mlf * kLoadFactorAmplify)` are floating-point
computations; their results are the parameters `n_mlf` and `n_mlf_rev`. -/
def max_load_factor (hash : K → Nat) (fresh : Fresh K V) (t : Table K V)
    (n_mlf n_mlf_rev : Nat) : Option (Table K V) :=
  let t1 := { t with n_mlf := n_mlf, n_mlf_rev := n_mlf_rev }
  if t1.slot_size > t1.slot_threshold then
    if min_require_capacity t1 t1.slot_size > t1.slot_capacity then
      rehash hash fresh t1 t1.slot_size false
    else some t1
  else some t1

/-- The `for (; group != last_group; group++)` loop of `begin()`: `n` groups are
left, `g` is the index of the current group and `g * kGroupWidth` the value of
`start_index`. -/
def begin_loop (t : Table K V) : Nat → Nat → Nat
  | 0, _ => t.slot_capacity
  | n + 1, g =>
    if matchUsed t.controls (g * kGroupWidth) ≠ 0 then
      g * kGroupWidth + BitUtils.bsf32 (matchUsed t.controls (g * kGroupWidth))
    else begin_loop t n (g + 1)

/-- `begin()`: the index of the slot the returned iterator points to. -/
def begin (t : Table K V) : Nat := begin_loop t t.group_count 0

/-- `end()`. -/
def end_ (t : Table K V) : Nat := t.slot_capacity

/-- `basic_iterator::operator++` on the iterator with index `index`:
`do { ++ctrl_; ++slot_; } while (ctrl_->isEmpty());`. The result is `none` when
none of the next `fuel` records stops the loop. -/
def iterator_next (t : Table K V) : Nat → Nat → Option Nat
  | 0, _ => none
  | fuel + 1, index =>
    if (t.controls (index + 1)).isEmpty then iterator_next t fuel (index + 1)
    else some (index + 1)

section ops
variable [DecidableEq K]

/-- The loop of the one-argument `find_impl`: the distance passed to
`matchHashAndDistance` stays `0`. -/
def find_impl_loop (t : Table K V) (key : K) (ctrl_hash start_slot : Nat) :
    Nat → Nat → Option Nat
  | 0, _ => none
  | fuel + 1, slot_index =>
    let mask32 := matchHashAndDistance t.controls slot_index ctrl_hash 0
    match scanMask
        (fun pos => decide ((t.slots (round_index t (slot_index + (pos >>> 1)))).1 = key))
        32 mask32.maskHash with
    | some pos => some (round_index t (slot_index + (pos >>> 1)))
    | none =>
      if mask32.maskEmpty ≠ 0 then none
      else if slot_next_group t slot_index = start_slot then none
      else find_impl_loop t key ctrl_hash start_slot fuel (slot_next_group t slot_index)

/-- `find_impl(key)`: the index of the slot, `none` for `npos`. -/
def find_impl (hash : K → Nat) (t : Table K V) (key : K) : Option Nat :=
  let hash_code := get_hash hash key
  let ctrl_hash := get_ctrl_hash (get_second_hash hash_code)
  let slot_index := index_for t hash_code
  find_impl_loop t key ctrl_hash slot_index (t.slot_mask + 1) slot_index

/-- `find(key)`: the iterator, `end()` being `slot_capacity()`. -/
def find (hash : K → Nat) (t : Table K V) (key : K) : Nat :=
  match find_impl hash t key with
  | some index => index
  | none => t.slot_capacity

def contains (hash : K → Nat) (t : Table K V) (key : K) : Bool :=
  (find_impl hash t key).isSome

def count (hash : K → Nat) (t : Table K V) (key : K) : Nat :=
  if (find_impl hash t key).isSome then 1 else 0

/-- `erase_slot(slot_index)`. -/
def erase_slot (t : Table K V) (slot_index : Nat) : Table K V :=
  let t1 := setUnusedCtrl t slot_index kEmptyEntry
  { t1 with slot_size := (t1.slot_size + npow64 - 1) % npow64 }

/-- The loop of `find_and_erase`: the number of erased elements and the table. -/
def find_and_erase_loop (t : Table K V) (key : K) (ctrl_hash start_slot : Nat) :
    Nat → Nat → Nat → Nat × Table K V
  | 0, _, _ => (0, t)
  | fuel + 1, slot_index, distance =>
    let mask32 := matchHashAndDistance t.controls slot_index ctrl_hash distance
    match scanMask
        (fun pos => decide ((t.slots (round_index t (slot_index + (pos >>> 1)))).1 = key))
        32 mask32.maskHash with
    | some pos => (1, erase_slot t (round_index t (slot_index + (pos >>> 1))))
    | none =>
      if mask32.maskEmpty ≠ 0 then (0, t)
      else if slot_next_group t slot_index = start_slot then (0, t)
      else find_and_erase_loop t key ctrl_hash start_slot fuel (slot_next_group t slot_index)
        ((distance + kGroupWidth) % 256)

/-- `find_and_erase(key)`. -/
def find_and_erase (hash : K → Nat) (t : Table K V) (key : K) : Nat × Table K V :=
  let hash_code := get_hash hash key
  let ctrl_hash := get_ctrl_hash (get_second_hash hash_code)
  let slot_index := index_for t hash_code
  find_and_erase_loop t key ctrl_hash slot_index (t.slot_mask + 1) slot_index 0

/-- `erase(key)`: the number of removed elements and the table. -/
def erase (hash : K → Nat) (t : Table K V) (key : K) : Nat × Table K V :=
  find_and_erase hash t key

/-- `erase(const_iterator pos)` for the iterator with index `pos`: the table after
`erase_slot(index_of(pos))`. -/
def erase_at (t : Table K V) (pos : Nat) : Table K V := erase_slot t pos

/-- The `while (maskHash != 0)` loop of `find_and_prepare_insert`: every examined
candidate overwrites `distance` before its key is compared. The result is the
index of the matching slot, if any, and the value of `distance` afterwards. -/
def prepare_scan (t : Table K V) (key : K) (slot_index : Nat) : Nat → Nat → Nat → Option Nat × Nat
  | 0, _, distance => (none, distance)
  | fuel + 1, maskHash, distance =>
    if maskHash = 0 then (none, distance)
    else
      let pos := BitUtils.bsf32 maskHash
      let index := slot_index + (pos >>> 1)
      if (t.slots (round_index t index)).1 = key then
        (some (round_index t index), round_distance index)
      else prepare_scan t key slot_index fuel (BitUtils.clearLowBit32 maskHash)
        (round_distance index)

/-- How the probe loop of `find_and_prepare_insert` ends. -/
inductive Probe where
  /-- The key is stored at `index`. -/
  | found (index distance : Nat)
  /-- The group at `last_slot` reports an empty or poorer record. -/
  | vacant (last_slot maskEmpty : Nat)
  /-- The loop came back to the first group: `last_slot` is `npos`. -/
  | wrapped
  /-- The row index `(distance % kGroupWidth) / 4` is outside `kDistance16`. -/
  | out_of_bounds
deriving DecidableEq, Repr

/-- The `do ... while (slot_index != first_slot)` loop of `find_and_prepare_insert`. -/
def prepare_loop (t : Table K V) (key : K) (ctrl_hash first_slot : Nat) :
    Nat → Nat → Nat → Probe
  | 0, _, _ => Probe.wrapped
  | fuel + 1, slot_index, distance =>
    if (distance % kGroupWidth) / 4 < 4 then
      let mask32 := matchHashAndDistance t.controls slot_index ctrl_hash distance
      match prepare_scan t key slot_index 32 mask32.maskHash distance with
      | (some index, d) => Probe.found index d
      | (none, d) =>
        if mask32.maskEmpty ≠ 0 then Probe.vacant slot_index mask32.maskEmpty
        else if slot_next_group t slot_index = first_slot then Probe.wrapped
        else prepare_loop t key ctrl_hash first_slot fuel (slot_next_group t slot_index)
          ((d + kGroupWidth) % 256)
    else Probe.out_of_bounds

/-- What `find_and_prepare_insert` hands back: the table (it may have been
rehashed), the target index, `is_exists`, and the out-parameters. -/
structure Prepared (K V : Type) where
  table : Table K V
  index : Nat
  is_exists : Bool
  ctrl_hash : Nat
  distance : Nat

/-- The body of `find_and_prepare_insert` with a bound on the number of
rehash-and-retry rounds. `fresh n` is the content of the memory the `n`-th
rehash of the call allocates. -/
def prepare_rounds (hash : K → Nat) (fresh : Nat → Fresh K V) :
    Nat → Table K V → K → Option (Prepared K V)
  | 0, _, _ => none
  | fuel + 1, t, key =>
    let hash_code := get_hash hash key
    let ctrl_hash := get_ctrl_hash (get_second_hash hash_code)
    let first_slot := index_for t hash_code
    match prepare_loop t key ctrl_hash first_slot (t.slot_mask + 1) first_slot 0 with
    | Probe.found index d =>
      some { table := t, index := index, is_exists := true, ctrl_hash := ctrl_hash, distance := d }
    | Probe.out_of_bounds => none
    | Probe.wrapped =>
      match grow_if_necessary hash (fresh 0) t with
      | none => none
      | some t1 => prepare_rounds hash (fun n => fresh (n + 1)) fuel t1 key
    | Probe.vacant last_slot maskEmpty =>
      if need_grow t then
        match grow_if_necessary hash (fresh 0) t with
        | none => none
        | some t1 => prepare_rounds hash (fun n => fresh (n + 1)) fuel t1 key
      else
        let pos := BitUtils.bsf32 maskEmpty
        let index := last_slot + (pos >>> 1)
        some { table := t, index := round_index t index, is_exists := false,
               ctrl_hash := ctrl_hash, distance := round_distance index }

/-- `find_and_prepare_insert(key, o_ctrl_hash, o_distance)`. Every retry follows
a rehash that doubles the capacity, and a capacity of `2 ^ 63` cannot be
allocated, so 64 rounds are never used up. The result is `none` when a rehash
fails or does not return, or when the probe reads outside `kDistance16`. -/
def find_and_prepare_insert (hash : K → Nat) (fresh : Nat → Fresh K V) (t : Table K V)
    (key : K) : Option (Prepared K V) :=
  prepare_rounds hash fresh 64 t key

/-- `emplace_impl<AlwaysUpdate>(value)`: the table, the iterator and `inserted`. -/
def emplace_impl (hash : K → Nat) (fresh : Nat → Fresh K V) (AlwaysUpdate : Bool)
    (t : Table K V) (value : K × V) : Option (Table K V × Nat × Bool) :=
  match find_and_prepare_insert hash fresh t value.1 with
  | none => none
  | some r =>
    if !r.is_exists then
      let t1 := setUsedCtrl r.table r.index r.ctrl_hash r.distance
      some ({ t1 with
              slots := fun i => if i = r.index then value else t1.slots i
              slot_size := (t1.slot_size + 1) % npow64 }, r.index, true)
    else if AlwaysUpdate then
      some ({ r.table with
              slots := fun i => if i = r.index then ((r.table.slots i).1, value.2)
                                else r.table.slots i }, r.index, false)
    else some (r.table, r.index, false)

/-- `insert(value)`. -/
def insert (hash : K → Nat) (fresh : Nat → Fresh K V) (t : Table K V)
    (value : K × V) : Option (Table K V × Nat × Bool) :=
  emplace_impl hash fresh false t value

/-- `emplace(args...)`. -/
def emplace (hash : K → Nat) (fresh : Nat → Fresh K V) (t : Table K V)
    (value : K × V) : Option (Table K V × Nat × Bool) :=
  emplace_impl hash fresh false t value

/-- `insert_or_assign(key, value)`. -/
def insert_or_assign (hash : K → Nat) (fresh : Nat → Fresh K V) (t : Table K V)
    (key : K) (value : V) : Option (Table K V × Nat × Bool) :=
  emplace_impl hash fresh true t (key, value)

end ops

end robin32

/-! ## `robin32_hash_map`: predicates used in the statements -/

namespace robin32

variable {K V : Type}

/-- The 8-bit tag of a key: `get_ctrl_hash(get_second_hash(get_hash(key)))`. -/
def tagOf (hash : K → Nat) (key : K) : Nat :=
  get_ctrl_hash (get_second_hash (get_hash hash key))

/-- The slot index at which the probe for a key starts. -/
def homeOf (hash : K → Nat) (t : Table K V) (key : K) : Nat :=
  index_for t (get_hash hash key)

/-- The lane is reported empty or poorer by `matchHashAndDistance`. -/
def flagged (ctrl : Nat → control_data) (data distance j : Nat) : Bool :=
  (lowBits ctrl data j == kEmptyEntry) ||
    decide (lowBits ctrl data j >
      adds_epi16 (kDistance16 ((distance % kGroupWidth) / 4) j) distance)

/-- The lane is a candidate of `matchHashAndDistance`. -/
def candidate (ctrl : Nat → control_data) (data ctrl_hash distance j : Nat) : Bool :=
  !flagged ctrl data distance j && (highBits ctrl data j == ctrl_hash)

section
variable [DecidableEq K]

/-- The key test of the probing loops, as a function of the lane. -/
def keyAt (t : Table K V) (key : K) (slot_index : Nat) (j : Nat) : Bool :=
  decide ((t.slots (round_index t (slot_index + j))).1 = key)

/-- The result of the candidate scan of `find_impl` in the group at `slot_index`. -/
def scanGroup (t : Table K V) (key : K) (ctrl_hash slot_index : Nat) : Option Nat :=
  scanMask (fun pos => keyAt t key slot_index (pos >>> 1)) 32
    (matchHashAndDistance t.controls slot_index ctrl_hash 0).maskHash

end

/-- The groups a probe that starts at `f` can reach. -/
def Visited (n f f' : Nat) : Prop :=
  f' < 2 ^ n ∧ (5 ≤ n → f' % 32 = f % 32) ∧ (n < 5 → f' = f)

/-- The sizes of a table as `create_group` sets them: the capacity is a power of
two from 4 up to `2 ^ 62` and the group array covers it. -/
def WF (t : Table K V) : Prop :=
  ∃ n, 2 ≤ n ∧ n < 63 ∧ t.slot_mask + 1 = 2 ^ n ∧ t.group_mask + 1 = (2 ^ n + 31) / 32

/-- A record at a multiple of 256 other than 0 that carries the distance 0 carries
the tag 0. -/
def DistZero (t : Table K V) : Prop :=
  ∀ p, p < t.capacity → p % 256 = 0 → p ≠ 0 → (t.controls p).distance = 0 →
    (t.controls p).hash = 0

/-- A record in the first half of a group that a probe with tag 0 accepts at its
lane, and whose cell holds a key of tag 0, lies in the group at which the probe
for that key starts. -/
def HomeOnly (hash : K → Nat) (t : Table K V) : Prop :=
  ∀ p, p < t.capacity → p % 32 < 16 → (t.controls p).hash = 0 →
    (t.controls p).distance ≤ p % 32 → tagOf hash (t.slots p).1 = 0 →
    homeOf hash t (t.slots p).1 = p - p % 32

/-- Below the group width the records after the capacity are end marks, empty
marks, or copies of the record of their slot. -/
def SmallMirror (t : Table K V) : Prop :=
  t.capacity < 32 → ∀ q, t.capacity ≤ q → q < 16 →
    (t.controls q).distance ≥ kEndOfMark ∨
      (q < 2 * t.capacity ∧ t.controls q = t.controls (q - t.capacity))

/-- Two tables agree on the sizes and on the load factor. -/
def SameShape (s t : Table K V) : Prop :=
  s.slot_mask = t.slot_mask ∧ s.group_mask = t.group_mask ∧ s.n_mlf = t.n_mlf ∧
    s.n_mlf_rev = t.n_mlf_rev ∧ s.slot_threshold = t.slot_threshold

/-- The invariant of the reachable tables. -/
structure Inv (hash : K → Nat) (t : Table K V) : Prop where
  wf : WF t
  sizeBound : t.slot_size < 2 ^ 64
  distZero : DistZero t
  homeOnly : HomeOnly hash t
  smallMirror : SmallMirror t

/-- The tables the public operations build: the constructor, the insertions
(`insert`, `emplace`, `try_emplace`, `operator[]` with `AlwaysUpdate = false`,
`insert_or_assign` and `insert_always` with `AlwaysUpdate = true`), the two
`erase`, `rehash`/`reserve`/`resize`, `shrink_to_fit`, `clear` and
`max_load_factor`, each with arbitrary content of the memory it allocates. -/
inductive Reachable [DecidableEq K] (hash : K → Nat) : Table K V → Prop
  | ctor (fresh : Fresh K V) (init_capacity : Nat) (t : Table K V)
      (h : robin32_hash_map fresh init_capacity = some t) : Reachable hash t
  | emplace (fresh : Nat → Fresh K V) (AlwaysUpdate : Bool) (t t' : Table K V)
      (value : K × V) (it : Nat) (b : Bool) (ht : Reachable hash t)
      (h : emplace_impl hash fresh AlwaysUpdate t value = some (t', it, b)) : Reachable hash t'
  | erase (t : Table K V) (key : K) (ht : Reachable hash t) :
      Reachable hash (erase hash t key).2
  | erase_at (t : Table K V) (pos : Nat) (ht : Reachable hash t)
      (hpos : pos < t.capacity) (hused : (t.controls pos).isUsed = true) :
      Reachable hash (erase_at t pos)
  | rehash (fresh : Fresh K V) (t t' : Table K V) (new_capacity : Nat) (read_only : Bool)
      (ht : Reachable hash t) (h : rehash hash fresh t new_capacity read_only = some t') :
      Reachable hash t'
  | shrink_to_fit (fresh : Fresh K V) (t t' : Table K V) (read_only : Bool)
      (ht : Reachable hash t) (h : shrink_to_fit hash fresh t read_only = some t') :
      Reachable hash t'
  | clear (fresh : Fresh K V) (t t' : Table K V) (need_destory : Bool)
      (ht : Reachable hash t) (h : clear fresh t need_destory = some t') : Reachable hash t'
  | max_load_factor (fresh : Fresh K V) (t t' : Table K V) (n_mlf n_mlf_rev : Nat)
      (ht : Reachable hash t) (h : max_load_factor hash fresh t n_mlf n_mlf_rev = some t') :
      Reachable hash t'

end robin32

/-! ## Concrete inputs -/

namespace flat16

variable {K V : Type} [DecidableEq K]

/-- `rehash(new_capacity)`: the body is empty. -/
def rehash (t : Table K V) (_new_capacity : Nat) : Table K V := t

/-- `grow()`: `rehash((entry_mask_ + 1) * 2)`. -/
def grow (t : Table K V) : Table K V := rehash t (((t.entry_mask + 1) % npow64 * 2) % npow64)

/-- A sequence of `insert` calls, one after the other. -/
def insertMany (hash : K → Nat) : Table K V → List (K × V) → Option (Table K V)
  | t, [] => some t
  | t, v :: vs =>
    match insert hash t v with
    | none => none
    | some r => insertMany hash r.1 vs

/-- Cells without content: every cell reads `(0, 0)`. -/
def zeroMem : Nat → Nat × Nat := fun _ => (0, 0)

/-- The hasher `std::hash` of the integer types: the identity. -/
def idHash : Nat → Nat := fun k => k

end flat16

namespace robin32

variable {K V : Type} [DecidableEq K]

/-- Memory whose control bytes are all `0xFF` and whose cells hold `(0, 0)`. -/
def blank : Fresh Nat Nat := { controls := fun _ => ⟨0xFF, 0xFF⟩, slots := fun _ => (0, 0) }

/-- Fresh memory that reads as zero bytes: every control record reads
`(distance 0, hash 0)`, every cell `(0, 0)`. -/
def zeroed : Fresh Nat Nat := { controls := fun _ => ⟨0, 0⟩, slots := fun _ => (0, 0) }

/-- The hasher `std::hash` of the integer types: the identity. -/
def idHash : Nat → Nat := fun k => k

/-- A sequence of `insert` calls, one after the other. -/
def insertMany (hash : K → Nat) (fresh : Nat → Fresh K V) :
    Table K V → List (K × V) → Option (Table K V)
  | t, [] => some t
  | t, v :: vs =>
    match insert hash fresh t v with
    | none => none
    | some r => insertMany hash fresh r.1 vs

/-- The default-constructed map after a sequence of `insert` calls, with the
identity hasher and blank memory. -/
def built (l : List (Nat × Nat)) : Option (Table Nat Nat) :=
  (robin32_hash_map_default blank).bind fun t0 => insertMany idHash (fun _ => blank) t0 l

/-- The map `robin32_hash_map(init_capacity)` after a sequence of `insert` calls,
with the identity hasher and blank memory. -/
def builtWith (init_capacity : Nat) (l : List (Nat × Nat)) : Option (Table Nat Nat) :=
  (robin32_hash_map blank init_capacity).bind fun t0 =>
    insertMany idHash (fun _ => blank) t0 l

/-- The pairs held in the in-use slots, by increasing index. -/
def usedPairs (t : Table K V) : List (K × V) :=
  (List.range t.capacity).filterMap fun i =>
    if (t.controls i).isUsed then some (t.slots i) else none

/-- The number of in-use control records in `[0, capacity)`. -/
def usedCount (t : Table K V) : Nat :=
  ((List.range t.capacity).filter fun i => (t.controls i).isUsed).length

end robin32

/-! ## Lemmas on the bit utilities -/

namespace BitUtils

theorem bsfAux_ge (fuel x i : Nat) : i ≤ bsfAux fuel x i := by
  induction fuel generalizing i with
  | zero => simp [bsfAux]
  | succ f ih =>
    unfold bsfAux
    split
    · exact Nat.le_refl _
    · exact Nat.le_trans (Nat.le_succ i) (ih (i + 1))

theorem bsfAux_below (fuel x i j : Nat) (h1 : i ≤ j) (h2 : j < bsfAux fuel x i) :
    x.testBit j = false := by
  induction fuel generalizing i with
  | zero => simp [bsfAux] at h2; omega
  | succ f ih =>
    unfold bsfAux at h2
    split at h2
    · omega
    · rename_i hb
      rcases Nat.eq_or_lt_of_le h1 with h | h
      · subst h; simpa using hb
      · exact ih (i + 1) h h2

theorem bsfAux_set (fuel x i : Nat) (h : ∃ j, i ≤ j ∧ j < i + fuel ∧ x.testBit j = true) :
    x.testBit (bsfAux fuel x i) = true := by
  induction fuel generalizing i with
  | zero => obtain ⟨j, h1, h2, _⟩ := h; omega
  | succ f ih =>
    unfold bsfAux
    split
    · assumption
    · rename_i hb
      obtain ⟨j, h1, h2, h3⟩ := h
      apply ih
      refine ⟨j, ?_, by omega, h3⟩
      rcases Nat.eq_or_lt_of_le h1 with h | h
      · subst h; exact absurd h3 hb
      · exact h

theorem exists_testBit_of_ne_zero {x : Nat} (h : x ≠ 0) : ∃ j, x.testBit j = true := by
  by_contra hc
  apply h
  apply Nat.eq_of_testBit_eq
  intro i
  rw [Nat.zero_testBit]
  by_contra hi
  exact hc ⟨i, by simpa using hi⟩

theorem bsf32_set {x : Nat} (h0 : x ≠ 0) (hx : x < 2 ^ 32) : x.testBit (bsf32 x) = true := by
  obtain ⟨j, hj⟩ := exists_testBit_of_ne_zero h0
  have hj32 : j < 32 := by
    by_contra hc
    have : x < 2 ^ j := Nat.lt_of_lt_of_le hx (Nat.pow_le_pow_right (by decide) (by omega))
    rw [Nat.testBit_lt_two_pow this] at hj
    cases hj
  exact bsfAux_set 32 x 0 ⟨j, Nat.zero_le _, by omega, hj⟩

theorem bsf32_below {x j : Nat} (h : j < bsf32 x) : x.testBit j = false :=
  bsfAux_below 32 x 0 j (Nat.zero_le _) h

theorem bsf32_lt {x : Nat} (h0 : x ≠ 0) (hx : x < 2 ^ 32) : bsf32 x < 32 := by
  by_contra hc
  have h := bsf32_set h0 hx
  have : x < 2 ^ (bsf32 x) := Nat.lt_of_lt_of_le hx (Nat.pow_le_pow_right (by decide) (by omega))
  rw [Nat.testBit_lt_two_pow this] at h
  cases h

/-- The bits of `x & (x - 1)`: those of `x` without the lowest set one. -/
theorem testBit_land_pred (b : Nat) : ∀ (x : Nat), x.testBit b = true →
    (∀ i, i < b → x.testBit i = false) →
    ∀ i, (x &&& (x - 1)).testBit i = (x.testBit i && decide (i ≠ b)) := by
  induction b with
  | zero =>
    intro x hb _ i
    have hodd : x % 2 = 1 := by
      have := hb
      rw [Nat.testBit_zero] at this
      simpa using this
    rw [Nat.testBit_land]
    cases i with
    | zero =>
      have : (x - 1).testBit 0 = false := by
        rw [Nat.testBit_zero]; simp; omega
      simp [this]
    | succ i =>
      have : (x - 1) / 2 = x / 2 := by omega
      rw [Nat.testBit_succ, Nat.testBit_succ, this]
      simp
  | succ b ih =>
    intro x hb hlow i
    have heven : x % 2 = 0 := by
      have := hlow 0 (Nat.succ_pos _)
      rw [Nat.testBit_zero] at this
      simpa using this
    have hx0 : x ≠ 0 := by
      intro h; subst h; simp at hb
    rw [Nat.testBit_land]
    cases i with
    | zero =>
      have : x.testBit 0 = false := hlow 0 (Nat.succ_pos _)
      simp [this]
    | succ i =>
      have hhalf : (x - 1) / 2 = x / 2 - 1 := by omega
      rw [Nat.testBit_succ, Nat.testBit_succ, hhalf, ← Nat.testBit_land]
      have hb' : (x / 2).testBit b = true := by rw [← Nat.testBit_succ]; exact hb
      have hlow' : ∀ j, j < b → (x / 2).testBit j = false := by
        intro j hj
        rw [← Nat.testBit_succ]
        exact hlow (j + 1) (Nat.succ_lt_succ hj)
      rw [ih (x / 2) hb' hlow' i]
      simp

theorem testBit_clearLowBit32 {x : Nat} (h0 : x ≠ 0) (hx : x < 2 ^ 32) (i : Nat) :
    (clearLowBit32 x).testBit i = (x.testBit i && decide (i ≠ bsf32 x)) :=
  testBit_land_pred (bsf32 x) x (bsf32_set h0 hx) (fun _ h => bsf32_below h) i

theorem clearLowBit32_le (x : Nat) : clearLowBit32 x ≤ x := Nat.and_le_left

end BitUtils

theorem maskOf_lt (p : Nat → Bool) (n : Nat) : maskOf p n < 2 ^ n := by
  induction n with
  | zero => simp [maskOf]
  | succ m ihm =>
    unfold maskOf
    have : (if p m = true then 2 ^ m else 0) ≤ 2 ^ m := by split <;> simp
    rw [Nat.pow_succ]; omega

theorem testBit_maskOf (p : Nat → Bool) (n i : Nat) :
    (maskOf p n).testBit i = (decide (i < n) && p i) := by
  induction n with
  | zero => simp [maskOf]
  | succ n ih =>
    have hlt := maskOf_lt p n
    have hrw : maskOf p (n + 1) = 2 ^ n * (if p n = true then 1 else 0) + maskOf p n := by
      show maskOf p n + (if p n = true then 2 ^ n else 0) = _
      split <;> simp [Nat.add_comm]
    rw [hrw, Nat.testBit_mul_pow_two_add _ hlt]
    by_cases hin : i < n
    · simp [hin, ih, Nat.lt_succ_of_lt hin]
    · simp only [hin, if_false]
      by_cases hie : i = n
      · subst hie
        by_cases hp : p i = true <;> simp [hp]
      · have hgt : ¬ i < n + 1 := by omega
        have hpos : 0 < i - n := by omega
        obtain ⟨m, hm⟩ : ∃ m, i - n = m + 1 := ⟨i - n - 1, by omega⟩
        by_cases hp : p n = true <;> simp [hp, hgt, hm, Nat.testBit_succ]

theorem maskOf_eq_zero_iff (p : Nat → Bool) (n : Nat) :
    maskOf p n = 0 ↔ ∀ i, i < n → p i = false := by
  constructor
  · intro h i hi
    have := testBit_maskOf p n i
    rw [h, Nat.zero_testBit] at this
    simpa [hi] using this.symm
  · intro h
    apply Nat.eq_of_testBit_eq
    intro i
    rw [testBit_maskOf, Nat.zero_testBit]
    by_cases hi : i < n
    · simp [h i hi]
    · simp [hi]

theorem lt_two_pow_of_bits {x n : Nat} (h : ∀ i, x.testBit i = true → i < n) : x < 2 ^ n := by
  by_contra hc
  obtain ⟨i, hi1, hi2⟩ := Nat.ge_two_pow_implies_high_bit_true (Nat.le_of_not_lt hc)
  have := h i hi2
  omega

/-- What the scan loop computes: the lowest set bit of the mask at which `hit` holds. -/
theorem scanMask_spec (hit : Nat → Bool) : ∀ (fuel lo mask : Nat),
    (∀ i, mask.testBit i = true → lo ≤ i ∧ i < 32) → 32 ≤ lo + fuel →
    match scanMask hit fuel mask with
    | some p => mask.testBit p = true ∧ hit p = true ∧
        ∀ q, q < p → mask.testBit q = true → hit q = false
    | none => ∀ q, mask.testBit q = true → hit q = false := by
  intro fuel
  induction fuel with
  | zero =>
    intro lo mask hb hf
    simp only [scanMask]
    intro q hq
    have := hb q hq
    omega
  | succ f ih =>
    intro lo mask hb hf
    unfold scanMask
    by_cases h0 : mask = 0
    · simp only [h0, if_true]
      intro q hq
      simp at hq
    · simp only [h0, if_false]
      have hx : mask < 2 ^ 32 := lt_two_pow_of_bits (fun i hi => (hb i hi).2)
      have hset := BitUtils.bsf32_set h0 hx
      by_cases hh : hit (BitUtils.bsf32 mask) = true
      · rw [if_pos hh]
        refine ⟨hset, hh, ?_⟩
        intro q hq hqb
        rw [BitUtils.bsf32_below hq] at hqb
        cases hqb
      · rw [if_neg hh]
        have hb' : ∀ i, (BitUtils.clearLowBit32 mask).testBit i = true →
            BitUtils.bsf32 mask + 1 ≤ i ∧ i < 32 := by
          intro i hi
          rw [BitUtils.testBit_clearLowBit32 h0 hx] at hi
          simp only [Bool.and_eq_true, decide_eq_true_eq] at hi
          have hge : BitUtils.bsf32 mask ≤ i := by
            by_contra hc
            rw [BitUtils.bsf32_below (Nat.lt_of_not_le hc)] at hi
            exact absurd hi.1 (by simp)
          have := hb i hi.1
          omega
        have hlo := (hb _ hset).1
        have := ih (BitUtils.bsf32 mask + 1) (BitUtils.clearLowBit32 mask) hb' (by omega)
        have hbits : ∀ q, q ≠ BitUtils.bsf32 mask → mask.testBit q = true →
            (BitUtils.clearLowBit32 mask).testBit q = true := by
          intro q hq hqb
          rw [BitUtils.testBit_clearLowBit32 h0 hx]
          simp [hqb, hq]
        have hbits' : ∀ q, (BitUtils.clearLowBit32 mask).testBit q = true → mask.testBit q = true := by
          intro q hq
          rw [BitUtils.testBit_clearLowBit32 h0 hx] at hq
          simp only [Bool.and_eq_true] at hq
          exact hq.1
        revert this
        generalize scanMask hit f (BitUtils.clearLowBit32 mask) = r
        cases r with
        | none =>
          intro hn q hq
          by_cases hqe : q = BitUtils.bsf32 mask
          · subst hqe; simpa using hh
          · exact hn q (hbits q hqe hq)
        | some p =>
          rintro ⟨h1, h2, h3⟩
          refine ⟨hbits' p h1, h2, ?_⟩
          intro q hq hqb
          by_cases hqe : q = BitUtils.bsf32 mask
          · subst hqe; simpa using hh
          · exact h3 q hq (hbits q hqe hqb)

/-! ## `flat16_hash_map`: probing lemmas -/

namespace flat16

variable {K V : Type}

theorem mod_add_inj {N s n n' : Nat} (hn : n < N) (hn' : n' < N)
    (h : (s + n) % N = (s + n') % N) : n = n' := by
  have h1 : n % N = n' % N := Nat.ModEq.add_left_cancel' s h
  rwa [Nat.mod_eq_of_lt hn, Nat.mod_eq_of_lt hn'] at h1

theorem succ_mod_eq_start {N s n : Nat} (hs : s < N) (hn : n < N)
    (h : ((s + n) % N + 1) % N = s) : n + 1 = N := by
  have h0 : (s + n + 1) % N = ((s + n) % N + 1) % N := by
    rw [Nat.add_mod (s + n) 1 N, Nat.add_mod ((s + n) % N) 1 N, Nat.mod_mod]
  have h1 : (s + (n + 1)) % N = (s + 0) % N := by
    rw [← Nat.add_assoc, h0, h, Nat.add_zero, Nat.mod_eq_of_lt hs]
  have h2 : (n + 1) % N = 0 % N := Nat.ModEq.add_left_cancel' s h1
  rw [Nat.zero_mod] at h2
  have h3 : N ∣ n + 1 := Nat.dvd_of_mod_eq_zero h2
  have h4 : N ≤ n + 1 := Nat.le_of_dvd (Nat.succ_pos n) h3
  omega

theorem exists_step {N s c : Nat} (hs : s < N) (hc : c < N) :
    ∃ n, n < N ∧ (s + n) % N = c := by
  by_cases h : s ≤ c
  · refine ⟨c - s, by omega, ?_⟩
    have : s + (c - s) = c := by omega
    rw [this, Nat.mod_eq_of_lt hc]
  · refine ⟨N + c - s, by omega, ?_⟩
    have : s + (N + c - s) = c + N := by omega
    rw [this, Nat.add_mod_right, Nat.mod_eq_of_lt hc]

theorem getMatchMask_testBit (t : Table K V) (c tag i : Nat) :
    (getMatchMask t c tag).testBit i = (decide (i < 16) && (t.controls (c * 16 + i) == tag)) := by
  unfold getMatchMask
  rw [testBit_maskOf]
  rfl

section
variable [DecidableEq K]

theorem matchKey_spec (t : Table K V) (key : K) (tag c : Nat) :
    match matchKey t key (c * kClusterEntries) (matchHash t c tag) with
    | some pos => pos < 16 ∧ t.controls (c * 16 + pos) = tag ∧
        (t.entries (c * 16 + pos)).1 = key ∧
        ∀ q, q < pos → t.controls (c * 16 + q) = tag → (t.entries (c * 16 + q)).1 ≠ key
    | none => NoMatch t key tag c := by
  have hb : ∀ i, (matchHash t c tag).testBit i = true → 0 ≤ i ∧ i < 32 := by
    intro i hi
    unfold matchHash at hi
    rw [getMatchMask_testBit] at hi
    simp only [Bool.and_eq_true, decide_eq_true_eq] at hi
    omega
  have h := scanMask_spec (fun pos => decide ((t.entries (c * kClusterEntries + pos)).1 = key))
    32 0 (matchHash t c tag) hb (by omega)
  unfold matchKey
  revert h
  generalize scanMask _ 32 (matchHash t c tag) = r
  cases r with
  | none =>
    intro h i hi hc
    have := h i (by unfold matchHash; rw [getMatchMask_testBit]; simp [hi, hc])
    simpa [kClusterEntries] using this
  | some p =>
    rintro ⟨h1, h2, h3⟩
    unfold matchHash at h1
    rw [getMatchMask_testBit] at h1
    simp only [Bool.and_eq_true, decide_eq_true_eq, beq_iff_eq] at h1
    refine ⟨h1.1, h1.2, by simpa [kClusterEntries] using h2, ?_⟩
    intro q hq hc
    have := h3 q hq (by unfold matchHash; rw [getMatchMask_testBit]; simp [hc]; omega)
    simpa [kClusterEntries] using this

omit [DecidableEq K] in
theorem hasAnyEmpty_iff (t : Table K V) (c : Nat) :
    hasAnyEmpty t c = true ↔ ∃ i, i < 16 ∧ t.controls (c * 16 + i) = kEmptyEntry := by
  unfold hasAnyEmpty matchEmpty getMatchMask
  rw [bne_iff_ne, Ne, maskOf_eq_zero_iff]
  simp only [kClusterEntries, beq_eq_false_iff_ne, ne_eq, not_forall, not_not, exists_prop]

omit [DecidableEq K] in
theorem next_cluster_eq (t : Table K V) {j : Nat} (hm : t.cluster_mask + 1 = 2 ^ j)
    (hj : 2 ^ j < 2 ^ 64) (c : Nat) (hc : c < 2 ^ j) :
    next_cluster t c = (c + 1) % 2 ^ j := by
  unfold next_cluster npow64
  have h1 : t.cluster_mask = 2 ^ j - 1 := by omega
  have h2 : (c + 1) % 2 ^ 64 = c + 1 := Nat.mod_eq_of_lt (by omega)
  rw [h1, h2, Nat.and_pow_two_sub_one_eq_mod]

theorem find_impl_loop_spec (t : Table K V) (key : K) (tag start j : Nat)
    (hm : t.cluster_mask + 1 = 2 ^ j) (hj : 2 ^ j < 2 ^ 64) (hs : start < 2 ^ j) :
    ∀ fuel n, n < 2 ^ j → 2 ^ j ≤ n + fuel →
      (∀ m, m < n → Passed t key tag ((start + m) % 2 ^ j)) →
      FindSpec t key tag start (2 ^ j)
        (find_impl_loop t key tag start fuel ((start + n) % 2 ^ j)) := by
  intro fuel
  induction fuel with
  | zero => intro n h1 h2; omega
  | succ f ih =>
    intro n hn hf hpass
    unfold find_impl_loop
    have hmk := matchKey_spec t key tag ((start + n) % 2 ^ j)
    revert hmk
    generalize matchKey t key ((start + n) % 2 ^ j * kClusterEntries)
      (matchHash t ((start + n) % 2 ^ j) tag) = r
    cases r with
    | some pos =>
      rintro ⟨h1, h2, h3, h4⟩
      simp only [kClusterEntries]
      exact FindSpec.found n pos hn hpass h1 h2 h3 h4
    | none =>
      intro hno
      simp only
      by_cases he : hasAnyEmpty t ((start + n) % 2 ^ j) = true
      · rw [if_pos he]
        exact FindSpec.stopped n hn hpass hno ((hasAnyEmpty_iff _ _).1 he)
      · rw [if_neg he]
        have hne : ∀ i, i < 16 → t.controls ((start + n) % 2 ^ j * 16 + i) ≠ kEmptyEntry := by
          intro i hi hc
          exact he ((hasAnyEmpty_iff _ _).2 ⟨i, hi, hc⟩)
        have hpass' : ∀ m, m < n + 1 → Passed t key tag ((start + m) % 2 ^ j) := by
          intro m hm'
          rcases Nat.lt_succ_iff_lt_or_eq.1 hm' with h | h
          · exact hpass m h
          · subst h; exact ⟨hno, hne⟩
        have hnext := next_cluster_eq t hm hj ((start + n) % 2 ^ j) (Nat.mod_lt _ (by positivity))
        by_cases hw : next_cluster t ((start + n) % 2 ^ j) = start
        · rw [if_pos hw]
          rw [hnext] at hw
          have := succ_mod_eq_start hs hn hw
          apply FindSpec.full
          intro m hm'
          exact hpass' m (by omega)
        · rw [if_neg hw]
          have hn1 : n + 1 < 2 ^ j := by
            by_contra hc
            have hN : n + 1 = 2 ^ j := by omega
            apply hw
            rw [hnext, Nat.add_mod, Nat.mod_mod, ← Nat.add_mod, Nat.add_assoc, hN,
              Nat.add_mod_right, Nat.mod_eq_of_lt hs]
          have hc' : next_cluster t ((start + n) % 2 ^ j) = (start + (n + 1)) % 2 ^ j := by
            rw [hnext, Nat.add_mod, Nat.mod_mod, ← Nat.add_mod, Nat.add_assoc]
          rw [hc']
          exact ih (n + 1) hn1 (by omega) hpass'

theorem find_loop_eq (t : Table K V) (key : K) (tag start : Nat) : ∀ fuel c,
    find_loop t key tag start fuel c =
      match (find_impl_loop t key tag start fuel c).1 with
      | some i => i
      | none => t.entry_capacity := by
  intro fuel
  induction fuel with
  | zero => intro c; rfl
  | succ f ih =>
    intro c
    unfold find_loop find_impl_loop
    cases matchKey t key (c * kClusterEntries) (matchHash t c tag) with
    | some pos => rfl
    | none =>
      simp only
      by_cases he : hasAnyEmpty t c = true
      · rw [if_pos he, if_pos he]
      · rw [if_neg he, if_neg he]
        by_cases hw : next_cluster t c = start
        · rw [if_pos hw, if_pos hw]
        · rw [if_neg hw, if_neg hw]
          exact ih _

theorem find_eq (hash : K → Nat) (t : Table K V) (key : K) :
    find hash t key =
      match (find_impl hash t key).index with
      | some i => i
      | none => t.entry_capacity := by
  unfold find find_impl
  exact find_loop_eq _ _ _ _ _ _

omit [DecidableEq K] in
theorem capacity_eq {t : Table K V} {j : Nat} (h2 : t.entry_mask + 1 = 16 * 2 ^ j)
    (h3 : 16 * 2 ^ j < 2 ^ 64) : t.capacity = 16 * 2 ^ j := by
  unfold Table.capacity npow64
  rw [h2, Nat.mod_eq_of_lt h3]

omit [DecidableEq K] in
theorem index_for_lt (t : Table K V) {j : Nat} (hm : t.cluster_mask + 1 = 2 ^ j) (h : Nat) :
    index_for t h < 2 ^ j := by
  unfold index_for
  have h1 : t.cluster_mask = 2 ^ j - 1 := by omega
  rw [h1, Nat.and_pow_two_sub_one_eq_mod]
  exact Nat.mod_lt _ (by positivity)

/-- The outcome of `find_impl` on a well-formed table. -/
theorem find_impl_spec (hash : K → Nat) (t : Table K V) (key : K) {j : Nat}
    (hm : t.cluster_mask + 1 = 2 ^ j) (hj : 2 ^ j < 2 ^ 64) :
    FindSpec t key (get_control_hash (get_hash hash key)) (index_for t (get_hash hash key))
      (2 ^ j) ((find_impl hash t key).index, (find_impl hash t key).last_cluster) := by
  have hs := index_for_lt t hm (get_hash hash key)
  have h := find_impl_loop_spec t key (get_control_hash (get_hash hash key))
    (index_for t (get_hash hash key)) j hm hj hs (t.cluster_mask + 1) 0 (by positivity)
    (by omega) (by intro m hm'; omega)
  have e : (index_for t (get_hash hash key) + 0) % 2 ^ j = index_for t (get_hash hash key) :=
    Nat.mod_eq_of_lt hs
  rw [e] at h
  exact h

omit [DecidableEq K] in
theorem cluster_index_lt {N c pos : Nat} (hc : c < N) (hpos : pos < 16) : c * 16 + pos < 16 * N := by
  have : c + 1 ≤ N := hc
  nlinarith

end

end flat16

namespace flat16

variable {K V : Type}

theorem tag_lt (h : Nat) : get_control_hash h < 128 := by
  unfold get_control_hash kControlHashMask
  have : h &&& 0x7F ≤ 0x7F := Nat.and_le_right
  omega

/-- In a well-formed table with an empty entry the probe cannot go round the
whole table. -/
theorem not_full_of_empty [DecidableEq K] (t : Table K V) (key : K) (tag start j : Nat)
    (hs : start < 2 ^ j)
    (hcap : t.capacity = 16 * 2 ^ j)
    (hempty : ∃ i, i < t.capacity ∧ t.controls i = kEmptyEntry)
    (hpass : ∀ m, m < 2 ^ j → Passed t key tag ((start + m) % 2 ^ j)) : False := by
  obtain ⟨i, hi, hie⟩ := hempty
  rw [hcap] at hi
  have hc : i / 16 < 2 ^ j := by omega
  obtain ⟨n, hn, hnc⟩ := exists_step hs hc
  have := (hpass n hn).2 (i % 16) (Nat.mod_lt _ (by decide))
  rw [hnc] at this
  apply this
  have : i / 16 * 16 + i % 16 = i := by omega
  rw [this]
  exact hie

/-- What `insert` returns on a well-formed table with an empty slot. -/
theorem insert_returns [DecidableEq K] (hash : K → Nat) (t : Table K V)
    (k : K) (v : V) (hwf : WellFormed t)
    (hempty : ∃ i, i < t.capacity ∧ t.controls i = kEmptyEntry) :
    ∃ t' it b, insert hash t (k, v) = some (t', it, b) ∧
      (b = true ↔ find hash t k = t.entry_capacity) ∧
      (b = true → t'.size = t.size + 1) ∧
      (b = false → t'.size = t.size) := by
  obtain ⟨j, hm, he, hlt⟩ := hwf
  have hj : 2 ^ j < 2 ^ 64 := by omega
  have hcap := capacity_eq he hlt
  have hspec := find_impl_spec hash t k hm hj
  have hfe := find_eq hash t k
  have hs := index_for_lt t hm (get_hash hash k)
  simp only [insert, emplace_impl]
  generalize find_impl hash t k = fi at hspec hfe
  rcases fi with ⟨idx, fc, lc, ch⟩
  simp only at hspec hfe
  cases hspec with
  | found n pos hn hpass hpos htag hkey hmin =>
    simp only [if_true]
    refine ⟨_, _, false, rfl, ?_, by simp, by intro _; rfl⟩
    rw [hfe]
    have hlt' := cluster_index_lt (Nat.mod_lt (index_for t (get_hash hash k) + n)
      (show 0 < 2 ^ j by positivity)) hpos
    have : t.entry_capacity = 16 * 2 ^ j := hcap
    constructor
    · intro h; cases h
    · intro h
      have h' : (index_for t (get_hash hash k) + n) % 2 ^ j * 16 + pos = t.entry_capacity := h
      omega
  | stopped n hn hpass hno hempty' =>
    simp only
    cases (find_deleted_loop t fc (some ((index_for t (get_hash hash k) + n) % 2 ^ j))
        (t.cluster_mask + 1) fc).1 with
    | some index =>
      simp only
      exact ⟨_, _, true, rfl, by simp [hfe], by intro _; rfl, by simp⟩
    | none =>
      simp only
      exact ⟨_, _, true, rfl, by simp [hfe], by intro _; rfl, by simp⟩
  | full hpass =>
    exact (not_full_of_empty t k _ _ j hs hcap hempty hpass).elim

/-- **C3.** flat16: in a table with a power-of-two capacity and at least one
empty slot, `insert(k, v)` returns, and it returns `inserted = true` exactly when
`find(k)` was `end()` beforehand; the size grows by one when it returns `true`
and is unchanged when it returns `false`. -/
theorem flat16_insert_inserted_iff [DecidableEq K] (hash : K → Nat) (t : Table K V)
    (k : K) (v : V) (hwf : WellFormed t)
    (hempty : ∃ i, i < t.capacity ∧ t.controls i = kEmptyEntry) :
    ∃ t' it b, insert hash t (k, v) = some (t', it, b) ∧
      (b = true ↔ find hash t k = t.entry_capacity) ∧
      (b = true → t'.size = t.size + 1) ∧
      (b = false → t'.size = t.size) :=
  insert_returns hash t k v hwf hempty

end flat16

namespace flat16

variable {K V : Type}

theorem isUsed_tag (h : Nat) : control_byte.isUsed (get_control_hash h) = true := by
  have := tag_lt h
  unfold control_byte.isUsed asInt8
  rw [if_pos this]
  simp

theorem tag_ne_empty (h : Nat) : get_control_hash h ≠ kEmptyEntry := by
  have := tag_lt h
  unfold kEmptyEntry
  omega

theorem tag_ne_deleted (h : Nat) : get_control_hash h ≠ kDeletedEntry := by
  have := tag_lt h
  unfold kDeletedEntry
  omega

theorem isUsed_empty : control_byte.isUsed kEmptyEntry = false := by decide

/-- In a table that satisfies the invariant a stored key is found where it is stored. -/
theorem find_impl_present [DecidableEq K] (hash : K → Nat) (t : Table K V) (hinv : Inv hash t)
    (k : K) (i : Nat) (hi : i < t.capacity) (hu : t.controls i ≠ kEmptyEntry)
    (hk : (t.entries i).1 = k) : (find_impl hash t k).index = some i := by
  obtain ⟨j, hm, he, hlt⟩ := hinv.wf
  have hj : 2 ^ j < 2 ^ 64 := by omega
  have hcap := capacity_eq he hlt
  have hspec := find_impl_spec hash t k hm hj
  have htag : t.controls i = get_control_hash (get_hash hash k) := by
    rcases hinv.ctl i hi with h | h
    · exact absurd h hu
    · rw [h, hk]
  obtain ⟨ni, hni, hnc, hnp⟩ := hinv.path i hi hu
  rw [hk, hm] at hnc hnp
  rw [hm] at hni
  have hsplit : i / 16 * 16 + i % 16 = i := by omega
  have hmatch : ∀ c, c = i / 16 → ¬ NoMatch t k (get_control_hash (get_hash hash k)) c := by
    intro c hc hno
    subst hc
    exact hno (i % 16) (Nat.mod_lt _ (by decide)) (by rw [hsplit]; exact htag)
      (by rw [hsplit]; exact hk)
  generalize find_impl hash t k = fi at hspec
  rcases fi with ⟨idx, fc, lc, ch⟩
  simp only at hspec ⊢
  cases hspec with
  | found n pos hn hpass hpos htag' hkey hmin =>
    have hlt' := cluster_index_lt (Nat.mod_lt (index_for t (get_hash hash k) + n)
      (show 0 < 2 ^ j by positivity)) hpos
    congr 1
    refine hinv.uniq _ _ (by rw [hcap]; exact hlt') hi ?_ hu (by rw [hkey, hk])
    rw [htag']
    exact tag_ne_empty _
  | stopped n hn hpass hno hempty' =>
    exfalso
    rcases Nat.lt_trichotomy ni n with h | h | h
    · exact hmatch _ hnc (hpass ni h).1
    · subst h; exact hmatch _ hnc hno
    · obtain ⟨q, hq, hqe⟩ := hempty'
      exact hnp n h q hq hqe
  | full hpass =>
    exfalso
    exact hmatch _ hnc (hpass ni hni).1

/-- The invariant only looks at the control bytes, the masks and the stored keys. -/
theorem inv_congr (hash : K → Nat) {t t' : Table K V} (hinv : Inv hash t)
    (hc : t'.controls = t.controls) (hcm : t'.cluster_mask = t.cluster_mask)
    (hem : t'.entry_mask = t.entry_mask) (hk : ∀ i, (t'.entries i).1 = (t.entries i).1) :
    Inv hash t' := by
  have hcap : t'.capacity = t.capacity := by unfold Table.capacity; rw [hem]
  have hix : ∀ h, index_for t' h = index_for t h := by intro h; unfold index_for; rw [hcm]
  refine ⟨?_, ?_, ?_, ?_⟩
  · obtain ⟨j, h1, h2, h3⟩ := hinv.wf
    exact ⟨j, by rw [hcm]; exact h1, by rw [hem]; exact h2, h3⟩
  · intro i hi
    rw [hc, hk]
    exact hinv.ctl i (hcap ▸ hi)
  · intro i hi hu
    rw [hc] at hu ⊢
    rw [hk, hcm, hix]
    exact hinv.path i (hcap ▸ hi) hu
  · intro i i' hi hi' hu hu' hkk
    rw [hc] at hu hu'
    rw [hk, hk] at hkk
    exact hinv.uniq i i' (hcap ▸ hi) (hcap ▸ hi') hu hu' hkk

theorem matchDeleted_eq_zero (t : Table K V) (c : Nat)
    (h : ∀ i, i < 16 → t.controls (c * 16 + i) ≠ kDeletedEntry) : matchDeleted t c = 0 := by
  unfold matchDeleted getMatchMask
  rw [maskOf_eq_zero_iff]
  intro i hi
  simpa [kClusterEntries] using h i hi

theorem first_empty (t : Table K V) (c : Nat)
    (h : ∃ i, i < 16 ∧ t.controls (c * 16 + i) = kEmptyEntry) :
    BitUtils.bsf32 (matchEmpty t c) < 16 ∧
      t.controls (c * 16 + BitUtils.bsf32 (matchEmpty t c)) = kEmptyEntry := by
  have h0 : matchEmpty t c ≠ 0 := by
    have := (hasAnyEmpty_iff t c).2 h
    unfold hasAnyEmpty at this
    exact bne_iff_ne.1 this
  have hlt : matchEmpty t c < 2 ^ 32 := by
    have : matchEmpty t c < 2 ^ 16 := maskOf_lt _ 16
    omega
  have hset := BitUtils.bsf32_set h0 hlt
  unfold matchEmpty at hset ⊢
  rw [getMatchMask_testBit] at hset
  simpa using hset

theorem find_deleted_loop_none (t : Table K V) (first j nl : Nat)
    (hm : t.cluster_mask + 1 = 2 ^ j) (hj : 2 ^ j < 2 ^ 64) (hs : first < 2 ^ j)
    (hnl : nl < 2 ^ j)
    (hnd : ∀ c i, c < 2 ^ j → i < 16 → t.controls (c * 16 + i) ≠ kDeletedEntry) :
    ∀ fuel n, n ≤ nl → 2 ^ j ≤ n + fuel →
      find_deleted_loop t first (some ((first + nl) % 2 ^ j)) fuel ((first + n) % 2 ^ j)
        = (none, (first + nl) % 2 ^ j) := by
  intro fuel
  induction fuel with
  | zero => intro n h1 h2; omega
  | succ f ih =>
    intro n hn hf
    have hpos : 0 < 2 ^ j := by positivity
    unfold find_deleted_loop
    have hz := matchDeleted_eq_zero t ((first + n) % 2 ^ j)
      (fun i hi => hnd _ i (Nat.mod_lt _ hpos) hi)
    rw [if_neg (by rw [hz]; simp)]
    rcases Nat.eq_or_lt_of_le hn with h | h
    · subst h
      rw [if_pos rfl]
    · have hne : ¬ (some ((first + n) % 2 ^ j) = some ((first + nl) % 2 ^ j)) := by
        intro hc
        have := mod_add_inj (by omega) hnl (Option.some.inj hc)
        omega
      rw [if_neg hne]
      have hnext := next_cluster_eq t hm hj ((first + n) % 2 ^ j) (Nat.mod_lt _ hpos)
      have hc' : next_cluster t ((first + n) % 2 ^ j) = (first + (n + 1)) % 2 ^ j := by
        rw [hnext, Nat.add_mod, Nat.mod_mod, ← Nat.add_mod, Nat.add_assoc]
      have hw : ¬ next_cluster t ((first + n) % 2 ^ j) = first := by
        intro hc
        rw [hnext] at hc
        have := succ_mod_eq_start hs (by omega) hc
        omega
      rw [if_neg hw, hc']
      exact ih (n + 1) h (by omega)

theorem find_deleted_loop_fst_none (t : Table K V) (first : Nat) (last : Option Nat) (j : Nat)
    (hm : t.cluster_mask + 1 = 2 ^ j) (hj : 2 ^ j < 2 ^ 64)
    (hnd : ∀ c i, c < 2 ^ j → i < 16 → t.controls (c * 16 + i) ≠ kDeletedEntry) :
    ∀ fuel c, c < 2 ^ j → (find_deleted_loop t first last fuel c).1 = none := by
  intro fuel
  induction fuel with
  | zero => intro c _; rfl
  | succ f ih =>
    intro c hc
    unfold find_deleted_loop
    have hz := matchDeleted_eq_zero t c (fun i hi => hnd _ i hc hi)
    rw [if_neg (by rw [hz]; simp)]
    split
    · rfl
    · split
      · rfl
      · apply ih
        rw [next_cluster_eq t hm hj c hc]
        exact Nat.mod_lt _ (by positivity)

/-- Writing a new key into an empty entry at the end of its probe path keeps the
invariant. -/
theorem inv_place [DecidableEq K] (hash : K → Nat) {t : Table K V} (hinv : Inv hash t)
    (k : K) (v : V) (j n pos : Nat)
    (hm : t.cluster_mask + 1 = 2 ^ j) (hn : n < 2 ^ j) (hpos : pos < 16)
    (hpass : ∀ m, m < n → ∀ q, q < 16 →
      t.controls ((index_for t (get_hash hash k) + m) % 2 ^ j * 16 + q) ≠ kEmptyEntry)
    (habs : ∀ i, i < t.capacity → t.controls i ≠ kEmptyEntry → (t.entries i).1 ≠ k) :
    Inv hash (place t ((index_for t (get_hash hash k) + n) % 2 ^ j * 16 + pos)
      (get_control_hash (get_hash hash k)) (k, v)) := by
  set ix := (index_for t (get_hash hash k) + n) % 2 ^ j * 16 + pos with hix
  have hmono : ∀ p, (place t ix (get_control_hash (get_hash hash k)) (k, v)).controls p
      = kEmptyEntry → t.controls p = kEmptyEntry := by
    intro p hp
    simp only [place] at hp
    by_cases hpi : p = ix
    · rw [if_pos hpi] at hp
      exact absurd hp (tag_ne_empty _)
    · rw [if_neg hpi] at hp
      exact hp
  refine ⟨hinv.wf, ?_, ?_, ?_⟩
  · intro i hi
    simp only [place]
    by_cases hii : i = ix
    · rw [if_pos hii, if_pos hii]
      right; rfl
    · rw [if_neg hii, if_neg hii]
      exact hinv.ctl i hi
  · intro i hi hu
    by_cases hii : i = ix
    · refine ⟨n, by rw [show (place t ix _ (k, v)).cluster_mask = t.cluster_mask from rfl, hm]; exact hn, ?_, ?_⟩
      · have hk : ((place t ix (get_control_hash (get_hash hash k)) (k, v)).entries i).1 = k := by
          simp only [place]; rw [if_pos hii]
        rw [hk]
        show (index_for t (get_hash hash k) + n) % (t.cluster_mask + 1) = i / 16
        rw [hm, hii, hix]
        omega
      · intro m hmn q hq hc
        have hk : ((place t ix (get_control_hash (get_hash hash k)) (k, v)).entries i).1 = k := by
          simp only [place]; rw [if_pos hii]
        rw [hk] at hc
        have := hmono _ hc
        exact hpass m hmn q hq (by
          have e : (place t ix (get_control_hash (get_hash hash k)) (k, v)).cluster_mask + 1 = 2 ^ j := hm
          rw [e] at this
          exact this)
    · have hk : ((place t ix (get_control_hash (get_hash hash k)) (k, v)).entries i).1
          = (t.entries i).1 := by
        simp only [place]; rw [if_neg hii]
      have hu' : t.controls i ≠ kEmptyEntry := by
        intro hc
        apply hu
        simp only [place]
        rw [if_neg hii]
        exact hc
      obtain ⟨ni, h1, h2, h3⟩ := hinv.path i hi hu'
      rw [hk]
      refine ⟨ni, h1, h2, ?_⟩
      intro m hmn q hq hc
      exact h3 m hmn q hq (hmono _ hc)
  · intro i i' hi hi' hu hu' hkk
    by_cases hii : i = ix
    · by_cases hii' : i' = ix
      · rw [hii, hii']
      · exfalso
        have h1 : ((place t ix (get_control_hash (get_hash hash k)) (k, v)).entries i).1 = k := by
          simp only [place]; rw [if_pos hii]
        have h2 : ((place t ix (get_control_hash (get_hash hash k)) (k, v)).entries i').1
            = (t.entries i').1 := by
          simp only [place]; rw [if_neg hii']
        rw [h1, h2] at hkk
        exact habs i' hi' (fun hc => hu' (by simp only [place]; rw [if_neg hii']; exact hc))
          hkk.symm
    · by_cases hii' : i' = ix
      · exfalso
        have h1 : ((place t ix (get_control_hash (get_hash hash k)) (k, v)).entries i').1 = k := by
          simp only [place]; rw [if_pos hii']
        have h2 : ((place t ix (get_control_hash (get_hash hash k)) (k, v)).entries i).1
            = (t.entries i).1 := by
          simp only [place]; rw [if_neg hii]
        rw [h1, h2] at hkk
        exact habs i hi (fun hc => hu (by simp only [place]; rw [if_neg hii]; exact hc)) hkk
      · have h1 : ((place t ix (get_control_hash (get_hash hash k)) (k, v)).entries i).1
            = (t.entries i).1 := by
          simp only [place]; rw [if_neg hii]
        have h2 : ((place t ix (get_control_hash (get_hash hash k)) (k, v)).entries i').1
            = (t.entries i').1 := by
          simp only [place]; rw [if_neg hii']
        rw [h1, h2] at hkk
        exact hinv.uniq i i' hi hi'
          (fun hc => hu (by simp only [place]; rw [if_neg hii]; exact hc))
          (fun hc => hu' (by simp only [place]; rw [if_neg hii']; exact hc)) hkk

/-- Every returning `emplace_impl` keeps the invariant and hands back the
position at which the key is stored afterwards. -/
theorem emplace_impl_inv [DecidableEq K] (hash : K → Nat) (ua : Bool) {t t' : Table K V}
    (hinv : Inv hash t) (k : K) (v : V) (it : Nat) (b : Bool)
    (h : emplace_impl hash ua t (k, v) = some (t', it, b)) :
    Inv hash t' ∧ it < t'.capacity ∧ t'.controls it ≠ kEmptyEntry ∧ (t'.entries it).1 = k := by
  obtain ⟨j, hm, he, hlt⟩ := hinv.wf
  have hj : 2 ^ j < 2 ^ 64 := by omega
  have hcap := capacity_eq he hlt
  have hspec := find_impl_spec hash t k hm hj
  have hs := index_for_lt t hm (get_hash hash k)
  have hpres := fun i hi hu hk => find_impl_present hash t hinv k i hi hu hk
  have hfc : (find_impl hash t k).first_cluster = index_for t (get_hash hash k) := rfl
  have hch : (find_impl hash t k).ctrl_hash = get_control_hash (get_hash hash k) := rfl
  have hpos2 : 0 < 2 ^ j := by positivity
  simp only [emplace_impl] at h
  generalize find_impl hash t k = fi at hspec hpres hfc hch h
  rcases fi with ⟨idx, fc, lc, ch⟩
  simp only at hspec hpres hfc hch h
  subst hfc hch
  cases hspec with
  | found n pos hn hpass hpos htag hkey hmin =>
    simp only at h
    have hlt' := cluster_index_lt (Nat.mod_lt (index_for t (get_hash hash k) + n) hpos2) hpos
    have hu : t.controls ((index_for t (get_hash hash k) + n) % 2 ^ j * 16 + pos)
        ≠ kEmptyEntry := by
      rw [htag]; exact tag_ne_empty _
    cases ua with
    | true =>
      simp only [if_true, Option.some.injEq, Prod.mk.injEq] at h
      obtain ⟨h1, h2, h3⟩ := h
      subst h1 h2
      refine ⟨inv_congr hash hinv rfl rfl rfl ?_, ?_, hu, ?_⟩
      · intro i
        show (if i = _ then ((t.entries i).1, v) else t.entries i).1 = _
        split <;> rfl
      · show _ < t.capacity
        rw [hcap]; exact hlt'
      · show (if _ = _ then ((t.entries _).1, v) else t.entries _).1 = _
        rw [if_pos rfl]
        exact hkey
    | false =>
      simp only [Bool.false_eq_true, if_false, Option.some.injEq, Prod.mk.injEq] at h
      obtain ⟨h1, h2, h3⟩ := h
      subst h1 h2
      exact ⟨hinv, by rw [hcap]; exact hlt', hu, hkey⟩
  | stopped n hn hpass hno hempty' =>
    have hnd : ∀ c i, c < 2 ^ j → i < 16 → t.controls (c * 16 + i) ≠ kDeletedEntry := by
      intro c i hc hi
      rcases hinv.ctl (c * 16 + i) (by rw [hcap]; exact cluster_index_lt hc hi) with h' | h'
      · rw [h']; decide
      · rw [h']; exact tag_ne_deleted _
    have hd := find_deleted_loop_none t (index_for t (get_hash hash k)) j n hm hj hs hn hnd
      (t.cluster_mask + 1) 0 (Nat.zero_le _) (by omega)
    have e : (index_for t (get_hash hash k) + 0) % 2 ^ j = index_for t (get_hash hash k) :=
      Nat.mod_eq_of_lt hs
    rw [e] at hd
    simp only [hd, Option.some.injEq, Prod.mk.injEq] at h
    obtain ⟨h1, h2, h3⟩ := h
    subst h1 h2
    obtain ⟨hp1, hp2⟩ := first_empty t _ hempty'
    have habs : ∀ i, i < t.capacity → t.controls i ≠ kEmptyEntry → (t.entries i).1 ≠ k := by
      intro i hi hu hk
      have := hpres i hi hu hk
      cases this
    have hinv' := inv_place hash hinv k v j n _ hm hn hp1
      (fun m hmn q hq => (hpass m hmn).2 q hq) habs
    refine ⟨hinv', ?_, ?_, ?_⟩
    · show _ < t.capacity
      rw [hcap]
      exact cluster_index_lt (Nat.mod_lt _ hpos2) hp1
    · simp only [place, kClusterEntries, if_true]
      exact tag_ne_empty _
    · simp only [place, kClusterEntries, if_true]
  | full hpass =>
    have hnd : ∀ c i, c < 2 ^ j → i < 16 → t.controls (c * 16 + i) ≠ kDeletedEntry := by
      intro c i hc hi
      rcases hinv.ctl (c * 16 + i) (by rw [hcap]; exact cluster_index_lt hc hi) with h' | h'
      · rw [h']; decide
      · rw [h']; exact tag_ne_deleted _
    exfalso
    have hd := find_deleted_loop_fst_none t (index_for t (get_hash hash k)) none j hm hj hnd
      (t.cluster_mask + 1) (index_for t (get_hash hash k)) hs
    rw [hd] at h
    simp at h

theorem align_to_mod (n : Nat) : align_to n 16 % 16 = 0 := by
  unfold align_to
  have h := Nat.and_pow_two_sub_one_eq_mod
    (((n + 16 - 1) % npow64) &&& (npow64 - 1 - (16 - 1))) 4
  have h15 : (npow64 - 1 - (16 - 1)) &&& (2 ^ 4 - 1) = 0 := by decide
  rw [Nat.and_assoc, h15, Nat.and_zero] at h
  exact h.symm

theorem align_to_lt (n a : Nat) : align_to n a < 2 ^ 64 := by
  unfold align_to
  exact Nat.lt_of_le_of_lt Nat.and_le_left (Nat.mod_lt _ (by decide))

/-- The constructor establishes the invariant when the capacity it computes is a
power of two. -/
theorem inv_ctor (hash : K → Nat) (mem : Nat → K × V) (initialCapacity j : Nat)
    (hcap : (flat16_hash_map mem initialCapacity).capacity = 2 ^ j) :
    Inv hash (flat16_hash_map mem initialCapacity) := by
  have hmod := align_to_mod initialCapacity
  have hlt := align_to_lt initialCapacity 16
  simp only [flat16_hash_map, init_cluster, Table.capacity, npow64, kClusterEntries] at hcap
  have ha : align_to initialCapacity 16 = 2 ^ j := by
    have hp : 0 < 2 ^ j := by positivity
    omega
  have hj4 : 4 ≤ j := by
    by_contra hc
    have hj : j < 4 := by omega
    rw [ha] at hmod
    interval_cases j <;> simp at hmod
  have hpow : (2 : Nat) ^ j = 16 * 2 ^ (j - 4) := by
    have : j = 4 + (j - 4) := by omega
    conv_lhs => rw [this, Nat.pow_add]
  have hp : 0 < 2 ^ (j - 4) := by positivity
  obtain ⟨P, hP⟩ : ∃ P, 2 ^ (j - 4) = P := ⟨_, rfl⟩
  rw [hP] at hpow hp
  rw [hpow] at ha
  have hcm : (flat16_hash_map mem initialCapacity).cluster_mask + 1 = P := by
    simp only [flat16_hash_map, init_cluster, npow64, kClusterEntries]
    rw [ha]
    omega
  have hem : (flat16_hash_map mem initialCapacity).entry_mask + 1 = 16 * P := by
    simp only [flat16_hash_map, init_cluster, npow64, kClusterEntries]
    rw [ha]
    omega
  refine ⟨⟨j - 4, by rw [hP]; exact hcm, by rw [hP]; exact hem, by rw [hP]; omega⟩, ?_, ?_, ?_⟩
  · intro i _; left; rfl
  · intro i _ hu; exact absurd rfl hu
  · intro i i' _ _ hu; exact absurd rfl hu

/-- Every reachable table satisfies the invariant. -/
theorem reachable_inv [DecidableEq K] (hash : K → Nat) (t : Table K V)
    (h : Reachable hash t) : Inv hash t := by
  induction h with
  | ctor mem n j hcap => exact inv_ctor hash mem n j hcap
  | insert t t' value it b _ h ih =>
    exact (emplace_impl_inv hash true ih value.1 value.2 it b h).1
  | emplace t t' value it b _ h ih =>
    exact (emplace_impl_inv hash false ih value.1 value.2 it b h).1

/-- **C1.** flat16: for every table built by the constructor with a power-of-two
capacity and then only by `insert`/`emplace` that still has an empty slot,
`insert(k, v)` returns; afterwards exactly one in-use entry has the key `k`, and
`find(k)` returns the iterator to that entry, which is not `end()`. -/
theorem flat16_insert_then_find [DecidableEq K] (hash : K → Nat) (t : Table K V)
    (k : K) (v : V) (hr : Reachable hash t)
    (hempty : ∃ i, i < t.capacity ∧ t.controls i = kEmptyEntry) :
    ∃ t' it b, insert hash t (k, v) = some (t', it, b) ∧
      (it < t'.capacity ∧ control_byte.isUsed (t'.controls it) = true ∧
        (t'.entries it).1 = k) ∧
      (∀ i, i < t'.capacity → control_byte.isUsed (t'.controls i) = true →
        (t'.entries i).1 = k → i = it) ∧
      find hash t' k = it ∧ find hash t' k ≠ t'.entry_capacity := by
  have hinv := reachable_inv hash t hr
  obtain ⟨t', it, b, hins, -⟩ := insert_returns hash t k v hinv.wf hempty
  obtain ⟨hinv', h1, h2, h3⟩ := emplace_impl_inv hash true hinv k v it b hins
  have hused : ∀ i, i < t'.capacity → (control_byte.isUsed (t'.controls i) = true ↔
      t'.controls i ≠ kEmptyEntry) := by
    intro i hi
    rcases hinv'.ctl i hi with h | h
    · rw [h]; simp [isUsed_empty]
    · rw [h]; simp [isUsed_tag, tag_ne_empty]
  have hfind : find hash t' k = it := by
    rw [find_eq, find_impl_present hash t' hinv' k it h1 h2 h3]
  refine ⟨t', it, b, hins, ⟨h1, (hused it h1).2 h2, h3⟩, ?_, hfind, ?_⟩
  · intro i hi hu hk
    exact hinv'.uniq i it hi h1 ((hused i hi).1 hu) h2 (by rw [hk, h3])
  · rw [hfind]
    have : t'.entry_capacity = t'.capacity := rfl
    omega

/-- C1 at a concrete table: the default-constructed map and the pair `(1, 10)`. -/
theorem flat16_insert_then_find_witness :
    ∃ t' it b, insert (fun k : Nat => k) (flat16_hash_map (fun _ => ((0 : Nat), (0 : Nat))) 16)
        (1, 10) = some (t', it, b) ∧
      (it < t'.capacity ∧ control_byte.isUsed (t'.controls it) = true ∧
        (t'.entries it).1 = 1) ∧
      (∀ i, i < t'.capacity → control_byte.isUsed (t'.controls i) = true →
        (t'.entries i).1 = 1 → i = it) ∧
      find (fun k : Nat => k) t' 1 = it ∧ find (fun k : Nat => k) t' 1 ≠ t'.entry_capacity :=
  flat16_insert_then_find (fun k : Nat => k) _ 1 10
    (Reachable.ctor _ 16 4 (by decide)) ⟨0, by decide, rfl⟩

/-- C3 at a concrete table: the default-constructed map and the pair `(1, 10)`. -/
theorem flat16_insert_inserted_iff_witness :
    ∃ t' it b, insert (fun k : Nat => k) (flat16_hash_map (fun _ => ((0 : Nat), (0 : Nat))) 16)
        (1, 10) = some (t', it, b) ∧
      (b = true ↔ find (fun k : Nat => k) (flat16_hash_map (fun _ => ((0 : Nat), (0 : Nat))) 16) 1
        = (flat16_hash_map (fun _ => ((0 : Nat), (0 : Nat))) 16).entry_capacity) ∧
      (b = true → t'.size = (flat16_hash_map (fun _ => ((0 : Nat), (0 : Nat))) 16).size + 1) ∧
      (b = false → t'.size = (flat16_hash_map (fun _ => ((0 : Nat), (0 : Nat))) 16).size) :=
  flat16_insert_inserted_iff (fun k : Nat => k) _ 1 10
    ⟨0, by decide, by decide, by decide⟩ ⟨0, by decide, rfl⟩

end flat16

/-! ## `flat16_hash_map`: the control bytes and the cluster masks -/

namespace flat16

variable {K V : Type}

theorem and_128_eq_zero {b : Nat} (h : b < 128) : b &&& 128 = 0 := by
  have e : (128 : Nat) = 2 ^ 7 := rfl
  rw [e, Nat.and_two_pow, Nat.testBit_lt_two_pow (by omega)]
  rfl

theorem matchEmptyOrDeleted_testBit (t : Table K V) (c i : Nat) :
    (matchEmptyOrDeleted t c).testBit i
      = (decide (i < 16) && (t.controls (c * 16 + i) &&& 128 != 0)) := by
  unfold matchEmptyOrDeleted
  rw [testBit_maskOf]
  rfl

/-- For a byte of the encoding the sign bit tells "empty or deleted". -/
theorem sign_bit_valid {b : Nat} (hv : b < 0x80 ∨ b = kDeletedEntry ∨ b = kEmptyEntry) :
    (b &&& 128 != 0) = control_byte.isEmptyOrDeleted b ∧
      (control_byte.isEmptyOrDeleted b = true ↔
        control_byte.isEmpty b = true ∨ control_byte.isDeleted b = true) ∧
      (b &&& 128 != 0) = ((b == kEmptyEntry) || (b == kDeletedEntry)) := by
  rcases hv with h | h | h
  · have h0 := and_128_eq_zero h
    have h1 : control_byte.isEmptyOrDeleted b = false := by
      unfold control_byte.isEmptyOrDeleted asInt8
      rw [if_pos h]
      simp
    have h2 : (b == kEmptyEntry) = false := by
      unfold kEmptyEntry; simp; omega
    have h3 : (b == kDeletedEntry) = false := by
      unfold kDeletedEntry; simp; omega
    refine ⟨by rw [h0, h1]; rfl, ?_, by rw [h0, h2, h3]; rfl⟩
    unfold control_byte.isEmpty control_byte.isDeleted
    rw [h1, h2, h3]
    simp
  · subst h
    exact ⟨by decide, by decide, by decide⟩
  · subst h
    exact ⟨by decide, by decide, by decide⟩

/-- **C26.** flat16: every control byte value satisfies exactly one of `isUsed`
and `isEmptyOrDeleted`, and the two marks are "empty or deleted"; for every hash
code `h` the tag `get_control_hash(h)` is `h & 0x7F`, it satisfies `isUsed` and
differs from the empty mark `0xFF` and the deleted mark `0x80`; the cluster index
`index_for(h)` is `(h >> 7) & cluster_mask`. -/
theorem flat16_control_encoding :
    (∀ b : Nat, (control_byte.isUsed b = true ∧ control_byte.isEmptyOrDeleted b = false) ∨
      (control_byte.isUsed b = false ∧ control_byte.isEmptyOrDeleted b = true)) ∧
    (control_byte.isEmptyOrDeleted kEmptyEntry = true ∧
      control_byte.isEmptyOrDeleted kDeletedEntry = true) ∧
    (∀ h : Nat, get_control_hash h = h &&& 0x7F ∧
      control_byte.isUsed (get_control_hash h) = true ∧
      get_control_hash h ≠ kEmptyEntry ∧ get_control_hash h ≠ kDeletedEntry) ∧
    (∀ (t : Table K V) (h : Nat), index_for t h = (h >>> 7) &&& t.cluster_mask) := by
  refine ⟨?_, ⟨by decide, by decide⟩, ?_, fun _ _ => rfl⟩
  · intro b
    unfold control_byte.isUsed control_byte.isEmptyOrDeleted
    by_cases h : 0 ≤ asInt8 b
    · left
      exact ⟨decide_eq_true h, decide_eq_false (by omega)⟩
    · right
      exact ⟨decide_eq_false h, decide_eq_true (by omega)⟩
  · intro h
    refine ⟨?_, isUsed_tag h, tag_ne_empty h, tag_ne_deleted h⟩
    unfold get_control_hash kControlHashMask
    have : h &&& 0x7F ≤ 0x7F := Nat.and_le_right
    exact Nat.mod_eq_of_lt (by omega)

/-- **C27**, amended. flat16: in a cluster whose sixteen control bytes are bytes
of the encoding (a tag `0x00..0x7F`, the deleted mark `0x80` or the empty mark
`0xFF`), bit `i` of `matchEmptyOrDeleted()` is set exactly when control `i` is
empty or deleted, so `matchEmptyOrDeleted() == matchEmpty() | matchDeleted()`;
bit `i` of `matchHash(tag)` is set exactly when `i < 16` and control `i` equals
the tag. -/
theorem flat16_cluster_masks (t : Table K V) (c : Nat)
    (hv : ∀ i, i < 16 → t.controls (c * 16 + i) < 0x80 ∨
      t.controls (c * 16 + i) = kDeletedEntry ∨ t.controls (c * 16 + i) = kEmptyEntry) :
    (∀ i, (matchEmptyOrDeleted t c).testBit i = true ↔
      i < 16 ∧ (control_byte.isEmpty (t.controls (c * 16 + i)) = true ∨
        control_byte.isDeleted (t.controls (c * 16 + i)) = true)) ∧
    (∀ i, (matchEmptyOrDeleted t c).testBit i = true ↔
      i < 16 ∧ control_byte.isEmptyOrDeleted (t.controls (c * 16 + i)) = true) ∧
    matchEmptyOrDeleted t c = matchEmpty t c ||| matchDeleted t c ∧
    (∀ tag i, (matchHash t c tag).testBit i = true ↔
      i < 16 ∧ t.controls (c * 16 + i) = tag) := by
  refine ⟨?_, ?_, ?_, ?_⟩
  · intro i
    rw [matchEmptyOrDeleted_testBit]
    by_cases hi : i < 16
    · obtain ⟨h1, h2, -⟩ := sign_bit_valid (hv i hi)
      rw [h1]
      simp only [hi, decide_True, Bool.true_and, true_and]
      exact h2
    · simp [hi]
  · intro i
    rw [matchEmptyOrDeleted_testBit]
    by_cases hi : i < 16
    · obtain ⟨h1, -, -⟩ := sign_bit_valid (hv i hi)
      rw [h1]
      simp only [hi, decide_True, Bool.true_and, true_and]
    · simp [hi]
  · apply Nat.eq_of_testBit_eq
    intro i
    unfold matchEmpty matchDeleted
    rw [Nat.testBit_or, matchEmptyOrDeleted_testBit, getMatchMask_testBit, getMatchMask_testBit]
    by_cases hi : i < 16
    · obtain ⟨-, -, h3⟩ := sign_bit_valid (hv i hi)
      rw [h3]
      simp only [hi, decide_True, Bool.true_and]
    · simp [hi]
  · intro tag i
    unfold matchHash
    rw [getMatchMask_testBit]
    simp only [Bool.and_eq_true, decide_eq_true_eq, beq_iff_eq]

/-- C27 at the first cluster of the default-constructed table. -/
theorem flat16_cluster_masks_witness :
    (∀ i, (matchEmptyOrDeleted (flat16_hash_map zeroMem kDefaultInitialCapacity) 0).testBit i
        = true ↔
      i < 16 ∧
        (control_byte.isEmpty
            ((flat16_hash_map zeroMem kDefaultInitialCapacity).controls (0 * 16 + i)) = true ∨
          control_byte.isDeleted
            ((flat16_hash_map zeroMem kDefaultInitialCapacity).controls (0 * 16 + i)) = true)) ∧
    (∀ i, (matchEmptyOrDeleted (flat16_hash_map zeroMem kDefaultInitialCapacity) 0).testBit i
        = true ↔
      i < 16 ∧ control_byte.isEmptyOrDeleted
        ((flat16_hash_map zeroMem kDefaultInitialCapacity).controls (0 * 16 + i)) = true) ∧
    matchEmptyOrDeleted (flat16_hash_map zeroMem kDefaultInitialCapacity) 0
      = matchEmpty (flat16_hash_map zeroMem kDefaultInitialCapacity) 0 |||
        matchDeleted (flat16_hash_map zeroMem kDefaultInitialCapacity) 0 ∧
    (∀ tag i, (matchHash (flat16_hash_map zeroMem kDefaultInitialCapacity) 0 tag).testBit i
        = true ↔
      i < 16 ∧ (flat16_hash_map zeroMem kDefaultInitialCapacity).controls (0 * 16 + i) = tag) :=
  flat16_cluster_masks (flat16_hash_map zeroMem kDefaultInitialCapacity) 0
    (fun _ _ => Or.inr (Or.inr rfl))

end flat16

/-! ## flat16: `insert` and `emplace` on a present key, `align_to` and `round_size` -/

namespace flat16

variable {K V : Type}

/-- **C36.** flat16: when the lookup of `k` finds the entry `i`, `find(k)` is the
iterator `i`; `insert(k, v')` returns that iterator with `inserted = false` and
a table that differs from the old one in the mapped value of the entry `i`
only, which is `v'`; `emplace(k, v')` returns that iterator with
`inserted = false` and the table unchanged. Size and control bytes stay as they
were in both cases. -/
theorem flat16_insert_emplace_existing [DecidableEq K] (hash : K → Nat) (t : Table K V) (k : K)
    (v' : V) (i : Nat) (hf : (find_impl hash t k).index = some i) :
    find hash t k = i ∧
    (∃ t', insert hash t (k, v') = some (t', i, false) ∧
      t'.entries i = ((t.entries i).1, v') ∧ (∀ j, j ≠ i → t'.entries j = t.entries j) ∧
      t'.size = t.size ∧ t'.controls = t.controls ∧ t'.capacity = t.capacity) ∧
    emplace hash t (k, v') = some (t, i, false) := by
  refine ⟨?_, ?_, ?_⟩
  · rw [find_eq, hf]
  · refine ⟨{ t with entries := fun j => if j = i then ((t.entries j).1, v') else t.entries j },
      ?_, ?_, ?_, rfl, rfl, rfl⟩
    · unfold insert emplace_impl
      simp only [hf]
      rfl
    · simp
    · intro j hj
      simp [hj]
  · unfold emplace emplace_impl
    simp only [hf]
    rfl

/-- C36 at a concrete table: the default-constructed map after `insert(1, 10)`,
then `insert(1, 20)` and `emplace(1, 20)`. -/
theorem flat16_insert_emplace_existing_witness :
    ∃ (t : Table Nat Nat) (i : Nat),
      (insert idHash (flat16_hash_map zeroMem kDefaultInitialCapacity) (1, 10)).map
        (fun r => r.1) = some t ∧
      (find_impl idHash t 1).index = some i ∧
      find idHash t 1 = i ∧
      (∃ t', insert idHash t (1, 20) = some (t', i, false) ∧
        t'.entries i = ((t.entries i).1, 20) ∧ (∀ j, j ≠ i → t'.entries j = t.entries j) ∧
        t'.size = t.size ∧ t'.controls = t.controls ∧ t'.capacity = t.capacity) ∧
      emplace idHash t (1, 20) = some (t, i, false) := by
  have h : ((insert idHash (flat16_hash_map zeroMem kDefaultInitialCapacity) (1, 10)).bind
      fun r => (find_impl idHash r.1 1).index).isSome = true := by decide!
  obtain ⟨i, hi⟩ := Option.isSome_iff_exists.1 h
  obtain ⟨r, hr, hfi⟩ := Option.bind_eq_some.1 hi
  exact ⟨r.1, i, by rw [hr]; rfl, hfi, flat16_insert_emplace_existing idHash r.1 1 20 i hfi⟩

/-- Clearing the low `k` bits of a 64-bit value rounds it down to a multiple of
`2 ^ k`. -/
theorem and_not_low_mask (x k : Nat) (hk : k < 64) (hx : x < 2 ^ 64) :
    x &&& (2 ^ 64 - 1 - (2 ^ k - 1)) = x / 2 ^ k * 2 ^ k := by
  have hm : 2 ^ 64 - 1 - (2 ^ k - 1) = 2 ^ k * (2 ^ (64 - k) - 1) := by
    have h1 : 2 ^ k * 2 ^ (64 - k) = 2 ^ 64 := by
      rw [← pow_add]
      congr 1
      omega
    have h2 : 0 < 2 ^ k := by positivity
    rw [Nat.mul_sub, h1]
    omega
  rw [hm, Nat.mul_comm (x / 2 ^ k)]
  apply Nat.eq_of_testBit_eq
  intro i
  rw [Nat.testBit_and, Nat.testBit_mul_pow_two, Nat.testBit_mul_pow_two,
    Nat.testBit_two_pow_sub_one, ← Nat.shiftRight_eq_div_pow, Nat.testBit_shiftRight]
  by_cases hik : k ≤ i
  · have e : k + (i - k) = i := by omega
    rw [e]
    by_cases hb : x.testBit i = true
    · have hi : i < 64 := by
        by_contra hc
        have h1 : 2 ^ i ≤ x := Nat.testBit_implies_ge hb
        have h2 : 2 ^ 64 ≤ 2 ^ i := Nat.pow_le_pow_right (by decide) (by omega)
        omega
      have : i - k < 64 - k := by omega
      simp [hik, hb, this]
    · have hb' : x.testBit i = false := by simpa using hb
      simp [hb']
  · simp [hik]

/-- **C40.** For `a = 2 ^ k` with `k < 64` and `s + a - 1 < 2 ^ 64`,
`align_to(s, a)` equals `round_size(s, a)`; the value is a multiple of `a`, it
is at least `s`, no multiple of `a` from `s` on is smaller, and the trailing
assertion `result / a * a == result` holds in both functions. -/
theorem align_to_eq_round_size (s k : Nat) (hk : k < 64) (hs : s + 2 ^ k - 1 < 2 ^ 64) :
    align_to s (2 ^ k) = round_size s (2 ^ k) ∧
    align_to s (2 ^ k) % 2 ^ k = 0 ∧ s ≤ align_to s (2 ^ k) ∧
    (∀ m, m % 2 ^ k = 0 → s ≤ m → align_to s (2 ^ k) ≤ m) ∧
    align_to s (2 ^ k) / 2 ^ k * 2 ^ k = align_to s (2 ^ k) ∧
    round_size s (2 ^ k) / 2 ^ k * 2 ^ k = round_size s (2 ^ k) := by
  have hp : 0 < 2 ^ k := by positivity
  have hle : (s + 2 ^ k - 1) / 2 ^ k * 2 ^ k ≤ s + 2 ^ k - 1 := Nat.div_mul_le_self _ _
  have ha : align_to s (2 ^ k) = (s + 2 ^ k - 1) / 2 ^ k * 2 ^ k := by
    unfold align_to npow64
    rw [Nat.mod_eq_of_lt hs]
    exact and_not_low_mask _ k hk hs
  have hr : round_size s (2 ^ k) = (s + 2 ^ k - 1) / 2 ^ k * 2 ^ k := by
    unfold round_size npow64
    rw [Nat.mod_eq_of_lt hs]
    exact Nat.mod_eq_of_lt (by omega)
  have hd : (s + 2 ^ k - 1) / 2 ^ k * 2 ^ k / 2 ^ k * 2 ^ k
      = (s + 2 ^ k - 1) / 2 ^ k * 2 ^ k := by
    rw [Nat.mul_div_cancel _ hp]
  have hge : s ≤ (s + 2 ^ k - 1) / 2 ^ k * 2 ^ k := by
    have h1 := Nat.div_add_mod (s + 2 ^ k - 1) (2 ^ k)
    have h2 := Nat.mod_lt (s + 2 ^ k - 1) hp
    rw [Nat.mul_comm] at h1
    omega
  rw [hr, ha]
  refine ⟨rfl, Nat.mul_mod_left _ _, hge, ?_, hd, hd⟩
  intro m hm hsm
  obtain ⟨q, hq⟩ := Nat.dvd_of_mod_eq_zero hm
  have hq1 : (s + 2 ^ k - 1) / 2 ^ k ≤ q := by
    apply Nat.le_of_lt_succ
    apply Nat.div_lt_of_lt_mul
    rw [Nat.mul_succ]
    omega
  calc (s + 2 ^ k - 1) / 2 ^ k * 2 ^ k ≤ q * 2 ^ k := Nat.mul_le_mul_right _ hq1
    _ = m := by rw [hq, Nat.mul_comm]

/-- C40 at `s = 13` and `a = 8`: both functions return 16. -/
theorem align_to_eq_round_size_witness :
    (3 < 64 ∧ 13 + 2 ^ 3 - 1 < 2 ^ 64) ∧
    align_to 13 (2 ^ 3) = round_size 13 (2 ^ 3) ∧
    align_to 13 (2 ^ 3) % 2 ^ 3 = 0 ∧ 13 ≤ align_to 13 (2 ^ 3) ∧
    (∀ m, m % 2 ^ 3 = 0 → 13 ≤ m → align_to 13 (2 ^ 3) ≤ m) ∧
    align_to 13 (2 ^ 3) / 2 ^ 3 * 2 ^ 3 = align_to 13 (2 ^ 3) ∧
    round_size 13 (2 ^ 3) / 2 ^ 3 * 2 ^ 3 = round_size 13 (2 ^ 3) :=
  ⟨by decide, align_to_eq_round_size 13 3 (by decide) (by decide)⟩

end flat16

/-! ## `robin32_hash_map`: masks and probing -/

namespace robin32

variable {K V : Type}

theorem movemask_testBit (lane : Nat → Bool) (i : Nat) :
    (movemask lane).testBit i = (decide (i < 32) && lane (i / 2)) :=
  testBit_maskOf _ 32 i

theorem movemask_lt (lane : Nat → Bool) : movemask lane < 2 ^ 32 := maskOf_lt _ 32

theorem movemask_eq_zero_iff (lane : Nat → Bool) :
    movemask lane = 0 ↔ ∀ j, j < 16 → lane j = false := by
  unfold movemask
  rw [maskOf_eq_zero_iff]
  constructor
  · intro h j hj
    have := h (2 * j) (by omega)
    have e : 2 * j / 2 = j := by omega
    rwa [e] at this
  · intro h i hi
    exact h (i / 2) (by omega)

theorem shiftRight_one (pos : Nat) : pos >>> 1 = pos / 2 := by
  rw [Nat.shiftRight_eq_div_pow]

/-- The scan of a lane mask with a test that only looks at the lane: the result
is a bit of the first lane that is set and passes the test. -/
theorem scan_lanes (lane g : Nat → Bool) :
    match scanMask (fun pos => g (pos >>> 1)) 32 (movemask lane) with
    | some pos => pos >>> 1 < 16 ∧ lane (pos >>> 1) = true ∧ g (pos >>> 1) = true ∧
        ∀ j, j < pos >>> 1 → lane j = true → g j = false
    | none => ∀ j, j < 16 → lane j = true → g j = false := by
  have hb : ∀ i, (movemask lane).testBit i = true → 0 ≤ i ∧ i < 32 := by
    intro i hi
    rw [movemask_testBit] at hi
    simp only [Bool.and_eq_true, decide_eq_true_eq] at hi
    omega
  have h := scanMask_spec (fun pos => g (pos >>> 1)) 32 0 (movemask lane) hb (by omega)
  revert h
  generalize scanMask (fun pos => g (pos >>> 1)) 32 (movemask lane) = r
  cases r with
  | none =>
    intro h j hj hl
    have hbit : (movemask lane).testBit (2 * j) = true := by
      rw [movemask_testBit]
      have e : 2 * j / 2 = j := by omega
      rw [e, hl]
      simp only [Bool.and_true, decide_eq_true_eq]
      omega
    have := h (2 * j) hbit
    simp only [shiftRight_one] at this
    have e : 2 * j / 2 = j := by omega
    rwa [e] at this
  | some pos =>
    rintro ⟨h1, h2, h3⟩
    rw [movemask_testBit] at h1
    simp only [Bool.and_eq_true, decide_eq_true_eq] at h1
    simp only [shiftRight_one] at h2 h3 ⊢
    refine ⟨by omega, h1.2, h2, ?_⟩
    intro j hj hl
    have hbit : (movemask lane).testBit (2 * j) = true := by
      rw [movemask_testBit]
      have e : 2 * j / 2 = j := by omega
      rw [e, hl]
      simp only [Bool.and_true, decide_eq_true_eq]
      omega
    have := h3 (2 * j) (by omega) hbit
    have e : 2 * j / 2 = j := by omega
    rwa [e] at this

theorem maskHash_eq (ctrl : Nat → control_data) (data ctrl_hash distance : Nat) :
    (matchHashAndDistance ctrl data ctrl_hash distance).maskHash
      = movemask (candidate ctrl data ctrl_hash distance) := rfl

theorem maskEmpty_eq (ctrl : Nat → control_data) (data ctrl_hash distance : Nat) :
    (matchHashAndDistance ctrl data ctrl_hash distance).maskEmpty
      = movemask (flagged ctrl data distance) := rfl

/-- A candidate lane, spelled out for the distance argument 0. -/
theorem candidate_zero (ctrl : Nat → control_data) (data ctrl_hash j : Nat)
    (hc : ctrl_hash < 256) (h : candidate ctrl data ctrl_hash 0 j = true) :
    (ctrl (data + j)).hash = 0 ∧ ctrl_hash = 0 ∧ (ctrl (data + j)).distance ≤ j ∧
      (ctrl (data + j)).distance ≠ kEmptyEntry := by
  unfold candidate flagged lowBits highBits adds_epi16 kDistance16 kGroupWidth at h
  simp only [Nat.zero_mod, Nat.zero_div, Nat.add_zero, Bool.and_eq_true, Bool.not_eq_true',
    Bool.or_eq_false_iff, beq_eq_false_iff_ne, ne_eq, decide_eq_false_iff_not, not_lt,
    beq_iff_eq] at h
  obtain ⟨⟨h1, h2⟩, h3⟩ := h
  have hd : (ctrl (data + j)).distance ≠ 255 := h1
  have h2' : (ctrl (data + j)).distance ≤ min j 32767 := h2
  have h3' : 256 * (ctrl (data + j)).hash = ctrl_hash := h3
  exact ⟨by omega, by omega, by omega, h1⟩

end robin32

namespace robin32

variable {K V : Type}

theorem two_pow_lt_of_lt_63 {n : Nat} (hn : n < 63) : 2 ^ n < 2 ^ 63 :=
  Nat.pow_lt_pow_right (by decide) hn

theorem capacity_pow {t : Table K V} {n : Nat} (hn : n < 63) (hm : t.slot_mask + 1 = 2 ^ n) :
    t.capacity = 2 ^ n := by
  have := two_pow_lt_of_lt_63 hn
  unfold Table.capacity npow64
  rw [hm]
  exact Nat.mod_eq_of_lt (by omega)

theorem slot_capacity_eq {t : Table K V} {n : Nat} (hn : n < 63) (hm : t.slot_mask + 1 = 2 ^ n) :
    t.slot_capacity = 2 ^ n := capacity_pow hn hm

theorem round_index_eq {t : Table K V} {n : Nat} (hm : t.slot_mask + 1 = 2 ^ n) (x : Nat) :
    round_index t x = x % 2 ^ n := by
  unfold round_index
  have : t.slot_mask = 2 ^ n - 1 := by omega
  rw [this, Nat.and_pow_two_sub_one_eq_mod]

theorem index_for_eq {t : Table K V} {n : Nat} (hm : t.slot_mask + 1 = 2 ^ n) (h : Nat) :
    index_for t h = h % 2 ^ n := round_index_eq hm h

theorem slot_next_group_eq {t : Table K V} {n : Nat} (hn : n < 63)
    (hm : t.slot_mask + 1 = 2 ^ n) (s : Nat) (hs : s < 2 ^ n) :
    slot_next_group t s = (s + 32) % 2 ^ n := by
  have := two_pow_lt_of_lt_63 hn
  unfold slot_next_group npow64 kGroupWidth
  have h1 : t.slot_mask = 2 ^ n - 1 := by omega
  have h2 : (s + 32) % 2 ^ 64 = s + 32 := Nat.mod_eq_of_lt (by omega)
  rw [h1, h2, Nat.and_pow_two_sub_one_eq_mod]

theorem two_pow_mod_32 {n : Nat} (hn : 5 ≤ n) : 2 ^ n % 32 = 0 := by
  obtain ⟨m, rfl⟩ : ∃ m, n = 5 + m := ⟨n - 5, by omega⟩
  rw [Nat.pow_add]
  simp [Nat.mul_mod_right]

theorem two_pow_dvd_32 {n : Nat} (hn : n < 5) : 32 % 2 ^ n = 0 := by
  interval_cases n <;> rfl

theorem two_pow_mod_256 {n : Nat} (hn : 8 ≤ n) : 2 ^ n % 256 = 0 := by
  obtain ⟨m, rfl⟩ : ∃ m, n = 8 + m := ⟨n - 8, by omega⟩
  rw [Nat.pow_add]
  simp [Nat.mul_mod_right]

theorem two_pow_dvd_256 {n : Nat} (hn : n ≤ 8) : 256 % 2 ^ n = 0 := by
  interval_cases n <;> rfl

theorem mod_mod_32 {n : Nat} (hn : 5 ≤ n) (x : Nat) : x % 2 ^ n % 32 = x % 32 :=
  Nat.mod_mod_of_dvd x (Nat.dvd_of_mod_eq_zero (two_pow_mod_32 hn))

theorem mod_mod_256 {n : Nat} (hn : 8 ≤ n) (x : Nat) : x % 2 ^ n % 256 = x % 256 :=
  Nat.mod_mod_of_dvd x (Nat.dvd_of_mod_eq_zero (two_pow_mod_256 hn))

theorem tagOf_lt (hash : K → Nat) (k : K) : tagOf hash k < 256 := by
  unfold tagOf get_ctrl_hash
  exact Nat.mod_lt _ (by decide)

theorem and_255 (x : Nat) : x &&& 255 = x % 256 :=
  Nat.and_pow_two_sub_one_eq_mod x 8

theorem second_hash_tag_zero (h : Nat) :
    ((h * 14695981039346656037 % 18446744073709551616) &&& 255) % 256 = 0 ↔ h % 256 = 0 := by
  rw [and_255, Nat.mod_mod,
    Nat.mod_mod_of_dvd _ (by decide : 256 ∣ 18446744073709551616), Nat.mul_mod]
  have e : 14695981039346656037 % 256 = 37 := by decide
  rw [e]
  omega

/-- A key has the tag 0 exactly when its hash code is a multiple of 256. -/
theorem tagOf_eq_zero_iff (hash : K → Nat) (k : K) :
    tagOf hash k = 0 ↔ get_hash hash k % 256 = 0 :=
  second_hash_tag_zero (get_hash hash k)

theorem homeOf_lt (hash : K → Nat) {t : Table K V} {n : Nat} (hm : t.slot_mask + 1 = 2 ^ n)
    (k : K) : homeOf hash t k < 2 ^ n := by
  unfold homeOf
  rw [index_for_eq hm]
  exact Nat.mod_lt _ (by positivity)

theorem homeOf_mod_32 (hash : K → Nat) {t : Table K V} {n : Nat} (hn : 5 ≤ n)
    (hm : t.slot_mask + 1 = 2 ^ n) (k : K) (htag : tagOf hash k = 0) :
    homeOf hash t k % 32 = 0 := by
  have h := (tagOf_eq_zero_iff hash k).1 htag
  unfold homeOf
  rw [index_for_eq hm, mod_mod_32 hn]
  omega

theorem homeOf_mod_256 (hash : K → Nat) {t : Table K V} {n : Nat} (hn : 8 ≤ n)
    (hm : t.slot_mask + 1 = 2 ^ n) (k : K) (htag : tagOf hash k = 0) :
    homeOf hash t k % 256 = 0 := by
  have h := (tagOf_eq_zero_iff hash k).1 htag
  unfold homeOf
  rw [index_for_eq hm, mod_mod_256 hn]
  exact h

theorem homeOf_eq_zero (hash : K → Nat) {t : Table K V} {n : Nat} (hn : n ≤ 8)
    (hm : t.slot_mask + 1 = 2 ^ n) (k : K) (htag : tagOf hash k = 0) :
    homeOf hash t k = 0 := by
  have h := (tagOf_eq_zero_iff hash k).1 htag
  unfold homeOf
  rw [index_for_eq hm]
  have hd : 2 ^ n ∣ 256 := Nat.dvd_of_mod_eq_zero (two_pow_dvd_256 hn)
  have : get_hash hash k % 256 % 2 ^ n = get_hash hash k % 2 ^ n := Nat.mod_mod_of_dvd _ hd
  rw [← this, h]
  exact Nat.zero_mod _

end robin32

namespace robin32

variable {K V : Type} [DecidableEq K]

theorem find_impl_loop_succ (t : Table K V) (key : K) (ctrl_hash start fuel s : Nat) :
    find_impl_loop t key ctrl_hash start (fuel + 1) s =
      match scanGroup t key ctrl_hash s with
      | some pos => some (round_index t (s + (pos >>> 1)))
      | none =>
        if (matchHashAndDistance t.controls s ctrl_hash 0).maskEmpty ≠ 0 then none
        else if slot_next_group t s = start then none
        else find_impl_loop t key ctrl_hash start fuel (slot_next_group t s) := rfl

theorem scanGroup_spec (t : Table K V) (key : K) (ctrl_hash s : Nat) :
    match scanGroup t key ctrl_hash s with
    | some pos => pos >>> 1 < 16 ∧ candidate t.controls s ctrl_hash 0 (pos >>> 1) = true ∧
        keyAt t key s (pos >>> 1) = true ∧
        ∀ j, j < pos >>> 1 → candidate t.controls s ctrl_hash 0 j = true → keyAt t key s j = false
    | none => ∀ j, j < 16 → candidate t.controls s ctrl_hash 0 j = true → keyAt t key s j = false :=
  scan_lanes (candidate t.controls s ctrl_hash 0) (keyAt t key s)

/-- In a table that satisfies the invariant no group after the first one holds
a candidate with the key. -/
theorem scanGroup_later_none (hash : K → Nat) (t : Table K V) (hH : HomeOnly hash t)
    {n : Nat} (hn5 : 5 ≤ n) (hn : n < 63) (hm : t.slot_mask + 1 = 2 ^ n) (k : K)
    (f : Nat) (hf : f ≠ homeOf hash t k) (hal : f % 32 = homeOf hash t k % 32)
    (hlt : f < 2 ^ n) : scanGroup t k (tagOf hash k) f = none := by
  have hs := scanGroup_spec t k (tagOf hash k) f
  revert hs
  generalize scanGroup t k (tagOf hash k) f = r
  cases r with
  | none => intro _; rfl
  | some pos =>
    rintro ⟨h1, h2, h3, -⟩
    exfalso
    obtain ⟨c1, c2, c3, c4⟩ := candidate_zero _ _ _ _ (tagOf_lt hash k) h2
    have ha := homeOf_mod_32 hash hn5 hm k c2
    rw [ha] at hal
    have h32 := two_pow_mod_32 hn5
    have hp : f + pos >>> 1 < 2 ^ n := by omega
    unfold keyAt at h3
    rw [round_index_eq hm, Nat.mod_eq_of_lt hp] at h3
    have hk := of_decide_eq_true h3
    have hmod : (f + pos >>> 1) % 32 = pos >>> 1 := by omega
    have := hH (f + pos >>> 1) (by rw [capacity_pow hn hm]; exact hp) (by omega) c1
      (by omega) (by rw [hk]; exact c2)
    rw [hk, hmod] at this
    omega

theorem find_impl_loop_later_none (hash : K → Nat) (t : Table K V) (hH : HomeOnly hash t)
    {n : Nat} (hn5 : 5 ≤ n) (hn : n < 63) (hm : t.slot_mask + 1 = 2 ^ n) (k : K) :
    ∀ fuel f, f ≠ homeOf hash t k → f % 32 = homeOf hash t k % 32 → f < 2 ^ n →
      find_impl_loop t k (tagOf hash k) (homeOf hash t k) fuel f = none := by
  intro fuel
  induction fuel with
  | zero => intro f _ _ _; rfl
  | succ fuel ih =>
    intro f hf hal hlt
    rw [find_impl_loop_succ, scanGroup_later_none hash t hH hn5 hn hm k f hf hal hlt]
    simp only
    split
    · rfl
    · split
      · rfl
      · rename_i hne
        apply ih _ hne
        · rw [slot_next_group_eq hn hm f hlt, mod_mod_32 hn5, ← hal]
          omega
        · rw [slot_next_group_eq hn hm f hlt]
          exact Nat.mod_lt _ (by positivity)

omit [DecidableEq K] in
theorem slot_next_group_small {t : Table K V} {n : Nat} (hn : n < 5)
    (hm : t.slot_mask + 1 = 2 ^ n) (s : Nat) (hs : s < 2 ^ n) : slot_next_group t s = s := by
  rw [slot_next_group_eq (by omega) hm s hs, Nat.add_mod, two_pow_dvd_32 hn, Nat.add_zero,
    Nat.mod_mod, Nat.mod_eq_of_lt hs]

/-- In a table that satisfies the invariant `find_impl` finds a key in the first
group it probes or not at all. -/
theorem find_impl_first_group (hash : K → Nat) (t : Table K V) (hinv : Inv hash t) (k : K) :
    find_impl hash t k =
      (scanGroup t k (tagOf hash k) (homeOf hash t k)).map
        fun pos => round_index t (homeOf hash t k + (pos >>> 1)) := by
  obtain ⟨n, hn2, hn, hm, -⟩ := hinv.wf
  have hlt := homeOf_lt hash hm k
  show find_impl_loop t k (tagOf hash k) (homeOf hash t k) (t.slot_mask + 1) (homeOf hash t k) = _
  rw [find_impl_loop_succ]
  cases scanGroup t k (tagOf hash k) (homeOf hash t k) with
  | some pos => rfl
  | none =>
    simp only [Option.map_none']
    split
    · rfl
    · split
      · rfl
      · rename_i hne
        by_cases hn5 : 5 ≤ n
        · apply find_impl_loop_later_none hash t hinv.homeOnly hn5 hn hm k _ _ hne
          · rw [slot_next_group_eq hn hm _ hlt, mod_mod_32 hn5]
            omega
          · rw [slot_next_group_eq hn hm _ hlt]
            exact Nat.mod_lt _ (by positivity)
        · exact absurd (slot_next_group_small (by omega) hm _ hlt) hne

end robin32

namespace robin32

variable {K V : Type} [DecidableEq K]

omit [DecidableEq K] in
/-- A candidate lane for a distance argument that is a multiple of the group width. -/
theorem candidate_mult (ctrl : Nat → control_data) (data ctrl_hash D j : Nat)
    (hc : ctrl_hash < 256) (hD : D % 32 = 0)
    (h : candidate ctrl data ctrl_hash D j = true) :
    (ctrl (data + j)).hash = 0 ∧ ctrl_hash = 0 ∧ (ctrl (data + j)).distance ≤ j + D ∧
      (ctrl (data + j)).distance ≠ kEmptyEntry := by
  unfold candidate flagged lowBits highBits adds_epi16 kGroupWidth at h
  have e : D % 32 / 4 = 0 := by omega
  rw [e] at h
  simp only [kDistance16, Bool.and_eq_true, Bool.not_eq_true',
    Bool.or_eq_false_iff, beq_eq_false_iff_ne, ne_eq, decide_eq_false_iff_not, not_lt,
    beq_iff_eq] at h
  obtain ⟨⟨h1, h2⟩, h3⟩ := h
  have h2' : (ctrl (data + j)).distance ≤ min (j + D) 32767 := h2
  have h3' : 256 * (ctrl (data + j)).hash = ctrl_hash := h3
  exact ⟨by omega, by omega, by omega, h1⟩

omit [DecidableEq K] in
theorem visited_next {t : Table K V} {n f f' : Nat} (hn : n < 63)
    (hm : t.slot_mask + 1 = 2 ^ n) (h : Visited n f f') :
    Visited n f (slot_next_group t f') := by
  obtain ⟨h1, h2, h3⟩ := h
  refine ⟨?_, ?_, ?_⟩
  · rw [slot_next_group_eq hn hm f' h1]
    exact Nat.mod_lt _ (by positivity)
  · intro hn5
    rw [slot_next_group_eq hn hm f' h1, mod_mod_32 hn5, ← h2 hn5]
    omega
  · intro hn5
    rw [slot_next_group_small hn5 hm f' h1]
    exact h3 hn5

/-- What `find_and_erase` does: nothing, or `erase_slot` at the slot of a
candidate lane that holds the key. -/
theorem find_and_erase_loop_spec (t : Table K V) (k : K) (tag start : Nat) {n : Nat}
    (hn : n < 63) (hm : t.slot_mask + 1 = 2 ^ n) (f0 : Nat) :
    ∀ fuel f D, Visited n f0 f → D % 32 = 0 → D < 256 →
      find_and_erase_loop t k tag start fuel f D = (0, t) ∨
      ∃ f' D' j, Visited n f0 f' ∧ D' % 32 = 0 ∧ D' < 256 ∧ j < 16 ∧
        candidate t.controls f' tag D' j = true ∧ keyAt t k f' j = true ∧
        find_and_erase_loop t k tag start fuel f D
          = (1, erase_slot t (round_index t (f' + j))) := by
  intro fuel
  induction fuel with
  | zero => intro f D _ _ _; left; rfl
  | succ fuel ih =>
    intro f D hv hD hD2
    have hs := scan_lanes (candidate t.controls f tag D) (keyAt t k f)
    have hstep : find_and_erase_loop t k tag start (fuel + 1) f D =
      match scanMask (fun pos => keyAt t k f (pos >>> 1)) 32
          (matchHashAndDistance t.controls f tag D).maskHash with
      | some pos => (1, erase_slot t (round_index t (f + (pos >>> 1))))
      | none =>
        if (matchHashAndDistance t.controls f tag D).maskEmpty ≠ 0 then (0, t)
        else if slot_next_group t f = start then (0, t)
        else find_and_erase_loop t k tag start fuel (slot_next_group t f) ((D + kGroupWidth) % 256)
      := rfl
    rw [hstep, maskHash_eq]
    revert hs
    generalize scanMask (fun pos => keyAt t k f (pos >>> 1)) 32
      (movemask (candidate t.controls f tag D)) = r
    cases r with
    | some pos =>
      rintro ⟨h1, h2, h3, -⟩
      right
      exact ⟨f, D, pos >>> 1, hv, hD, hD2, h1, h2, h3, rfl⟩
    | none =>
      intro _
      simp only
      split
      · left; rfl
      · split
        · left; rfl
        · exact ih _ _ (visited_next hn hm hv) (by unfold kGroupWidth; omega)
            (Nat.mod_lt _ (by decide))

omit [DecidableEq K] in
/-- The records `erase_slot` changes: the one of the slot and its mirror, which
both get a distance byte of `0xFE` or `0xFF`. -/
theorem erase_slot_controls (t : Table K V) (i q : Nat) :
    (erase_slot t i).controls q = t.controls q ∨
      ((q = i ∨ q = i + t.slot_capacity) ∧ ((erase_slot t i).controls q).distance ≥ kEndOfMark) := by
  unfold erase_slot setUnusedCtrl setUnusedMirrorCtrl control_data.setDistance
    control_data.setEndOf kEmptyEntry kEndOfMark
  simp only
  split
  · simp only
    split
    · rename_i h1 h2
      right
      refine ⟨Or.inr h2, ?_⟩
      split <;> simp
    · split
      · rename_i h3
        right
        exact ⟨Or.inl h3, by simp⟩
      · left; rfl
  · simp only
    split
    · rename_i h3
      right
      exact ⟨Or.inl h3, by simp⟩
    · left; rfl

omit [DecidableEq K] in
theorem erase_slot_at (t : Table K V) {n : Nat} (hn : n < 63) (hm : t.slot_mask + 1 = 2 ^ n)
    (i : Nat) (hi : i < 2 ^ n) :
    (erase_slot t i).controls i = (t.controls i).setDistance kEmptyEntry := by
  have hc := slot_capacity_eq hn hm
  unfold erase_slot setUnusedCtrl setUnusedMirrorCtrl
  simp only
  have hp : 0 < 2 ^ n := by positivity
  split
  · simp only
    rw [if_neg (by
      show ¬ i = i + Table.slot_capacity _
      have : Table.slot_capacity
        { t with controls := fun p => if p = i then (t.controls p).setDistance kEmptyEntry
                                      else t.controls p } = 2 ^ n := slot_capacity_eq hn hm
      rw [this]; omega)]
    simp only [if_true]
  · simp only [if_true]

omit [DecidableEq K] in
theorem erase_slot_fields (t : Table K V) (i : Nat) :
    (erase_slot t i).slot_mask = t.slot_mask ∧ (erase_slot t i).group_mask = t.group_mask ∧
      (erase_slot t i).slots = t.slots ∧
      (erase_slot t i).slot_size = (t.slot_size + npow64 - 1) % npow64 ∧
      (erase_slot t i).n_mlf = t.n_mlf ∧ (erase_slot t i).n_mlf_rev = t.n_mlf_rev ∧
      (erase_slot t i).slot_threshold = t.slot_threshold := by
  unfold erase_slot setUnusedCtrl setUnusedMirrorCtrl
  simp only
  split <;> exact ⟨rfl, rfl, rfl, rfl, rfl, rfl, rfl⟩

end robin32

namespace robin32

variable {K V : Type}

theorem homeOf_congr (hash : K → Nat) {t t' : Table K V} (h : t'.slot_mask = t.slot_mask)
    (k : K) : homeOf hash t' k = homeOf hash t k := by
  unfold homeOf index_for
  rw [h]

theorem capacity_congr {t t' : Table K V} (h : t'.slot_mask = t.slot_mask) :
    t'.capacity = t.capacity := by
  unfold Table.capacity
  rw [h]

/-- `erase_slot` keeps the invariant. -/
theorem inv_erase_slot (hash : K → Nat) {t : Table K V} (hinv : Inv hash t) (i : Nat)
    (hi : i < t.capacity) : Inv hash (erase_slot t i) := by
  obtain ⟨hmask, hgm, hslots, hsize, -, -, -⟩ := erase_slot_fields t i
  have hcap : (erase_slot t i).capacity = t.capacity := capacity_congr hmask
  obtain ⟨n, hn2, hn, hm, hg⟩ := hinv.wf
  have hcn := capacity_pow hn hm
  have hscn : t.slot_capacity = 2 ^ n := hcn
  refine ⟨⟨n, hn2, hn, by rw [hmask]; exact hm, by rw [hgm]; exact hg⟩, ?_, ?_, ?_, ?_⟩
  · rw [hsize]
    exact Nat.mod_lt _ (by decide)
  · intro p hp h256 h0 hd
    rcases erase_slot_controls t i p with h | ⟨-, h⟩
    · rw [h] at hd ⊢
      exact hinv.distZero p (hcap ▸ hp) h256 h0 hd
    · unfold kEndOfMark at h; omega
  · intro p hp h16 hh hd htag
    rcases erase_slot_controls t i p with h | ⟨-, h⟩
    · rw [h] at hh hd
      rw [hslots] at htag ⊢
      rw [homeOf_congr hash hmask]
      exact hinv.homeOnly p (hcap ▸ hp) h16 hh hd htag
    · unfold kEndOfMark at h; omega
  · intro hsmall q hq1 hq2
    rw [hcap] at hsmall hq1 ⊢
    rcases erase_slot_controls t i q with h | ⟨-, h⟩
    · rcases hinv.smallMirror hsmall q hq1 hq2 with h' | ⟨h1, h2⟩
      · left; rw [h]; exact h'
      · rcases erase_slot_controls t i (q - t.capacity) with h3 | ⟨h3, h4⟩
        · right
          exact ⟨h1, by rw [h, h3]; exact h2⟩
        · rcases h3 with h3 | h3
          · -- the slot record changed, then so did its mirror
            have hq : q = i + t.slot_capacity := by
              rw [hscn]; rw [hcn] at hq1; omega
            have hi32 : i < 32 := by rw [hcn] at hsmall hi; omega
            left
            have hdist : ((erase_slot t i).controls q).distance ≥ kEndOfMark := by
              rw [hq]
              unfold erase_slot setUnusedCtrl setUnusedMirrorCtrl control_data.setDistance
                control_data.setEndOf kEmptyEntry kEndOfMark kGroupWidth
              simp only
              rw [if_pos hi32]
              simp only
              have hcap' : Table.slot_capacity
                  { t with controls := fun p => if p = i then
                      { distance := 255, hash := (t.controls p).hash } else t.controls p }
                  = t.slot_capacity := rfl
              rw [hcap', if_pos rfl]
              split <;> simp
            exact hdist
          · rw [hscn] at h3; rw [hcn] at hq1 h3; omega
    · left; exact h

end robin32

namespace robin32

variable {K V : Type}

theorem candidate_congr (ctrl ctrl' : Nat → control_data) (data ctrl_hash D j : Nat)
    (h : ctrl' (data + j) = ctrl (data + j)) :
    candidate ctrl' data ctrl_hash D j = candidate ctrl data ctrl_hash D j := by
  unfold candidate flagged lowBits highBits
  rw [h]

theorem candidate_false_of_mark (ctrl : Nat → control_data) (data ctrl_hash j : Nat)
    (hj : j < 16) (h : (ctrl (data + j)).distance ≥ kEndOfMark) :
    candidate ctrl data ctrl_hash 0 j = false := by
  unfold candidate flagged lowBits highBits adds_epi16 kDistance16 kGroupWidth kEmptyEntry
  unfold kEndOfMark at h
  simp only [Nat.zero_mod, Nat.zero_div, Nat.add_zero, Bool.and_eq_false_imp,
    Bool.not_eq_true', Bool.or_eq_false_iff, beq_eq_false_iff_ne, ne_eq,
    decide_eq_false_iff_not, not_lt, and_imp]
  intro _ h2
  have : (ctrl (data + j)).distance ≤ min j 32767 := h2
  omega

section
variable [DecidableEq K]

theorem keyAt_congr {t t' : Table K V} (hs : t'.slots = t.slots)
    (hm : t'.slot_mask = t.slot_mask) (k : K) (s j : Nat) :
    keyAt t' k s j = keyAt t k s j := by
  unfold keyAt round_index
  rw [hs, hm]

/-- Erasing a slot that holds another key does not change what `find_impl`
returns for a key it finds. -/
theorem find_after_erase_slot (hash : K → Nat) {t : Table K V} (hinv : Inv hash t) (k' : K)
    (i0 : Nat) (hf : find_impl hash t k' = some i0) (ie : Nat) (hie : ie < t.capacity)
    (hke : (t.slots ie).1 ≠ k') : find_impl hash (erase_slot t ie) k' = some i0 := by
  have hinv' := inv_erase_slot hash hinv ie hie
  obtain ⟨hmask, -, hslots, -, -, -, -⟩ := erase_slot_fields t ie
  obtain ⟨n, hn2, hn, hm, -⟩ := hinv.wf
  have hcn := capacity_pow hn hm
  have hscn : t.slot_capacity = 2 ^ n := hcn
  rw [find_impl_first_group hash t hinv] at hf
  rw [find_impl_first_group hash _ hinv', homeOf_congr hash hmask]
  have hri : ∀ x, round_index (erase_slot t ie) x = round_index t x := by
    intro x; unfold round_index; rw [hmask]
  have hs := scanGroup_spec t k' (tagOf hash k') (homeOf hash t k')
  have hs' := scanGroup_spec (erase_slot t ie) k' (tagOf hash k') (homeOf hash t k')
  have hsub : ∀ j, j < 16 →
      candidate (erase_slot t ie).controls (homeOf hash t k') (tagOf hash k') 0 j = true →
      candidate t.controls (homeOf hash t k') (tagOf hash k') 0 j = true := by
    intro j hj hc
    rcases erase_slot_controls t ie (homeOf hash t k' + j) with h | ⟨-, h⟩
    · rwa [candidate_congr _ _ _ _ _ _ h] at hc
    · rw [candidate_false_of_mark _ _ _ _ hj h] at hc
      cases hc
  have hkeep : ∀ j, j < 16 → keyAt t k' (homeOf hash t k') j = true →
      candidate (erase_slot t ie).controls (homeOf hash t k') (tagOf hash k') 0 j
        = candidate t.controls (homeOf hash t k') (tagOf hash k') 0 j := by
    intro j hj hk
    rcases erase_slot_controls t ie (homeOf hash t k' + j) with h | ⟨h, -⟩
    · exact candidate_congr _ _ _ _ _ _ h
    · exfalso
      unfold keyAt at hk
      have hk := of_decide_eq_true hk
      rw [round_index_eq hm] at hk
      rw [hcn] at hie
      have : (homeOf hash t k' + j) % 2 ^ n = ie := by
        rcases h with h | h
        · rw [h]; exact Nat.mod_eq_of_lt hie
        · rw [h, hscn, Nat.add_mod_right]; exact Nat.mod_eq_of_lt hie
      rw [this] at hk
      exact hke hk
  revert hs hs' hf
  generalize scanGroup t k' (tagOf hash k') (homeOf hash t k') = r
  generalize scanGroup (erase_slot t ie) k' (tagOf hash k') (homeOf hash t k') = r'
  intro hf hs hs'
  cases r with
  | none => simp at hf
  | some pos =>
    obtain ⟨a1, a2, a3, a4⟩ := hs
    simp only [Option.map_some', Option.some.injEq] at hf
    cases r' with
    | none =>
      exfalso
      have := hs' (pos >>> 1) a1 (by rw [hkeep _ a1 a3]; exact a2)
      rw [keyAt_congr hslots hmask, a3] at this
      cases this
    | some pos' =>
      obtain ⟨b1, b2, b3, b4⟩ := hs'
      rw [keyAt_congr hslots hmask] at b3
      have hb4 : ∀ j, j < pos' >>> 1 →
          candidate (erase_slot t ie).controls (homeOf hash t k') (tagOf hash k') 0 j = true →
          keyAt t k' (homeOf hash t k') j = false := by
        intro j hj hc
        have := b4 j hj hc
        rwa [keyAt_congr hslots hmask] at this
      have heq : pos' >>> 1 = pos >>> 1 := by
        rcases Nat.lt_trichotomy (pos' >>> 1) (pos >>> 1) with h | h | h
        · have := a4 _ h (hsub _ b1 b2)
          rw [b3] at this; cases this
        · exact h
        · have := hb4 _ h (by rw [hkeep _ a1 a3]; exact a2)
          rw [a3] at this; cases this
      simp only [Option.map_some', Option.some.injEq]
      rw [hri, heq]
      exact hf

end

end robin32

namespace robin32

variable {K V : Type} [DecidableEq K]

omit [DecidableEq K] in
theorem round_index_lt {t : Table K V} {n : Nat} (hm : t.slot_mask + 1 = 2 ^ n) (x : Nat) :
    round_index t x < 2 ^ n := by
  rw [round_index_eq hm]
  exact Nat.mod_lt _ (by positivity)

/-- What `erase(key)` does on a table that satisfies the invariant. -/
theorem erase_cases (hash : K → Nat) {t : Table K V} (hinv : Inv hash t) (k : K) :
    erase hash t k = (0, t) ∨
      ∃ ie, ie < t.capacity ∧ (t.slots ie).1 = k ∧ (t.controls ie).isUsed = true ∧
        erase hash t k = (1, erase_slot t ie) := by
  obtain ⟨n, hn2, hn, hm, -⟩ := hinv.wf
  have hcn := capacity_pow hn hm
  have hh := homeOf_lt hash hm k
  have hv : Visited n (homeOf hash t k) (homeOf hash t k) := ⟨hh, fun _ => rfl, fun _ => rfl⟩
  have hspec := find_and_erase_loop_spec t k (tagOf hash k) (homeOf hash t k) hn hm
    (homeOf hash t k) (t.slot_mask + 1) (homeOf hash t k) 0 hv (by decide) (by decide)
  have he : erase hash t k = find_and_erase_loop t k (tagOf hash k) (homeOf hash t k)
      (t.slot_mask + 1) (homeOf hash t k) 0 := rfl
  rw [he]
  rcases hspec with h | ⟨f', D', j, ⟨hv1, hv2, hv3⟩, hD, hD2, hj, hc, hk, h⟩
  · left; exact h
  · right
    obtain ⟨c1, c2, c3, c4⟩ := candidate_mult _ _ _ _ _ (tagOf_lt hash k) hD hc
    unfold keyAt at hk
    have hk := of_decide_eq_true hk
    refine ⟨round_index t (f' + j), by rw [hcn]; exact round_index_lt hm _, hk, ?_, h⟩
    have hd : (t.controls (f' + j)).distance < kEmptyEntry := by
      unfold kEmptyEntry; omega
    by_cases hq : f' + j < 2 ^ n
    · rw [round_index_eq hm, Nat.mod_eq_of_lt hq]
      unfold control_data.isUsed
      exact decide_eq_true hd
    · have hn5 : n < 5 := by
        by_contra hc5
        have hn5 : 5 ≤ n := by omega
        have h1 := hv2 hn5
        rw [homeOf_mod_32 hash hn5 hm k c2] at h1
        have := two_pow_mod_32 hn5
        omega
      have hf0 : f' = 0 := by
        rw [hv3 hn5]
        exact homeOf_eq_zero hash (by omega) hm k c2
      subst hf0
      rw [Nat.zero_add] at hq c3 hd ⊢
      have hsm : t.capacity < 32 := by
        rw [hcn]
        calc 2 ^ n < 2 ^ 5 := Nat.pow_lt_pow_right (by decide) hn5
          _ = 32 := rfl
      rcases hinv.smallMirror hsm j (by rw [hcn]; omega) hj with h' | ⟨h1, h2⟩
      · unfold kEndOfMark at h'; unfold kEmptyEntry at hd; omega
      · rw [hcn] at h1 h2
        have : round_index t j = j - 2 ^ n := by
          rw [round_index_eq hm]
          have e : j = (j - 2 ^ n) + 2 ^ n := by omega
          conv_lhs => rw [e, Nat.add_mod_right]
          exact Nat.mod_eq_of_lt (by omega)
        rw [this, ← h2]
        unfold control_data.isUsed
        exact decide_eq_true hd

/-- `erase(key)` keeps the invariant. -/
theorem inv_erase (hash : K → Nat) {t : Table K V} (hinv : Inv hash t) (k : K) :
    Inv hash (erase hash t k).2 := by
  rcases erase_cases hash hinv k with h | ⟨ie, h1, -, -, h⟩
  · rw [h]; exact hinv
  · rw [h]; exact inv_erase_slot hash hinv ie h1

end robin32

/-! ## `calc_capacity` -/

namespace pow2

theorem is_pow2_of_two_pow (j : Nat) (hj : j < 64) : is_pow2 (2 ^ j) = true := by
  unfold is_pow2
  have h1 : 0 < 2 ^ j := by positivity
  have h2 : 2 ^ j < 2 ^ 64 := Nat.pow_lt_pow_right (by decide) hj
  have e : (2 ^ j + 2 ^ 64 - 1) % 2 ^ 64 = 2 ^ j - 1 := by
    have : 2 ^ j + 2 ^ 64 - 1 = (2 ^ j - 1) + 2 ^ 64 := by omega
    rw [this, Nat.add_mod_right]
    exact Nat.mod_eq_of_lt (by omega)
  rw [e, Nat.and_pow_two_sub_one_eq_mod, Nat.mod_self]
  rfl

theorem two_pow_of_is_pow2 {n : Nat} (h0 : 0 < n) (hn : n < 2 ^ 64) (h : is_pow2 n = true) :
    ∃ j, n = 2 ^ j := by
  unfold is_pow2 at h
  have e : (n + 2 ^ 64 - 1) % 2 ^ 64 = n - 1 := by
    have : n + 2 ^ 64 - 1 = (n - 1) + 2 ^ 64 := by omega
    rw [this, Nat.add_mod_right]
    exact Nat.mod_eq_of_lt (by omega)
  rw [e] at h
  have h := of_decide_eq_true h
  have hex : ∃ j, n.testBit j = true := BitUtils.exists_testBit_of_ne_zero (by omega)
  classical
  let b := Nat.find hex
  have hb : n.testBit b = true := Nat.find_spec hex
  have hlow : ∀ i, i < b → n.testBit i = false := by
    intro i hi
    have := Nat.find_min hex hi
    simpa using this
  have hall := BitUtils.testBit_land_pred b n hb hlow
  refine ⟨b, ?_⟩
  apply Nat.eq_of_testBit_eq
  intro i
  have h1 := hall i
  rw [h] at h1
  rw [Nat.zero_testBit] at h1
  rw [Nat.testBit_two_pow]
  by_cases hib : b = i
  · subst hib
    rw [hb]; simp
  · have : decide (i ≠ b) = true := decide_eq_true (fun hc => hib hc.symm)
    rw [this, Bool.and_true] at h1
    rw [← h1]
    simp [hib]

/-- The value of `round_up<size_type, 4>(n)` for an `n` that is no power of two. -/
theorem round_up_spec {n : Nat} (h4 : 4 ≤ n) (hn : n < 2 ^ 63) :
    ∃ j, 2 ≤ j ∧ j ≤ 63 ∧ round_up 4 n = 2 ^ j ∧ n ≤ 2 ^ j ∧ 2 ^ (j - 1) < n := by
  unfold round_up countTrailingZeros BitUtils.bsr64
  have e : (n + 2 ^ 64 - 1) % 2 ^ 64 = n - 1 := by
    have : n + 2 ^ 64 - 1 = (n - 1) + 2 ^ 64 := by omega
    rw [this, Nat.add_mod_right]
    exact Nat.mod_eq_of_lt (by omega)
  rw [e]
  have hne : n - 1 ≠ 0 := by omega
  have h1 : 2 ^ (n - 1).log2 ≤ n - 1 := Nat.log2_self_le hne
  have h2 : n - 1 < 2 ^ ((n - 1).log2 + 1) := Nat.lt_log2_self
  have h3 : (n - 1).log2 < 63 := (Nat.log2_lt hne).2 (by omega)
  have h4' : 1 ≤ (n - 1).log2 := by
    by_contra hc
    have : (n - 1).log2 = 0 := by omega
    rw [this] at h2
    norm_num at h2
    omega
  refine ⟨(n - 1).log2 + 1, by omega, by omega, ?_, by omega, ?_⟩
  · simp only [or_true, if_true]
    rw [if_pos (by omega), Nat.one_shiftLeft]
    exact Nat.mod_eq_of_lt (Nat.pow_lt_pow_right (by decide) (by omega))
  · rw [Nat.add_sub_cancel]; omega

end pow2

namespace robin32

/-- `calc_capacity(n)` is the smallest power of two that is at least `n` and at
least `kMinimumCapacity = 4`, for every `n` up to `2 ^ 63`. -/
theorem calc_capacity_spec {x : Nat} (hx : x ≤ 2 ^ 63) :
    ∃ j, 2 ≤ j ∧ j ≤ 63 ∧ calc_capacity x = 2 ^ j ∧ x ≤ 2 ^ j ∧
      ∀ i, x ≤ 2 ^ i → 4 ≤ 2 ^ i → 2 ^ j ≤ 2 ^ i := by
  unfold calc_capacity kMinimumCapacity
  dsimp only
  by_cases hp : pow2.is_pow2 (max x 4) = true
  · rw [hp]
    simp only [Bool.not_true, Bool.false_eq_true, if_false]
    obtain ⟨j, hj⟩ := pow2.two_pow_of_is_pow2 (by omega) (by omega) hp
    have hj2 : 2 ≤ j := by
      by_contra hc
      have : j = 0 ∨ j = 1 := by omega
      rcases this with h | h <;> rw [h] at hj <;> norm_num at hj <;> omega
    have hj63 : j ≤ 63 := by
      by_contra hc
      have : 2 ^ 64 ≤ 2 ^ j := Nat.pow_le_pow_right (by decide) (by omega)
      omega
    refine ⟨j, hj2, hj63, hj, by omega, ?_⟩
    intro i h1 h2
    omega
  · have hp' : pow2.is_pow2 (max x 4) = false := by simpa using hp
    rw [hp']
    simp only [Bool.not_false, if_true]
    have hlt : max x 4 < 2 ^ 63 := by
      by_contra hc
      have : max x 4 = 2 ^ 63 := by omega
      rw [this, pow2.is_pow2_of_two_pow 63 (by decide)] at hp'
      exact Bool.noConfusion hp'
    obtain ⟨j, h1, h2, h3, h4, h5⟩ := pow2.round_up_spec (le_max_right x 4) hlt
    refine ⟨j, h1, h2, h3, by omega, ?_⟩
    intro i hi1 hi2
    apply Nat.pow_le_pow_right (by decide)
    by_contra hc
    have : 2 ^ i ≤ 2 ^ (j - 1) := Nat.pow_le_pow_right (by decide) (by omega)
    omega

/-- `calc_capacity` does not change a power of two from 4 on. -/
theorem calc_capacity_two_pow {j : Nat} (h2 : 2 ≤ j) (h63 : j ≤ 63) :
    calc_capacity (2 ^ j) = 2 ^ j := by
  unfold calc_capacity kMinimumCapacity
  dsimp only
  have h4 : 4 ≤ 2 ^ j := by
    calc 4 = 2 ^ 2 := rfl
      _ ≤ 2 ^ j := Nat.pow_le_pow_right (by decide) h2
  rw [max_eq_left h4, pow2.is_pow2_of_two_pow j (by omega)]
  rfl

end robin32

/-! ## `pow2::round_up`, `pow2::next_pow2` and the compile-time rounding -/

namespace pow2

theorem wrap_pred {n : Nat} (h0 : 0 < n) (hn : n < 2 ^ 64) : (n + 2 ^ 64 - 1) % 2 ^ 64 = n - 1 := by
  have : n + 2 ^ 64 - 1 = (n - 1) + 2 ^ 64 := by omega
  rw [this, Nat.add_mod_right]
  exact Nat.mod_eq_of_lt (by omega)

/-- The value of `round_up<size_type, Min_n>(n)` from 2 up to `2 ^ 63`. -/
theorem round_up_value (Min_n : Nat) {n : Nat} (h2 : 2 ≤ n) (hn : n ≤ 2 ^ 63) :
    round_up Min_n n = 2 ^ ((n - 1).log2 + 1) ∧ n ≤ 2 ^ ((n - 1).log2 + 1) ∧
      2 ^ (n - 1).log2 < n := by
  unfold round_up countTrailingZeros BitUtils.bsr64
  rw [wrap_pred (by omega) (by omega)]
  have hne : n - 1 ≠ 0 := by omega
  have h1 : 2 ^ (n - 1).log2 ≤ n - 1 := Nat.log2_self_le hne
  have h2' : n - 1 < 2 ^ ((n - 1).log2 + 1) := Nat.lt_log2_self
  have h3 : (n - 1).log2 < 63 := (Nat.log2_lt hne).2 (by omega)
  refine ⟨?_, by omega, by omega⟩
  simp only [or_true, if_true]
  rw [if_pos (Or.inl (by omega)), Nat.one_shiftLeft]
  exact Nat.mod_eq_of_lt (Nat.pow_lt_pow_right (by decide) (by omega))

/-- The value of `next_pow2<size_type, Min_n>(n)` from 1 up to `2 ^ 63 - 1`. -/
theorem next_pow2_value (Min_n : Nat) {n : Nat} (h1 : 1 ≤ n) (hn : n < 2 ^ 63) :
    next_pow2 Min_n n = 2 ^ (n.log2 + 1) := by
  unfold next_pow2 countTrailingZeros BitUtils.bsr64
  have hne : n ≠ 0 := by omega
  have h3 : n.log2 < 63 := (Nat.log2_lt hne).2 hn
  simp only [or_true, if_true]
  rw [if_pos (Or.inl (by omega)), Nat.one_shiftLeft]
  exact Nat.mod_eq_of_lt (Nat.pow_lt_pow_right (by decide) (by omega))

/-- **C33.** `pow2::round_up` with the default `Min_n = 0` on a 64-bit size type:
for `1 <= n <= 2 ^ 63` the result is a power of two, it is at least `n`, and no
power of two from `n` on is smaller; `round_up(0) = 0`, `round_up(1) = 1`,
`round_up(4) = 4`, `round_up(5) = 8`, `round_up(7) = 8`, `round_up(8) = 8`. -/
theorem round_up_smallest_pow2 (n : Nat) (h1 : 1 ≤ n) (hn : n ≤ 2 ^ 63) :
    (∃ j, round_up 0 n = 2 ^ j ∧ n ≤ 2 ^ j ∧ ∀ i, n ≤ 2 ^ i → 2 ^ j ≤ 2 ^ i) ∧
    round_up 0 0 = 0 ∧ round_up 0 1 = 1 ∧ round_up 0 4 = 4 ∧ round_up 0 5 = 8 ∧
    round_up 0 7 = 8 ∧ round_up 0 8 = 8 := by
  refine ⟨?_, by decide!, by decide!, by decide!, by decide!, by decide!, by decide!⟩
  by_cases h : n = 1
  · subst h
    refine ⟨0, by decide!, by decide, ?_⟩
    intro i _
    exact Nat.pow_le_pow_right (by decide) (Nat.zero_le i)
  · obtain ⟨hv, hle, hlt⟩ := round_up_value 0 (show 2 ≤ n by omega) hn
    refine ⟨(n - 1).log2 + 1, hv, hle, ?_⟩
    intro i hi
    apply Nat.pow_le_pow_right (by decide)
    by_contra hc
    have : 2 ^ i ≤ 2 ^ (n - 1).log2 := Nat.pow_le_pow_right (by decide) (by omega)
    omega

/-- C33 at `n = 5`. -/
theorem round_up_smallest_pow2_witness :
    ((1 : Nat) ≤ 5 ∧ 5 ≤ 2 ^ 63) ∧
    (∃ j, round_up 0 5 = 2 ^ j ∧ 5 ≤ 2 ^ j ∧ ∀ i, 5 ≤ 2 ^ i → 2 ^ j ≤ 2 ^ i) ∧
    round_up 0 0 = 0 ∧ round_up 0 1 = 1 ∧ round_up 0 4 = 4 ∧ round_up 0 5 = 8 ∧
    round_up 0 7 = 8 ∧ round_up 0 8 = 8 :=
  ⟨by decide, round_up_smallest_pow2 5 (by decide) (by decide)⟩

/-- **C34.** `pow2::next_pow2` with the default `Min_n = 0` on a 64-bit size
type: for `n < 2 ^ 63` the result is a power of two above `n`, and no power of
two above `n` is smaller; it is `2 ^ (floor(log2 n) + 1)` for `n >= 1` and 1 for
`n = 0`; `next_pow2(0) = 1`, `next_pow2(1) = 2`, `next_pow2(4) = 8`,
`next_pow2(5) = 8`, `next_pow2(7) = 8`, `next_pow2(8) = 16`. -/
theorem next_pow2_smallest_above (n : Nat) (hn : n < 2 ^ 63) :
    (∃ j, next_pow2 0 n = 2 ^ j ∧ n < 2 ^ j ∧ ∀ i, n < 2 ^ i → 2 ^ j ≤ 2 ^ i) ∧
    (1 ≤ n → next_pow2 0 n = 2 ^ (Nat.log2 n + 1)) ∧
    (n = 0 → next_pow2 0 n = 1) ∧
    next_pow2 0 0 = 1 ∧ next_pow2 0 1 = 2 ∧ next_pow2 0 4 = 8 ∧ next_pow2 0 5 = 8 ∧
    next_pow2 0 7 = 8 ∧ next_pow2 0 8 = 16 := by
  refine ⟨?_, fun h1 => next_pow2_value 0 h1 hn, ?_, by decide!, by decide!, by decide!,
    by decide!, by decide!, by decide!⟩
  · by_cases h : n = 0
    · subst h
      refine ⟨0, by decide!, by decide, ?_⟩
      intro i _
      exact Nat.pow_le_pow_right (by decide) (Nat.zero_le i)
    · have hv := next_pow2_value 0 (show 1 ≤ n by omega) hn
      have h1 : 2 ^ n.log2 ≤ n := Nat.log2_self_le h
      have h2 : n < 2 ^ (n.log2 + 1) := Nat.lt_log2_self
      refine ⟨n.log2 + 1, hv, h2, ?_⟩
      intro i hi
      apply Nat.pow_le_pow_right (by decide)
      by_contra hc
      have : 2 ^ i ≤ 2 ^ n.log2 := Nat.pow_le_pow_right (by decide) (by omega)
      omega
  · intro h
    subst h
    decide!

/-- C34 at `n = 5`. -/
theorem next_pow2_smallest_above_witness :
    (5 : Nat) < 2 ^ 63 ∧
    (∃ j, next_pow2 0 5 = 2 ^ j ∧ 5 < 2 ^ j ∧ ∀ i, 5 < 2 ^ i → 2 ^ j ≤ 2 ^ i) ∧
    (1 ≤ 5 → next_pow2 0 5 = 2 ^ (Nat.log2 5 + 1)) ∧
    ((5 : Nat) = 0 → next_pow2 0 5 = 1) ∧
    next_pow2 0 0 = 1 ∧ next_pow2 0 1 = 2 ∧ next_pow2 0 4 = 8 ∧ next_pow2 0 5 = 8 ∧
    next_pow2 0 7 = 8 ∧ next_pow2 0 8 = 16 :=
  ⟨by decide, next_pow2_smallest_above 5 (by decide)⟩

end pow2

namespace compile_time

/-- The bit `log2 x` of a non-zero `x` is set. -/
theorem testBit_log2 {x : Nat} (hx : x ≠ 0) : x.testBit x.log2 = true := by
  have h1 : 2 ^ x.log2 ≤ x := Nat.log2_self_le hx
  have h2 : x < 2 ^ (x.log2 + 1) := Nat.lt_log2_self
  rw [Nat.testBit_to_div_mod]
  have hp : 0 < 2 ^ x.log2 := by positivity
  have h3 : 1 ≤ x / 2 ^ x.log2 := (Nat.le_div_iff_mul_le hp).2 (by omega)
  have h4 : x / 2 ^ x.log2 < 2 := by
    apply Nat.div_lt_of_lt_mul
    rw [pow_succ] at h2
    omega
  have : x / 2 ^ x.log2 = 1 := by omega
  rw [this]
  rfl

/-- One smearing step doubles the window of bits that are gathered. -/
theorem smear_step (x y m : Nat)
    (h : ∀ i, y.testBit i = true ↔ ∃ d, d < m ∧ x.testBit (i + d) = true) :
    ∀ i, (y ||| (y >>> m)).testBit i = true ↔ ∃ d, d < 2 * m ∧ x.testBit (i + d) = true := by
  intro i
  rw [Nat.testBit_or, Nat.testBit_shiftRight, Bool.or_eq_true, h, h]
  constructor
  · rintro (⟨d, hd, hb⟩ | ⟨d, hd, hb⟩)
    · exact ⟨d, by omega, hb⟩
    · refine ⟨m + d, by omega, ?_⟩
      have e : i + (m + d) = m + i + d := by omega
      rw [e]
      exact hb
  · rintro ⟨d, hd, hb⟩
    by_cases hdm : d < m
    · exact Or.inl ⟨d, hdm, hb⟩
    · refine Or.inr ⟨d - m, by omega, ?_⟩
      have e : m + i + (d - m) = i + d := by omega
      rw [e]
      exact hb

/-- The six smearing steps of `round_up_power2_impl` turn a non-zero 64-bit
value into the all-ones value of the same length. -/
theorem smear_eq {x : Nat} (hx : x ≠ 0) (hlt : x < 2 ^ 64) :
    (let N2 := x ||| (x >>> 1)
     let N3 := N2 ||| (N2 >>> 2)
     let N4 := N3 ||| (N3 >>> 4)
     let N5 := N4 ||| (N4 >>> 8)
     let N6 := N5 ||| (N5 >>> 16)
     N6 ||| (N6 >>> 32)) = 2 ^ (x.log2 + 1) - 1 := by
  have h0 : ∀ i, x.testBit i = true ↔ ∃ d, d < 1 ∧ x.testBit (i + d) = true := by
    intro i
    constructor
    · intro h
      exact ⟨0, by decide, h⟩
    · rintro ⟨d, hd, hb⟩
      have : d = 0 := by omega
      subst this
      exact hb
  have h1 := smear_step x _ 1 h0
  have h2 := smear_step x _ 2 h1
  have h3 := smear_step x _ 4 h2
  have h4 := smear_step x _ 8 h3
  have h5 := smear_step x _ 16 h4
  have h6 := smear_step x _ 32 h5
  have hl1 : 2 ^ x.log2 ≤ x := Nat.log2_self_le hx
  have hl2 : x < 2 ^ (x.log2 + 1) := Nat.lt_log2_self
  have hl3 : x.log2 < 64 := (Nat.log2_lt hx).2 hlt
  dsimp only
  apply Nat.eq_of_testBit_eq
  intro i
  rw [Nat.testBit_two_pow_sub_one]
  by_cases hi : i < x.log2 + 1
  · rw [decide_eq_true hi]
    apply (h6 i).2
    refine ⟨x.log2 - i, by omega, ?_⟩
    have e : i + (x.log2 - i) = x.log2 := by omega
    rw [e]
    exact testBit_log2 hx
  · rw [decide_eq_false hi]
    apply Bool.eq_false_iff.2
    intro hb
    obtain ⟨d, _, hd⟩ := (h6 i).1 hb
    have hge : 2 ^ (i + d) ≤ x := Nat.testBit_implies_ge hd
    have : 2 ^ (x.log2 + 1) ≤ 2 ^ (i + d) := Nat.pow_le_pow_right (by decide) (by omega)
    omega

/-- The value of `round_up_power2_impl<N>` from 2 on. -/
theorem round_up_power2_impl_value {N : Nat} (h2 : 2 ≤ N) (hN : N < 2 ^ 64) :
    round_up_power2_impl N
      = if N ≤ 2 ^ 63 then 2 ^ ((N - 1).log2 + 1) else 2 ^ 64 - 1 := by
  have hne : N - 1 ≠ 0 := by omega
  have hs := smear_eq hne (show N - 1 < 2 ^ 64 by omega)
  unfold round_up_power2_impl max_num
  rw [pow2.wrap_pred (by omega) hN]
  dsimp only at hs ⊢
  rw [hs]
  have hl1 : 2 ^ (N - 1).log2 ≤ N - 1 := Nat.log2_self_le hne
  have hl3 : (N - 1).log2 < 64 := (Nat.log2_lt hne).2 (by omega)
  have hp : 0 < 2 ^ ((N - 1).log2 + 1) := by positivity
  by_cases hle : N ≤ 2 ^ 63
  · have h63 : (N - 1).log2 < 63 := (Nat.log2_lt hne).2 (by omega)
    have hlt : 2 ^ ((N - 1).log2 + 1) < 2 ^ 64 := Nat.pow_lt_pow_right (by decide) (by omega)
    rw [if_pos hle, if_pos (by omega)]
    have e : 2 ^ ((N - 1).log2 + 1) - 1 + 1 = 2 ^ ((N - 1).log2 + 1) := by omega
    rw [e]
    exact Nat.mod_eq_of_lt hlt
  · have h63 : ¬ (N - 1).log2 < 63 := by
      intro hc
      have := (Nat.log2_lt hne).1 hc
      omega
    have e : (N - 1).log2 + 1 = 64 := by omega
    rw [if_neg hle, e, if_neg (by simp)]

/-- The specialisation for `Power2 = 0` ends the chain. -/
theorem round_up_pow2_impl_zero (N fuel : Nat) :
    round_up_pow2_impl N (fuel + 1) 0 = some integral_traits_max_num := by
  unfold round_up_pow2_impl
  rfl

/-- The value of `round_up_pow2_impl<N, 2 ^ k>`: the chain of instantiations
from `2 ^ k` ends within `65 - k` steps. -/
theorem round_up_pow2_impl_value {N : Nat} (hN : N < 2 ^ 64) :
    ∀ d k fuel, k + d = 63 → 65 - k ≤ fuel →
      round_up_pow2_impl N fuel (2 ^ k)
        = some (if 2 ^ 63 < N then 2 ^ 64 - 1
                else if N ≤ 2 ^ k then 2 ^ k else 2 ^ ((N - 1).log2 + 1)) := by
  intro d
  induction d with
  | zero =>
    intro k fuel hk hf
    have hk63 : k = 63 := by omega
    subst hk63
    obtain ⟨f, rfl⟩ : ∃ f, fuel = f + 2 := ⟨fuel - 2, by omega⟩
    rw [round_up_pow2_impl]
    have hne : (2 : Nat) ^ 63 ≠ 0 := by decide
    have hnext : (if 2 ^ 63 < max_power2 then (2 ^ 63 <<< 1) % 2 ^ 64 else 0) = 0 := by decide
    simp only [hne, if_false, hnext, round_up_pow2_impl_zero]
    congr 1
    by_cases h : 2 ^ 63 < N
    · have h' : N > max_power2 := h
      rw [if_pos h, if_pos h']
      rfl
    · have h' : ¬ N > max_power2 := h
      simp only [if_neg h, if_neg h']
      rw [if_pos (show 2 ^ 63 = max_power2 ∨ 2 ^ 63 ≥ N from Or.inr (by omega)),
        if_pos (by omega)]
  | succ d ih =>
    intro k fuel hk hf
    obtain ⟨f, rfl⟩ : ∃ f, fuel = f + 1 := ⟨fuel - 1, by omega⟩
    have hk62 : k < 63 := by omega
    have hlt : 2 ^ k < 2 ^ 63 := Nat.pow_lt_pow_right (by decide) hk62
    have hp : 0 < 2 ^ k := by positivity
    rw [round_up_pow2_impl]
    have hne : (2 : Nat) ^ k ≠ 0 := by omega
    have hnext : (if 2 ^ k < max_power2 then (2 ^ k <<< 1) % 2 ^ 64 else 0) = 2 ^ (k + 1) := by
      have h' : 2 ^ k < max_power2 := hlt
      rw [if_pos h', Nat.shiftLeft_eq, ← pow_succ]
      exact Nat.mod_eq_of_lt (Nat.pow_lt_pow_right (by decide) (by omega))
    simp only [hne, if_false, hnext]
    rw [ih (k + 1) f (by omega) (by omega)]
    simp only
    congr 1
    by_cases h : 2 ^ 63 < N
    · have h' : N > max_power2 := h
      simp only [if_pos h, if_pos h']
      rfl
    · have h' : ¬ N > max_power2 := h
      have hmp : ¬ 2 ^ k = max_power2 := by
        intro hc
        have : max_power2 = 2 ^ 63 := rfl
        omega
      simp only [if_neg h, if_neg h']
      by_cases hle : N ≤ 2 ^ k
      · rw [if_pos (Or.inr hle), if_pos hle]
      · rw [if_neg (by
          rintro (hc | hc)
          · exact hmp hc
          · exact hle hc), if_neg hle]
        by_cases hle1 : N ≤ 2 ^ (k + 1)
        · rw [if_pos hle1]
          have hne1 : N - 1 ≠ 0 := by omega
          have e : (N - 1).log2 = k := by
            have h1 : (N - 1).log2 < k + 1 := (Nat.log2_lt hne1).2 (by omega)
            have h2 : ¬ (N - 1).log2 < k := by
              intro hc
              have := (Nat.log2_lt hne1).1 hc
              omega
            omega
          rw [e]
        · rw [if_neg hle1]

/-- A 64-bit value that `is_pow2` rejects is at least 3. -/
theorem three_le_of_not_is_pow2 {N : Nat} (hp : is_pow2 N = false) : 3 ≤ N := by
  by_contra hc
  have h : N = 0 ∨ N = 1 ∨ N = 2 := by omega
  rcases h with h | h | h <;> subst h <;> revert hp <;> decide

/-- No 64-bit value above `2 ^ 63` passes `is_pow2`. -/
theorem not_is_pow2_of_large {N : Nat} (hN : N < 2 ^ 64) (hl : 2 ^ 63 < N) :
    is_pow2 N = false := by
  apply Bool.eq_false_iff.2
  intro hp
  obtain ⟨j, hj⟩ := pow2.two_pow_of_is_pow2 (by omega) hN hp
  have h1 : j < 64 := by
    by_contra hc
    have : 2 ^ 64 ≤ 2 ^ j := Nat.pow_le_pow_right (by decide) (by omega)
    omega
  have h2 : 2 ^ j ≤ 2 ^ 63 := Nat.pow_le_pow_right (by decide) (by omega)
  omega

/-- **C39.** For every 64-bit `N`, the chain of instantiations behind
`compile_time::round_up_pow2<N>` ends, and its value is the value of
`compile_time::round_up_power2<N>`. That value is 0 for `N = 0`; for
`0 < N <= 2 ^ 63` it is a power of two, it is at least `N`, and no power of two
from `N` on is smaller; for `N > 2 ^ 63` it is `2 ^ 64 - 1`. -/
theorem round_up_pow2_eq_round_up_power2 (N : Nat) (hN : N < 2 ^ 64) :
    round_up_pow2 N = some (round_up_power2 N) ∧
    (N = 0 → round_up_power2 N = 0) ∧
    (0 < N → N ≤ 2 ^ 63 →
      ∃ j, round_up_power2 N = 2 ^ j ∧ N ≤ 2 ^ j ∧ ∀ i, N ≤ 2 ^ i → 2 ^ j ≤ 2 ^ i) ∧
    (2 ^ 63 < N → round_up_power2 N = 2 ^ 64 - 1) := by
  have himpl := round_up_pow2_impl_value hN 63 0 66 (by omega) (by omega)
  have e0 : (2 : Nat) ^ 0 = 1 := rfl
  rw [e0] at himpl
  refine ⟨?_, ?_, ?_, ?_⟩
  · unfold round_up_pow2 round_up_power2
    rw [himpl]
    simp only [Option.map_some']
    congr 1
    by_cases hp : is_pow2 N = true
    · rw [if_pos hp, if_pos hp]
    · have hp' : is_pow2 N = false := by simpa using hp
      have h3 := three_le_of_not_is_pow2 hp'
      rw [if_neg hp, if_neg hp, round_up_power2_impl_value (by omega) hN]
      by_cases hl : 2 ^ 63 < N
      · rw [if_pos hl, if_neg (by omega)]
      · rw [if_neg hl, if_neg (by omega), if_pos (by omega)]
  · intro h
    subst h
    decide
  · intro h0 hle
    unfold round_up_power2
    by_cases hp : is_pow2 N = true
    · rw [if_pos hp]
      obtain ⟨j, hj⟩ := pow2.two_pow_of_is_pow2 h0 hN hp
      refine ⟨j, hj, by omega, ?_⟩
      intro i hi
      omega
    · have hp' : is_pow2 N = false := by simpa using hp
      have h3 := three_le_of_not_is_pow2 hp'
      rw [if_neg hp, round_up_power2_impl_value (by omega) hN, if_pos hle]
      have hne : N - 1 ≠ 0 := by omega
      have hl1 : 2 ^ (N - 1).log2 ≤ N - 1 := Nat.log2_self_le hne
      have hl2 : N - 1 < 2 ^ ((N - 1).log2 + 1) := Nat.lt_log2_self
      refine ⟨(N - 1).log2 + 1, rfl, by omega, ?_⟩
      intro i hi
      apply Nat.pow_le_pow_right (by decide)
      by_contra hc
      have : 2 ^ i ≤ 2 ^ (N - 1).log2 := Nat.pow_le_pow_right (by decide) (by omega)
      omega
  · intro hl
    unfold round_up_power2
    rw [not_is_pow2_of_large hN hl]
    simp only [Bool.false_eq_true, if_false]
    rw [round_up_power2_impl_value (by omega) hN, if_neg (by omega)]

/-- C39 at `N = 5`: both metafunctions give 8. -/
theorem round_up_pow2_eq_round_up_power2_witness :
    (5 : Nat) < 2 ^ 64 ∧
    round_up_pow2 5 = some (round_up_power2 5) ∧
    ((5 : Nat) = 0 → round_up_power2 5 = 0) ∧
    (0 < 5 → 5 ≤ 2 ^ 63 →
      ∃ j, round_up_power2 5 = 2 ^ j ∧ 5 ≤ 2 ^ j ∧ ∀ i, 5 ≤ 2 ^ i → 2 ^ j ≤ 2 ^ i) ∧
    (2 ^ 63 < 5 → round_up_power2 5 = 2 ^ 64 - 1) :=
  ⟨by decide, round_up_pow2_eq_round_up_power2 5 (by decide)⟩

end compile_time

/-! ## The sizes of the table across the operations -/

namespace robin32

variable {K V : Type}

theorem setUsedCtrl_fields (t : Table K V) (i h d : Nat) :
    SameShape (setUsedCtrl t i h d) t ∧ (setUsedCtrl t i h d).slots = t.slots ∧
      (setUsedCtrl t i h d).slot_size = t.slot_size := by
  unfold setUsedCtrl setUsedMirrorCtrl SameShape
  split <;> simp

/-- The fields `create_group` sets. -/
theorem create_group_fields (init : Bool) (fresh : Fresh K V) (t t0 : Table K V) (c : Nat)
    (h : create_group init fresh t c = some t0) :
    4 ≤ (if init then calc_capacity c else c) ∧ (if init then calc_capacity c else c) < 2 ^ 63 ∧
      t0.slot_mask + 1 = (if init then calc_capacity c else c) ∧
      t0.group_mask + 1 = ((if init then calc_capacity c else c) + 31) / 32 ∧
      t0.n_mlf = t.n_mlf ∧ t0.n_mlf_rev = t.n_mlf_rev ∧
      t0.slot_threshold = ((if init then calc_capacity c else c) * t.n_mlf % 2 ^ 64) / 65536 ∧
      t0.slot_size = (if init then t.slot_size else 0) := by
  unfold create_group at h
  dsimp only at h
  generalize (if init = true then calc_capacity c else c) = nc at h ⊢
  unfold kMinimumCapacity at h
  by_cases hc : nc < 4 ∨ 2 ^ 63 ≤ nc
  · rw [if_pos hc] at h; exact Option.noConfusion h
  · rw [if_neg hc] at h
    simp only [Option.some.injEq] at h
    subst h
    unfold kGroupWidth npow64 kLoadFactorAmplify Table.integral_mlf
    dsimp only
    have e1 : (nc + (32 - 1)) % 2 ^ 64 = nc + 31 := Nat.mod_eq_of_lt (by omega)
    refine ⟨by omega, by omega, ?_, ?_, rfl, rfl, rfl, rfl⟩
    · have : nc + 2 ^ 64 - 1 = (nc - 1) + 2 ^ 64 := by omega
      rw [this, Nat.add_mod_right, Nat.mod_eq_of_lt (by omega)]
      omega
    · rw [e1]
      have h1 : 1 ≤ (nc + 31) / 32 := by omega
      have : (nc + 31) / 32 + 2 ^ 64 - 1 = ((nc + 31) / 32 - 1) + 2 ^ 64 := by omega
      rw [this, Nat.add_mod_right, Nat.mod_eq_of_lt (by omega)]
      omega

end robin32

/-! ## `rehash_impl` and the capacity -/

namespace robin32

variable {K V : Type}

theorem capacity_of_mask {t : Table K V} {c : Nat} (h : t.slot_mask + 1 = c) (hc : c < 2 ^ 64) :
    t.capacity = c ∧ t.slot_capacity = c := by
  unfold Table.capacity Table.slot_capacity npow64
  rw [h, Nat.mod_eq_of_lt hc]
  exact ⟨rfl, rfl⟩

/-- **C16**, amended. robin32: the constructor called with an initial capacity
`n` up to `2 ^ 62` returns a table whose capacity is a power of two, at least
`kMinimumCapacity = 4`, at least `n`, and not zero. -/
theorem robin32_ctor_capacity (fresh : Fresh K V) (n : Nat) (hn : n ≤ 2 ^ 62) :
    ∃ t, robin32_hash_map fresh n = some t ∧ kMinimumCapacity ≤ t.capacity ∧
      n ≤ t.capacity ∧ t.capacity ≠ 0 ∧ ∃ j, t.capacity = 2 ^ j := by
  obtain ⟨j, h1, h2, h3, h4, h5⟩ := calc_capacity_spec (x := n) (by omega)
  have h62 : 2 ^ j ≤ 2 ^ 62 := h5 62 hn (by norm_num)
  have h4' : 4 ≤ 2 ^ j := by
    calc 4 = 2 ^ 2 := rfl
      _ ≤ 2 ^ j := Nat.pow_le_pow_right (by decide) h1
  cases hc : robin32_hash_map fresh n with
  | none =>
    exfalso
    unfold robin32_hash_map create_group at hc
    simp only [if_true] at hc
    rw [h3] at hc
    unfold kMinimumCapacity at hc
    rw [if_neg (by omega)] at hc
    exact Option.noConfusion hc
  | some t =>
    obtain ⟨-, g2, g3, -⟩ := create_group_fields true fresh _ t n hc
    simp only [if_true] at g2 g3
    have hcap := (capacity_of_mask g3 (by omega)).1
    rw [h3] at hcap
    refine ⟨t, rfl, ?_, ?_, ?_, j, hcap⟩
    · unfold kMinimumCapacity; omega
    · omega
    · omega

/-- **C18.** robin32: the table `create_group` builds for a table with the integer
load factor `n_mlf` has, when `capacity * n_mlf` does not overflow,
`slot_threshold = floor(capacity * n_mlf / 65536)`; with `n_mlf = 32768` this is
`capacity / 2`, and it is below the capacity for every `n_mlf < 65536`. -/
theorem robin32_ctor_threshold (init : Bool) (fresh : Fresh K V) (t t' : Table K V) (c : Nat)
    (h : create_group init fresh t c = some t') (hov : t'.capacity * t.n_mlf < 2 ^ 64) :
    t'.slot_threshold = t'.capacity * t.n_mlf / kLoadFactorAmplify ∧
      (t.n_mlf = kDefaultLoadFactorInt → t'.slot_threshold = t'.capacity / 2) ∧
      (t.n_mlf < kLoadFactorAmplify → t'.slot_threshold < t'.capacity) := by
  obtain ⟨g1, g2, g3, -, -, -, g7, -⟩ := create_group_fields init fresh t t' c h
  have hcap := (capacity_of_mask g3 (by omega)).1
  rw [← hcap] at g7 g1
  rw [Nat.mod_eq_of_lt hov] at g7
  unfold kLoadFactorAmplify kDefaultLoadFactorInt
  refine ⟨g7, ?_, ?_⟩
  · intro hd
    rw [g7, hd]
    omega
  · intro hd
    rw [g7]
    apply Nat.div_lt_of_lt_mul
    rw [Nat.mul_comm 65536]
    exact Nat.mul_lt_mul_of_pos_left hd (by omega)

end robin32

/-! ## The invariant after `create_group` -/

namespace robin32

variable {K V : Type}

/-- The invariant only looks at the control records, the keys and the sizes. -/
theorem inv_of_eq (hash : K → Nat) {t t' : Table K V} (hinv : Inv hash t)
    (hc : t'.controls = t.controls) (hk : ∀ i, (t'.slots i).1 = (t.slots i).1)
    (hm : t'.slot_mask = t.slot_mask) (hg : t'.group_mask = t.group_mask)
    (hs : t'.slot_size < 2 ^ 64) : Inv hash t' := by
  have hcap : t'.capacity = t.capacity := capacity_congr hm
  obtain ⟨n, hn2, hn, hmn, hgn⟩ := hinv.wf
  refine ⟨⟨n, hn2, hn, by rw [hm]; exact hmn, by rw [hg]; exact hgn⟩, hs, ?_, ?_, ?_⟩
  · intro p hp h256 h0 hd
    rw [hc] at hd ⊢
    exact hinv.distZero p (hcap ▸ hp) h256 h0 hd
  · intro p hp h16 hh hd htag
    rw [hc] at hh hd
    rw [hk] at htag ⊢
    rw [homeOf_congr hash hm]
    exact hinv.homeOnly p (hcap ▸ hp) h16 hh hd htag
  · intro hsmall q hq1 hq2
    rw [hcap] at hsmall hq1 ⊢
    rw [hc]
    exact hinv.smallMirror hsmall q hq1 hq2

theorem fillAll16_apply (tag : Nat) (ctrl : Nat → control_data) (data p : Nat) :
    fillAll16 tag ctrl data p
      = if data ≤ p ∧ p < data + 16 then ⟨tag % 256, tag / 256⟩ else ctrl p := rfl

theorem fillGroups_apply (tag : Nat) (ctrl : Nat → control_data) (n p : Nat) :
    fillGroups tag ctrl n p
      = if p < 32 * n ∧ p % 32 < 16 then ⟨tag % 256, tag / 256⟩ else ctrl p := by
  induction n with
  | zero =>
    unfold fillGroups
    rw [if_neg (by omega)]
  | succ n ih =>
    unfold fillGroups
    rw [fillAll16_apply, ih]
    unfold kGroupWidth
    by_cases h1 : n * 32 ≤ p ∧ p < n * 32 + 16
    · rw [if_pos h1, if_pos (by omega)]
    · rw [if_neg h1]
      by_cases h2 : p < 32 * n ∧ p % 32 < 16
      · rw [if_pos h2, if_pos (by omega)]
      · rw [if_neg h2, if_neg (by omega)]

/-- The power of two `calc_capacity` returns whenever `create_group` accepts it. -/
theorem calc_capacity_pow2 (c : Nat) (h4 : 4 ≤ calc_capacity c) (h : calc_capacity c < 2 ^ 63) :
    ∃ j, calc_capacity c = 2 ^ j := by
  unfold calc_capacity kMinimumCapacity at h4 h ⊢
  dsimp only at h4 h ⊢
  by_cases hp : pow2.is_pow2 (max c 4) = true
  · rw [hp] at h4 h ⊢
    simp only [Bool.not_true, Bool.false_eq_true, if_false] at h4 h ⊢
    exact pow2.two_pow_of_is_pow2 (by omega) (by omega) hp
  · have hp' : pow2.is_pow2 (max c 4) = false := by simpa using hp
    rw [hp'] at h4 h ⊢
    simp only [Bool.not_false, if_true] at h4 h ⊢
    unfold pow2.round_up at h4 h ⊢
    simp only [or_true, if_true] at h4 h ⊢
    rw [if_pos (Or.inr (by decide))] at h4 h ⊢
    rw [Nat.one_shiftLeft] at h4 h ⊢
    generalize pow2.countTrailingZeros ((max c 4 + 2 ^ 64 - 1) % 2 ^ 64) + 1 = k at h4 h ⊢
    by_cases hk : k < 64
    · refine ⟨k, Nat.mod_eq_of_lt (Nat.pow_lt_pow_right (by decide) hk)⟩
    · exfalso
      have : 2 ^ k % 2 ^ 64 = 0 :=
        Nat.mod_eq_zero_of_dvd (Nat.pow_dvd_pow 2 (by omega))
      omega

/-- The control records of a new table: the first half of every group below the
capacity is empty and, below the group width, the records after the capacity are
end marks. -/
theorem create_group_controls (init : Bool) (fresh : Fresh K V) (t t0 : Table K V) (c : Nat)
    (h : create_group init fresh t c = some t0) :
    (∀ p, p < t0.capacity → p % 32 < 16 → t0.controls p = ⟨0xFF, 0⟩) ∧
      (t0.capacity < 32 → ∀ q, t0.capacity ≤ q → q < 16 →
        (t0.controls q).distance = kEndOfMark) := by
  obtain ⟨g1, g2, g3, -⟩ := create_group_fields init fresh t t0 c h
  have hcap := (capacity_of_mask g3 (by omega)).1
  unfold create_group at h
  dsimp only at h
  generalize (if init = true then calc_capacity c else c) = nc at h g1 g2 g3 hcap
  unfold kMinimumCapacity at h
  rw [if_neg (by omega)] at h
  simp only [Option.some.injEq] at h
  rw [hcap]
  subst h
  unfold kGroupWidth npow64 kEmptyEntry kEndOfMark control_data.setEndOf
  dsimp only
  have e1 : (nc + (32 - 1)) % 2 ^ 64 = nc + 31 := Nat.mod_eq_of_lt (by omega)
  rw [e1]
  constructor
  · intro p hp h16
    rw [if_neg (by omega)]
    by_cases hge : nc ≥ 32
    · rw [if_pos hge, fillAll16_apply, if_neg (by omega), fillGroups_apply, if_pos (by omega)]
    · rw [if_neg hge, fillAll16_apply, if_neg (by omega), fillAll16_apply, if_neg (by omega),
        fillGroups_apply, if_pos (by omega)]
  · intro hsmall q hq1 hq2
    by_cases hq : q = nc
    · rw [if_pos hq]
      rfl
    · rw [if_neg hq, if_neg (by omega), fillAll16_apply, if_neg (by omega), fillAll16_apply,
        if_pos (by omega)]

/-- A table `create_group` returns for a power-of-two capacity satisfies the
invariant. -/
theorem inv_create_group (hash : K → Nat) (init : Bool) (fresh : Fresh K V) (t t0 : Table K V)
    (c : Nat) (h : create_group init fresh t c = some t0)
    (hp : ∃ j, (if init then calc_capacity c else c) = 2 ^ j)
    (hs : init = true → t.slot_size < 2 ^ 64) : Inv hash t0 := by
  obtain ⟨g1, g2, g3, g4, -, -, -, g8⟩ := create_group_fields init fresh t t0 c h
  obtain ⟨c1, c2⟩ := create_group_controls init fresh t t0 c h
  obtain ⟨j, hj⟩ := hp
  rw [hj] at g1 g2 g3 g4
  have hj2 : 2 ≤ j := by
    by_contra hc
    have : j = 0 ∨ j = 1 := by omega
    rcases this with h | h <;> rw [h] at g1 <;> norm_num at g1
  have hj63 : j < 63 := by
    by_contra hc
    have : 2 ^ 63 ≤ 2 ^ j := Nat.pow_le_pow_right (by decide) (by omega)
    omega
  refine ⟨⟨j, hj2, hj63, g3, g4⟩, ?_, ?_, ?_, ?_⟩
  · rw [g8]
    cases init with
    | true => exact hs rfl
    | false => simp
  · intro p hp h256 h0 hd
    rw [c1 p hp (by omega)] at hd
    exact absurd hd (by decide)
  · intro p hp h16 hh hd htag
    rw [c1 p hp h16] at hd
    have : (255 : Nat) ≤ p % 32 := hd
    omega
  · intro hsmall q hq1 hq2
    left
    rw [c2 hsmall q hq1 hq2]

end robin32

/-! ## The invariant when a record is written -/

namespace robin32

variable {K V : Type}

theorem setUsedCtrl_controls (t : Table K V) (i h d p : Nat) :
    (setUsedCtrl t i h d).controls p
      = if p = i ∨ (i < 32 ∧ p = i + t.slot_capacity) then ⟨d, h⟩ else t.controls p := by
  unfold setUsedCtrl setUsedMirrorCtrl control_data.setUsed control_data.setHash
    control_data.setDistance kGroupWidth
  have hcap : ∀ (c : Nat → control_data), Table.slot_capacity { t with controls := c }
      = t.slot_capacity := fun _ => rfl
  by_cases h32 : i < 32
  · rw [if_pos h32]
    dsimp only
    rw [hcap]
    by_cases h1 : p = i + t.slot_capacity
    · rw [if_pos h1, if_pos (Or.inr ⟨h32, h1⟩)]
    · rw [if_neg h1]
      by_cases h2 : p = i
      · rw [if_pos h2, if_pos (Or.inl h2)]
      · rw [if_neg h2, if_neg (by tauto)]
  · rw [if_neg h32]
    dsimp only
    by_cases h2 : p = i
    · rw [if_pos h2, if_pos (Or.inl h2)]
    · rw [if_neg h2, if_neg (by tauto)]

/-- Writing a record and its cell keeps the invariant when the record, in case it
looks like one a probe with tag 0 accepts, sits in the home group of its key. -/
theorem inv_write (hash : K → Nat) {t : Table K V} (hinv : Inv hash t) (idx tag d : Nat)
    (value : K × V) (hidx : idx < t.capacity)
    (hH : tag = 0 → d ≤ idx % 32 → idx % 32 < 16 → tagOf hash value.1 = 0 →
      homeOf hash t value.1 = idx - idx % 32)
    (hD : idx % 256 = 0 → idx ≠ 0 → d = 0 → tag = 0) :
    Inv hash
      { setUsedCtrl t idx tag d with
        slots := fun i => if i = idx then value else (setUsedCtrl t idx tag d).slots i
        slot_size := ((setUsedCtrl t idx tag d).slot_size + 1) % npow64 } := by
  obtain ⟨⟨hmask, hgm, -, -, -⟩, hslots, -⟩ := setUsedCtrl_fields t idx tag d
  obtain ⟨n, hn2, hn, hm, hg⟩ := hinv.wf
  have hcn := capacity_pow hn hm
  have hscn : t.slot_capacity = 2 ^ n := hcn
  have hcap : ∀ (s : Nat → K × V) (z : Nat),
      Table.capacity { setUsedCtrl t idx tag d with slots := s, slot_size := z } = t.capacity :=
    fun _ _ => capacity_congr hmask
  have hhome : ∀ (s : Nat → K × V) (z : Nat) (k : K),
      homeOf hash { setUsedCtrl t idx tag d with slots := s, slot_size := z } k
        = homeOf hash t k := fun _ _ k => homeOf_congr hash hmask k
  rw [hcn] at hidx
  refine ⟨⟨n, hn2, hn, by rw [← hm]; exact congrArg (· + 1) hmask,
    by rw [← hg]; exact congrArg (· + 1) hgm⟩, ?_, ?_, ?_, ?_⟩
  · exact Nat.mod_lt _ (by decide)
  · intro p hp h256 h0 hd
    rw [hcap, hcn] at hp
    change ((setUsedCtrl t idx tag d).controls p).distance = 0 at hd
    change ((setUsedCtrl t idx tag d).controls p).hash = 0
    rw [setUsedCtrl_controls] at hd ⊢
    by_cases h1 : p = idx ∨ (idx < 32 ∧ p = idx + t.slot_capacity)
    · rw [if_pos h1] at hd ⊢
      have hp' : p = idx := by
        rcases h1 with h1 | ⟨-, h1⟩
        · exact h1
        · rw [hscn] at h1; omega
      subst hp'
      exact hD h256 h0 hd
    · rw [if_neg h1] at hd ⊢
      exact hinv.distZero p (by rw [hcn]; exact hp) h256 h0 hd
  · intro p hp h16 hh hd htag
    rw [hcap, hcn] at hp
    rw [hhome]
    change ((setUsedCtrl t idx tag d).controls p).hash = 0 at hh
    change ((setUsedCtrl t idx tag d).controls p).distance ≤ p % 32 at hd
    change tagOf hash (if p = idx then value else (setUsedCtrl t idx tag d).slots p).1 = 0
      at htag
    change homeOf hash t (if p = idx then value else (setUsedCtrl t idx tag d).slots p).1
      = p - p % 32
    rw [setUsedCtrl_controls] at hh hd
    by_cases h1 : p = idx ∨ (idx < 32 ∧ p = idx + t.slot_capacity)
    · rw [if_pos h1] at hh hd
      have hp' : p = idx := by
        rcases h1 with h1 | ⟨-, h1⟩
        · exact h1
        · rw [hscn] at h1; omega
      subst hp'
      rw [if_pos rfl] at htag ⊢
      exact hH hh hd h16 htag
    · rw [if_neg h1] at hh hd
      have hne : p ≠ idx := fun hc => h1 (Or.inl hc)
      rw [if_neg hne, hslots] at htag ⊢
      exact hinv.homeOnly p (by rw [hcn]; exact hp) h16 hh hd htag
  · intro hsmall q hq1 hq2
    rw [hcap] at hsmall hq1 ⊢
    change ((setUsedCtrl t idx tag d).controls q).distance ≥ kEndOfMark ∨
      (q < 2 * t.capacity ∧
        (setUsedCtrl t idx tag d).controls q = (setUsedCtrl t idx tag d).controls (q - t.capacity))
    rw [setUsedCtrl_controls, setUsedCtrl_controls, hscn]
    rw [hcn] at hsmall hq1 ⊢
    have hi32 : idx < 32 := by omega
    by_cases h1 : q = idx ∨ (idx < 32 ∧ q = idx + 2 ^ n)
    · rw [if_pos h1]
      have hq : q = idx + 2 ^ n := by
        rcases h1 with h1 | ⟨-, h1⟩
        · omega
        · exact h1
      right
      refine ⟨by omega, ?_⟩
      rw [if_pos (Or.inl (by omega))]
    · rw [if_neg h1]
      rcases hinv.smallMirror (by rw [hcn]; exact hsmall) q (by rw [hcn]; exact hq1) hq2 with
        h' | ⟨h2, h3⟩
      · left; exact h'
      · right
        rw [hcn] at h2 h3
        refine ⟨h2, ?_⟩
        rw [if_neg (by
          intro hc
          apply h1
          right
          refine ⟨hi32, ?_⟩
          rcases hc with hc | ⟨-, hc⟩ <;> omega)]
        exact h3

end robin32

/-! ## The invariant across `rehash_impl` -/

namespace robin32

variable {K V : Type}

theorem tagOf_zero_of_home (hash : K → Nat) {t : Table K V} {n : Nat} (hn : 8 ≤ n)
    (hm : t.slot_mask + 1 = 2 ^ n) (k : K) (h : homeOf hash t k % 256 = 0) :
    tagOf hash k = 0 := by
  apply (tagOf_eq_zero_iff hash k).2
  unfold homeOf at h
  rw [index_for_eq hm, mod_mod_256 hn] at h
  exact h

theorem matchEmpty_lt (ctrl : Nat → control_data) (data : Nat) :
    matchEmpty ctrl data < 2 ^ 32 := by
  unfold matchEmpty matchLowControlTag
  exact movemask_lt _

/-- Where `find_first_empty_slot` ends: at a lane of a group the probe reaches. -/
theorem find_first_empty_loop_spec (t : Table K V) (first : Nat) {n : Nat} (hn : n < 63)
    (hm : t.slot_mask + 1 = 2 ^ n) (f0 : Nat) :
    ∀ fuel s r, Visited n f0 s → find_first_empty_loop t first fuel s = some r →
      ∃ s' j, Visited n f0 s' ∧ j < 16 ∧
        r = (round_index t (s' + j), round_distance ((s' + j + npow64 - first) % npow64)) := by
  intro fuel
  induction fuel with
  | zero => intro s r _ h; exact Option.noConfusion h
  | succ fuel ih =>
    intro s r hv h
    unfold find_first_empty_loop at h
    by_cases hne : matchEmpty t.controls s ≠ 0
    · rw [if_pos hne] at h
      simp only [Option.some.injEq] at h
      have hb := BitUtils.bsf32_lt hne (matchEmpty_lt _ _)
      refine ⟨s, BitUtils.bsf32 (matchEmpty t.controls s) >>> 1, hv, ?_, h.symm⟩
      rw [shiftRight_one]; omega
    · rw [if_neg hne] at h
      exact ih _ _ (visited_next hn hm hv) h

theorem round_distance_le (x b : Nat) (hb : b < 254) (h : round_distance x ≤ b) : x ≤ b := by
  unfold round_distance kEndOfMark at h
  split at h <;> omega

/-- `move_insert_unique` keeps the invariant. -/
theorem inv_move_insert_unique (hash : K → Nat) {t t' : Table K V} (hinv : Inv hash t)
    (slot : K × V) (h : move_insert_unique hash t slot = some t') : Inv hash t' := by
  obtain ⟨n, hn2, hn, hm, hg⟩ := hinv.wf
  have hcn := capacity_pow hn hm
  have hlt := two_pow_lt_of_lt_63 hn
  unfold move_insert_unique find_first_empty_slot at h
  dsimp only at h
  obtain ⟨r, hr, ht'⟩ := Option.map_eq_some'.1 h
  obtain ⟨r0, hr0, hrr⟩ := Option.map_eq_some'.1 hr
  have hf : index_for t (get_hash hash slot.1) = homeOf hash t slot.1 := rfl
  have htag : get_ctrl_hash (get_second_hash (get_hash hash slot.1)) = tagOf hash slot.1 := rfl
  rw [hf] at hr0
  have hfl := homeOf_lt hash hm slot.1
  obtain ⟨s', j, ⟨hv1, hv2, hv3⟩, hj, hres⟩ :=
    find_first_empty_loop_spec t _ hn hm (homeOf hash t slot.1) _ _ r0
      ⟨hfl, fun _ => rfl, fun _ => rfl⟩ hr0
  subst hres
  subst hrr
  subst ht'
  rw [htag]
  apply inv_write hash hinv
  · rw [hcn]; exact round_index_lt hm _
  · intro h0 hd h16 _
    dsimp only at hd h16 ⊢
    rw [round_index_eq hm] at hd h16 ⊢
    by_cases hn5 : 5 ≤ n
    · have hf32 := homeOf_mod_32 hash hn5 hm slot.1 h0
      have hs32 : s' % 32 = 0 := by rw [hv2 hn5, hf32]
      have h32 := two_pow_mod_32 hn5
      have hlt' : s' + j < 2 ^ n := by omega
      rw [Nat.mod_eq_of_lt hlt'] at hd h16 ⊢
      have hd' := round_distance_le _ _ (by omega) hd
      unfold npow64 at hd'
      by_cases hge : homeOf hash t slot.1 ≤ s'
      · have e : (s' + j + 2 ^ 64 - homeOf hash t slot.1) % 2 ^ 64
            = s' + j - homeOf hash t slot.1 := by
          have : s' + j + 2 ^ 64 - homeOf hash t slot.1
              = (s' + j - homeOf hash t slot.1) + 2 ^ 64 := by omega
          rw [this, Nat.add_mod_right]
          exact Nat.mod_eq_of_lt (by omega)
        rw [e] at hd'
        omega
      · exfalso
        have e : (s' + j + 2 ^ 64 - homeOf hash t slot.1) % 2 ^ 64
            = s' + j + 2 ^ 64 - homeOf hash t slot.1 := Nat.mod_eq_of_lt (by omega)
        rw [e] at hd'
        omega
    · have hn5' : n < 5 := by omega
      have hs : s' = homeOf hash t slot.1 := hv3 hn5'
      have hf0 := homeOf_eq_zero hash (by omega) hm slot.1 h0
      rw [hf0]
      have : 2 ^ n < 2 ^ 5 := Nat.pow_lt_pow_right (by decide) hn5'
      have hlt2 : (s' + j) % 2 ^ n < 2 ^ n := Nat.mod_lt _ (by positivity)
      omega
  · intro h256 h0 hd
    dsimp only at h256 h0 hd ⊢
    have hx : (s' + j + npow64 - homeOf hash t slot.1) % npow64 = 0 := by
      unfold round_distance kEndOfMark at hd
      split at hd <;> omega
    unfold npow64 at hx
    have hsj : s' + j = homeOf hash t slot.1 := by omega
    rw [hsj, round_index_eq hm, Nat.mod_eq_of_lt hfl] at h256 h0
    by_cases hn8 : 8 ≤ n
    · exact tagOf_zero_of_home hash hn8 hm slot.1 h256
    · exfalso
      have : 2 ^ n ≤ 2 ^ 7 := Nat.pow_le_pow_right (by decide) (by omega)
      omega

theorem inv_rehash_group (hash : K → Nat) (old_slots : Nat → K × V) (start : Nat) :
    ∀ (fuel mask : Nat) (t t' : Table K V), Inv hash t →
      rehash_group hash old_slots start fuel mask t = some t' → Inv hash t' := by
  intro fuel
  induction fuel with
  | zero =>
    intro mask t t' hinv h
    simp only [rehash_group, Option.some.injEq] at h
    subst h; exact hinv
  | succ f ih =>
    intro mask t t' hinv h
    unfold rehash_group at h
    by_cases hm : mask = 0
    · rw [if_pos hm] at h
      simp only [Option.some.injEq] at h
      subst h; exact hinv
    · rw [if_neg hm] at h
      dsimp only at h
      cases hmv : move_insert_unique hash t (old_slots (start + BitUtils.bsf32 mask)) with
      | none => rw [hmv] at h; exact Option.noConfusion h
      | some t1 =>
        rw [hmv] at h
        exact ih _ _ _ (inv_move_insert_unique hash hinv _ hmv) h

theorem inv_rehash_groups (hash : K → Nat) (old : Table K V) :
    ∀ (n g : Nat) (t t' : Table K V), Inv hash t →
      rehash_groups hash old n g t = some t' → Inv hash t' := by
  intro n
  induction n with
  | zero =>
    intro g t t' hinv h
    simp only [rehash_groups, Option.some.injEq] at h
    subst h; exact hinv
  | succ n ih =>
    intro g t t' hinv h
    unfold rehash_groups at h
    cases hg : rehash_group hash old.slots (g * kGroupWidth) 32
        (matchUsed old.controls (g * kGroupWidth)) t with
    | none => rw [hg] at h; exact Option.noConfusion h
    | some t1 =>
      rw [hg] at h
      exact ih _ _ _ (inv_rehash_group hash _ _ _ _ _ _ hinv hg) h

theorem inv_rehash_controls (hash : K → Nat) (old : Table K V) :
    ∀ (n i : Nat) (t t' : Table K V), Inv hash t →
      rehash_controls hash old n i t = some t' → Inv hash t' := by
  intro n
  induction n with
  | zero =>
    intro i t t' hinv h
    simp only [rehash_controls, Option.some.injEq] at h
    subst h; exact hinv
  | succ n ih =>
    intro i t t' hinv h
    unfold rehash_controls at h
    by_cases hu : (old.controls i).isUsed = true
    · rw [if_pos hu] at h
      cases hmv : move_insert_unique hash t (old.slots i) with
      | none => rw [hmv] at h; exact Option.noConfusion h
      | some t1 =>
        rw [hmv] at h
        exact ih _ _ _ (inv_move_insert_unique hash hinv _ hmv) h
    · rw [if_neg hu] at h
      exact ih _ _ _ hinv h

/-- `rehash_impl` keeps the invariant. -/
theorem inv_rehash_impl (hash : K → Nat) (A B : Bool) (fresh : Fresh K V) {t t' : Table K V}
    (hinv : Inv hash t) (c : Nat) (h : rehash_impl hash A B fresh t c = some t') :
    Inv hash t' := by
  unfold rehash_impl at h
  dsimp only at h
  by_cases hc : B = true ∨ (¬ A = true ∧ calc_capacity c > t.slot_capacity) ∨
      (A = true ∧ calc_capacity c ≠ t.slot_capacity)
  · rw [if_pos hc] at h
    cases hg : create_group false fresh t (calc_capacity c) with
    | none => rw [hg] at h; exact Option.noConfusion h
    | some t0 =>
      rw [hg] at h
      dsimp only at h
      obtain ⟨g1, g2, -⟩ := create_group_fields false fresh t t0 _ hg
      simp only [Bool.false_eq_true, if_false] at g1 g2
      have hinv0 : Inv hash t0 :=
        inv_create_group hash false fresh t t0 _ hg
          (by simp only [Bool.false_eq_true, if_false]; exact calc_capacity_pow2 c g1 g2)
          (fun hc => Bool.noConfusion hc)
      obtain ⟨t1, hmv, ht1⟩ := Option.map_eq_some'.1 h
      have hinv1 : Inv hash t1 := by
        by_cases hge : t.slot_capacity ≥ kGroupWidth
        · rw [if_pos hge] at hmv
          exact inv_rehash_groups hash t _ _ _ _ hinv0 hmv
        · rw [if_neg hge] at hmv
          exact inv_rehash_controls hash t _ _ _ _ hinv0 hmv
      subst ht1
      exact inv_of_eq hash hinv1 rfl (fun _ => rfl) rfl rfl hinv1.sizeBound
  · rw [if_neg hc] at h
    simp only [Option.some.injEq] at h
    subst h; exact hinv

end robin32

/-! ## The invariant across `find_and_prepare_insert` -/

namespace robin32

variable {K V : Type} [DecidableEq K]

theorem prepare_scan_some (t : Table K V) (key : K) (s : Nat) :
    ∀ fuel mask D idx d, prepare_scan t key s fuel mask D = (some idx, d) →
      ∃ x, idx = round_index t x := by
  intro fuel
  induction fuel with
  | zero => intro mask D idx d h; simp [prepare_scan] at h
  | succ fuel ih =>
    intro mask D idx d h
    unfold prepare_scan at h
    by_cases hm : mask = 0
    · rw [if_pos hm] at h; simp at h
    · rw [if_neg hm] at h
      dsimp only at h
      split at h
      · simp only [Prod.mk.injEq, Option.some.injEq] at h
        exact ⟨_, h.1.symm⟩
      · exact ih _ _ _ _ h

/-- Scanning candidates of a group that starts at 255 or later leaves the
distance 254 behind. -/
theorem prepare_scan_far (t : Table K V) (key : K) (s : Nat) (hs : 255 ≤ s) :
    ∀ fuel mask, (prepare_scan t key s fuel mask 254).1 = none →
      (prepare_scan t key s fuel mask 254).2 = 254 := by
  intro fuel
  induction fuel with
  | zero => intro mask _; rfl
  | succ fuel ih =>
    intro mask h
    unfold prepare_scan at h ⊢
    by_cases hm : mask = 0
    · rw [if_pos hm]
    · rw [if_neg hm] at h ⊢
      dsimp only at h ⊢
      have hrd : round_distance (s + BitUtils.bsf32 mask >>> 1) = 254 := by
        unfold round_distance kEndOfMark
        rw [if_neg (by omega)]
      rw [hrd] at h ⊢
      split
      · rename_i hk
        rw [if_pos hk] at h
      · rename_i hk
        rw [if_neg hk] at h
        exact ih _ h

theorem prepare_scan_far_first (t : Table K V) (key : K) (s : Nat) (hs : 255 ≤ s)
    (fuel mask D : Nat) (hm : mask ≠ 0)
    (h : (prepare_scan t key s (fuel + 1) mask D).1 = none) :
    (prepare_scan t key s (fuel + 1) mask D).2 = 254 := by
  unfold prepare_scan at h ⊢
  rw [if_neg hm] at h ⊢
  dsimp only at h ⊢
  have hrd : round_distance (s + BitUtils.bsf32 mask >>> 1) = 254 := by
    unfold round_distance kEndOfMark
    rw [if_neg (by omega)]
  rw [hrd] at h ⊢
  split
  · rename_i hk
    rw [if_pos hk] at h
  · rename_i hk
    rw [if_neg hk] at h
    exact prepare_scan_far t key s hs _ _ h

theorem prepare_loop_found (t : Table K V) (key : K) (tag first : Nat) :
    ∀ fuel s D idx d, prepare_loop t key tag first fuel s D = Probe.found idx d →
      ∃ x, idx = round_index t x := by
  intro fuel
  induction fuel with
  | zero => intro s D idx d h; simp [prepare_loop] at h
  | succ fuel ih =>
    intro s D idx d h
    unfold prepare_loop at h
    by_cases hD : D % kGroupWidth / 4 < 4
    · rw [if_pos hD] at h
      dsimp only at h
      generalize hps : prepare_scan t key s 32
        (matchHashAndDistance t.controls s tag D).maskHash D = r at h
      obtain ⟨o, d'⟩ := r
      cases o with
      | some i =>
        dsimp only at h
        injection h with h1 h2
        subst h1
        exact prepare_scan_some t key s _ _ _ _ _ hps
      | none =>
        dsimp only at h
        split at h
        · exact Probe.noConfusion h
        · split at h
          · exact Probe.noConfusion h
          · exact ih _ _ _ _ h
    · rw [if_neg hD] at h; exact Probe.noConfusion h

/-- Where the probe of `find_and_prepare_insert` reports a vacancy. -/
theorem prepare_loop_vacant (t : Table K V) (key : K) (tag first : Nat) {n : Nat}
    (hn : n < 63) (hm : t.slot_mask + 1 = 2 ^ n) (f0 : Nat) :
    ∀ fuel s D last m, Visited n f0 s →
      prepare_loop t key tag first fuel s D = Probe.vacant last m →
      m ≠ 0 ∧ m < 2 ^ 32 ∧ Visited n f0 last := by
  intro fuel
  induction fuel with
  | zero => intro s D last m _ h; simp [prepare_loop] at h
  | succ fuel ih =>
    intro s D last m hv h
    unfold prepare_loop at h
    by_cases hD : D % kGroupWidth / 4 < 4
    · rw [if_pos hD] at h
      dsimp only at h
      generalize prepare_scan t key s 32
        (matchHashAndDistance t.controls s tag D).maskHash D = r at h
      obtain ⟨o, d'⟩ := r
      cases o with
      | some i => exact Probe.noConfusion h
      | none =>
        dsimp only at h
        by_cases he : (matchHashAndDistance t.controls s tag D).maskEmpty ≠ 0
        · rw [if_pos he] at h
          injection h with h1 h2
          subst h1 h2
          exact ⟨he, by rw [maskEmpty_eq]; exact movemask_lt _, hv⟩
        · rw [if_neg he] at h
          by_cases hw : slot_next_group t s = first
          · rw [if_pos hw] at h; exact Probe.noConfusion h
          · rw [if_neg hw] at h
            exact ih _ _ _ _ (visited_next hn hm hv) h
    · rw [if_neg hD] at h; exact Probe.noConfusion h

/-- A probe with tag 0 that starts at a multiple of 256 other than 0 reports a
vacancy in its first group only: to leave that group it has to pass the record of
the start slot as a candidate, which sets the distance to 254, and the next round
reads outside `kDistance16`. -/
theorem prepare_loop_vacant_first (t : Table K V) (hdz : DistZero t) (key : K) (first f : Nat)
    (hf : f < t.capacity) (h256 : f % 256 = 0) (h0 : f ≠ 0) (fuel last m : Nat)
    (h : prepare_loop t key 0 first fuel f 0 = Probe.vacant last m) : last = f := by
  cases fuel with
  | zero => simp [prepare_loop] at h
  | succ fuel =>
    unfold prepare_loop at h
    rw [if_pos (by decide)] at h
    dsimp only at h
    generalize hps : prepare_scan t key f 32
      (matchHashAndDistance t.controls f 0 0).maskHash 0 = r at h
    obtain ⟨o, d'⟩ := r
    cases o with
    | some i => exact Probe.noConfusion h
    | none =>
      dsimp only at h
      by_cases he : (matchHashAndDistance t.controls f 0 0).maskEmpty ≠ 0
      · rw [if_pos he] at h
        injection h with h1 h2
        exact h1.symm
      · rw [if_neg he] at h
        exfalso
        have he' : (matchHashAndDistance t.controls f 0 0).maskEmpty = 0 := by
          by_contra hc; exact he hc
        rw [maskEmpty_eq, movemask_eq_zero_iff] at he'
        have hl0 := he' 0 (by decide)
        unfold flagged lowBits adds_epi16 kDistance16 kGroupWidth kEmptyEntry at hl0
        simp only [Nat.zero_mod, Nat.zero_div, Nat.add_zero, Bool.or_eq_false_iff,
          beq_eq_false_iff_ne, ne_eq, decide_eq_false_iff_not, not_lt] at hl0
        have hd0 : (t.controls f).distance = 0 := by
          have := hl0.2
          have h2 : (t.controls f).distance ≤ min 0 32767 := this
          omega
        have hh0 := hdz f hf h256 h0 hd0
        have hcand : candidate t.controls f 0 0 0 = true := by
          unfold candidate flagged lowBits highBits adds_epi16 kDistance16 kGroupWidth
            kEmptyEntry
          simp [hd0, hh0]
        have hmask : (matchHashAndDistance t.controls f 0 0).maskHash ≠ 0 := by
          rw [maskHash_eq]
          intro hc
          rw [movemask_eq_zero_iff] at hc
          have := hc 0 (by decide)
          rw [hcand] at this
          exact Bool.noConfusion this
        have hd254 := prepare_scan_far_first t key f (by omega) 31 _ 0 hmask
          (by rw [hps])
        rw [hps] at hd254
        dsimp only at hd254
        subst hd254
        split at h
        · exact Probe.noConfusion h
        · cases fuel with
          | zero => simp [prepare_loop] at h
          | succ fuel =>
            unfold prepare_loop at h
            rw [if_neg (by decide)] at h
            exact Probe.noConfusion h

end robin32

/-! ## The invariant of the reachable tables -/

namespace robin32

variable {K V : Type} [DecidableEq K]

omit [DecidableEq K] in
theorem inv_grow_if_necessary (hash : K → Nat) (fresh : Fresh K V) {t t' : Table K V}
    (hinv : Inv hash t) (h : grow_if_necessary hash fresh t = some t') : Inv hash t' :=
  inv_rehash_impl hash false true fresh hinv _ h

/-- What `find_and_prepare_insert` hands back on a table that satisfies the
invariant. -/
theorem prepare_rounds_spec (hash : K → Nat) :
    ∀ (fuel : Nat) (fresh : Nat → Fresh K V) (t : Table K V) (key : K) (r : Prepared K V),
      Inv hash t → prepare_rounds hash fresh fuel t key = some r →
      Inv hash r.table ∧ r.index < r.table.capacity ∧ r.ctrl_hash = tagOf hash key ∧
      (r.is_exists = false →
        (r.ctrl_hash = 0 → r.distance ≤ r.index % 32 → r.index % 32 < 16 →
          tagOf hash key = 0 → homeOf hash r.table key = r.index - r.index % 32) ∧
        (r.index % 256 = 0 → r.index ≠ 0 → r.distance = 0 → r.ctrl_hash = 0)) := by
  intro fuel
  induction fuel with
  | zero => intro fresh t key r _ h; exact Option.noConfusion h
  | succ fuel ih =>
    intro fresh t key r hinv h
    obtain ⟨n, hn2, hn, hm, hg⟩ := hinv.wf
    have hcn := capacity_pow hn hm
    unfold prepare_rounds at h
    dsimp only at h
    have hf : index_for t (get_hash hash key) = homeOf hash t key := rfl
    have htag : get_ctrl_hash (get_second_hash (get_hash hash key)) = tagOf hash key := rfl
    rw [hf, htag] at h
    have hfl := homeOf_lt hash hm key
    generalize hpl : prepare_loop t key (tagOf hash key) (homeOf hash t key) (t.slot_mask + 1)
      (homeOf hash t key) 0 = pr at h
    cases pr with
    | found idx d =>
      dsimp only at h
      simp only [Option.some.injEq] at h
      subst h
      obtain ⟨x, hx⟩ := prepare_loop_found t key _ _ _ _ _ _ _ hpl
      refine ⟨hinv, ?_, rfl, fun hc => Bool.noConfusion hc⟩
      dsimp only
      rw [hx, hcn]
      exact round_index_lt hm x
    | out_of_bounds => exact Option.noConfusion h
    | wrapped =>
      dsimp only at h
      cases hgr : grow_if_necessary hash (fresh 0) t with
      | none => rw [hgr] at h; exact Option.noConfusion h
      | some t1 =>
        rw [hgr] at h
        exact ih _ _ _ _ (inv_grow_if_necessary hash _ hinv hgr) h
    | vacant last m =>
      dsimp only at h
      by_cases hng : need_grow t = true
      · rw [if_pos hng] at h
        cases hgr : grow_if_necessary hash (fresh 0) t with
        | none => rw [hgr] at h; exact Option.noConfusion h
        | some t1 =>
          rw [hgr] at h
          exact ih _ _ _ _ (inv_grow_if_necessary hash _ hinv hgr) h
      · rw [if_neg hng] at h
        simp only [Option.some.injEq] at h
        subst h
        dsimp only
        obtain ⟨hm0, hm32, hv1, hv2, hv3⟩ :=
          prepare_loop_vacant t key _ _ hn hm (homeOf hash t key) _ _ _ _ _
            ⟨hfl, fun _ => rfl, fun _ => rfl⟩ hpl
        have hj : BitUtils.bsf32 m >>> 1 < 16 := by
          have := BitUtils.bsf32_lt hm0 hm32
          rw [shiftRight_one]; omega
        generalize BitUtils.bsf32 m >>> 1 = j at hj
        refine ⟨hinv, by rw [hcn]; exact round_index_lt hm _, rfl, fun _ => ⟨?_, ?_⟩⟩
        · intro h0 hd h16 _
          rw [round_index_eq hm] at hd h16 ⊢
          have hd' := round_distance_le _ _ (by omega) hd
          by_cases hn5 : 5 ≤ n
          · have hf32 := homeOf_mod_32 hash hn5 hm key h0
            have hl32 : last % 32 = 0 := by rw [hv2 hn5, hf32]
            have hl0 : last = 0 := by omega
            have h32 : 2 ^ 5 ≤ 2 ^ n := Nat.pow_le_pow_right (by decide) hn5
            have hf0 : homeOf hash t key = 0 := by
              by_contra hne
              have hn8 : 8 < n := by
                by_contra hc
                exact hne (homeOf_eq_zero hash (by omega) hm key h0)
              have h256 := homeOf_mod_256 hash (by omega) hm key h0
              have := prepare_loop_vacant_first t hinv.distZero key _ _
                (by rw [hcn]; exact hfl) h256 hne _ _ _ (by have hpl' := hpl; rw [h0] at hpl'; exact hpl')
              omega
            rw [hf0, hl0, Nat.zero_add, Nat.mod_eq_of_lt (by omega)]
            omega
          · have hn5' : n < 5 := by omega
            have hl : last = homeOf hash t key := hv3 hn5'
            have hf0 := homeOf_eq_zero hash (by omega) hm key h0
            rw [hf0]
            have : 2 ^ n < 2 ^ 5 := Nat.pow_lt_pow_right (by decide) hn5'
            have hlt2 : (last + j) % 2 ^ n < 2 ^ n := Nat.mod_lt _ (by positivity)
            omega
        · intro h256 h0 hd
          exfalso
          have hx : last + j = 0 := by
            unfold round_distance kEndOfMark at hd
            split at hd <;> omega
          rw [hx, round_index_eq hm] at h0
          exact h0 (Nat.zero_mod _)

/-- `emplace_impl` keeps the invariant. -/
theorem inv_emplace_impl (hash : K → Nat) (fresh : Nat → Fresh K V) (AlwaysUpdate : Bool)
    {t t' : Table K V} (hinv : Inv hash t) (value : K × V) (it : Nat) (b : Bool)
    (h : emplace_impl hash fresh AlwaysUpdate t value = some (t', it, b)) : Inv hash t' := by
  unfold emplace_impl find_and_prepare_insert at h
  cases hp : prepare_rounds hash fresh 64 t value.1 with
  | none => rw [hp] at h; exact Option.noConfusion h
  | some r =>
    rw [hp] at h
    dsimp only at h
    obtain ⟨hinv', hidx, htag, hcond⟩ := prepare_rounds_spec hash 64 fresh t value.1 r hinv hp
    by_cases hex : r.is_exists = true
    · rw [hex] at h
      simp only [Bool.not_true, Bool.false_eq_true, if_false] at h
      by_cases hu : AlwaysUpdate = true
      · rw [if_pos hu] at h
        simp only [Option.some.injEq, Prod.mk.injEq] at h
        obtain ⟨h1, -, -⟩ := h
        subst h1
        refine inv_of_eq hash hinv' rfl ?_ rfl rfl hinv'.sizeBound
        intro i
        dsimp only
        split <;> rfl
      · rw [if_neg hu] at h
        simp only [Option.some.injEq, Prod.mk.injEq] at h
        obtain ⟨h1, -, -⟩ := h
        subst h1
        exact hinv'
    · have hex' : r.is_exists = false := by simpa using hex
      rw [hex'] at h
      simp only [Bool.not_false, if_true, Option.some.injEq, Prod.mk.injEq] at h
      obtain ⟨h1, -, -⟩ := h
      subst h1
      obtain ⟨hH, hD⟩ := hcond hex'
      exact inv_write hash hinv' r.index r.ctrl_hash r.distance value hidx hH hD

omit [DecidableEq K] in
theorem clearGroups_apply (ctrl : Nat → control_data) (n p : Nat) :
    clearGroups ctrl n p = if 1 ≤ n ∧ p < n + 15 then ⟨0xFF, 0⟩ else ctrl p := by
  induction n with
  | zero =>
    unfold clearGroups
    rw [if_neg (by omega)]
  | succ n ih =>
    unfold clearGroups
    rw [fillAll16_apply, ih]
    by_cases h1 : n ≤ p ∧ p < n + 16
    · rw [if_pos h1, if_pos (by omega)]
      rfl
    · rw [if_neg h1]
      by_cases h2 : 1 ≤ n ∧ p < n + 15
      · rw [if_pos h2, if_pos (by omega)]
      · rw [if_neg h2, if_neg (by omega)]

omit [DecidableEq K] in
/-- `clear` keeps the invariant. -/
theorem inv_clear (hash : K → Nat) (fresh : Fresh K V) {t t' : Table K V} (hinv : Inv hash t)
    (need_destory : Bool) (h : clear fresh t need_destory = some t') : Inv hash t' := by
  unfold clear at h
  by_cases hc : t.slot_capacity > kDefaultCapacity ∧ need_destory = true
  · rw [if_pos hc] at h
    exact inv_create_group hash false fresh _ t' _ h ⟨2, rfl⟩ (fun hc => Bool.noConfusion hc)
  · rw [if_neg hc] at h
    simp only [Option.some.injEq] at h
    subst h
    obtain ⟨n, hn2, hn, hm, hg⟩ := hinv.wf
    have hcn := capacity_pow hn hm
    have hcap : (destroy_false t).capacity = t.capacity := rfl
    have hctl : ∀ p, (destroy_false t).controls p
        = if 1 ≤ t.group_mask + 1 ∧ p < t.group_mask + 1 + 15 then ⟨0xFF, 0⟩
          else t.controls p := fun p => clearGroups_apply _ _ p
    refine ⟨⟨n, hn2, hn, hm, hg⟩, by show (0 : Nat) < 2 ^ 64; decide, ?_, ?_, ?_⟩
    · intro p hp h256 h0 hd
      rw [hctl] at hd ⊢
      split at hd
      · exact absurd hd (by decide)
      · rename_i hne
        rw [if_neg hne]
        exact hinv.distZero p hp h256 h0 hd
    · intro p hp h16 hh hd htag
      rw [hctl] at hh hd
      split at hd
      · have : (255 : Nat) ≤ p % 32 := hd
        omega
      · rename_i hne
        rw [if_neg hne] at hh
        exact hinv.homeOnly p hp h16 hh hd htag
    · intro hsmall q hq1 hq2
      left
      rw [hctl, if_pos (by omega)]
      decide

/-- Every table the public operations build satisfies the invariant. -/
theorem reachable_inv32 (hash : K → Nat) (t : Table K V) (hr : Reachable hash t) :
    Inv hash t := by
  induction hr with
  | ctor fresh init_capacity t h =>
    unfold robin32_hash_map at h
    obtain ⟨g1, g2, -⟩ := create_group_fields true fresh _ t _ h
    simp only [if_true] at g1 g2
    exact inv_create_group hash true fresh _ t _ h
      (by simp only [if_true]; exact calc_capacity_pow2 _ g1 g2)
      (fun _ => by show (0 : Nat) < 2 ^ 64; decide)
  | emplace fresh AlwaysUpdate t t' value it b _ h ih =>
    exact inv_emplace_impl hash fresh AlwaysUpdate ih value it b h
  | erase t key _ ih => exact inv_erase hash ih key
  | erase_at t pos _ hpos _ ih => exact inv_erase_slot hash ih pos hpos
  | rehash fresh t t' new_capacity read_only _ h ih =>
    exact inv_rehash_impl hash true false fresh ih _ h
  | shrink_to_fit fresh t t' read_only _ h ih =>
    exact inv_rehash_impl hash true false fresh ih _ h
  | clear fresh t t' need_destory _ h ih => exact inv_clear hash fresh ih need_destory h
  | max_load_factor fresh t t' n_mlf n_mlf_rev _ h ih =>
    have hinv1 : Inv hash { t with n_mlf := n_mlf, n_mlf_rev := n_mlf_rev } :=
      inv_of_eq hash ih rfl (fun _ => rfl) rfl rfl ih.sizeBound
    unfold max_load_factor at h
    dsimp only at h
    split at h
    · split at h
      · exact inv_rehash_impl hash true false fresh hinv1 _ h
      · simp only [Option.some.injEq] at h
        subst h; exact hinv1
    · simp only [Option.some.injEq] at h
      subst h; exact hinv1

end robin32

/-! ## robin32: a rebuild that is sure to return -/

namespace robin32

variable {K V : Type} [DecidableEq K]

end robin32

/-! ## `robin32_hash_map`: the operations on reachable tables -/

namespace robin32

variable {K V : Type} [DecidableEq K]

/-- The slot `find_impl` returns holds the key. -/
theorem find_impl_key (hash : K → Nat) {t : Table K V} (hinv : Inv hash t) (k : K) (i : Nat)
    (h : find_impl hash t k = some i) : (t.slots i).1 = k ∧ i < t.capacity := by
  obtain ⟨n, hn2, hn, hm, -⟩ := hinv.wf
  rw [find_impl_first_group hash t hinv k] at h
  have hs := scanGroup_spec t k (tagOf hash k) (homeOf hash t k)
  revert hs h
  generalize scanGroup t k (tagOf hash k) (homeOf hash t k) = r
  cases r with
  | none => intro h _; simp at h
  | some pos =>
    intro h hs
    obtain ⟨h1, h2, h3, -⟩ := hs
    simp only [Option.map_some', Option.some.injEq] at h
    subst h
    unfold keyAt at h3
    exact ⟨of_decide_eq_true h3, by rw [capacity_pow hn hm]; exact round_index_lt hm _⟩

/-- The candidate scan of `find_and_prepare_insert` finds the slot the scan of
`find_impl` finds. -/
theorem prepare_scan_fst (t : Table K V) (key : K) (s : Nat) :
    ∀ fuel mask D, (prepare_scan t key s fuel mask D).1
      = (scanMask (fun pos => keyAt t key s (pos >>> 1)) fuel mask).map
          (fun pos => round_index t (s + (pos >>> 1))) := by
  intro fuel
  induction fuel with
  | zero => intro mask D; rfl
  | succ fuel ih =>
    intro mask D
    unfold prepare_scan scanMask
    by_cases hm : mask = 0
    · rw [if_pos hm, if_pos hm]; rfl
    · rw [if_neg hm, if_neg hm]
      dsimp only
      by_cases hk : (t.slots (round_index t (s + BitUtils.bsf32 mask >>> 1))).1 = key
      · have hk' : keyAt t key s (BitUtils.bsf32 mask >>> 1) = true := decide_eq_true hk
        rw [if_pos hk, if_pos hk']; rfl
      · have hk' : ¬ keyAt t key s (BitUtils.bsf32 mask >>> 1) = true := by
          intro hc; exact hk (of_decide_eq_true hc)
        rw [if_neg hk, if_neg hk']
        exact ih _ _

theorem find_impl_loop_congr {t t' : Table K V} (hc : t'.controls = t.controls)
    (hm : t'.slot_mask = t.slot_mask) (hk : ∀ i, (t'.slots i).1 = (t.slots i).1)
    (k : K) (c st : Nat) :
    ∀ fuel s, find_impl_loop t' k c st fuel s = find_impl_loop t k c st fuel s := by
  have hri : ∀ x, round_index t' x = round_index t x := by
    intro x; unfold round_index; rw [hm]
  have hsn : ∀ x, slot_next_group t' x = slot_next_group t x := by
    intro x; unfold slot_next_group; rw [hm]
  intro fuel
  induction fuel with
  | zero => intro s; rfl
  | succ fuel ih =>
    intro s
    unfold find_impl_loop
    simp only [hc, hri, hk, hsn, ih]

/-- `find_impl` only looks at the control records, the keys and `slot_mask`. -/
theorem find_impl_congr (hash : K → Nat) {t t' : Table K V} (hc : t'.controls = t.controls)
    (hm : t'.slot_mask = t.slot_mask) (hk : ∀ i, (t'.slots i).1 = (t.slots i).1) (k : K) :
    find_impl hash t' k = find_impl hash t k := by
  unfold find_impl index_for
  dsimp only
  rw [hm]
  exact find_impl_loop_congr hc hm hk k _ _ _ _

theorem find_eq_of_find_impl (hash : K → Nat) (t : Table K V) (k : K) (i : Nat)
    (h : find_impl hash t k = some i) :
    find hash t k = i ∧ contains hash t k = true := by
  unfold find contains
  rw [h]
  exact ⟨rfl, rfl⟩

/-- **C7.** robin32: in a reachable table in which `find` locates the key `k'`
at the slot `i`, after `erase(k)` for another key `k`, `find(k')` still returns
the slot `i`, which still holds `k'`: it is not `end()` and `contains(k')` is
true. -/
theorem robin32_erase_keeps_others (hash : K → Nat) (t : Table K V) (hr : Reachable hash t)
    (k k' : K) (hne : k ≠ k') (i : Nat) (hf : find_impl hash t k' = some i) :
    find_impl hash (erase hash t k).2 k' = some i ∧
      ((erase hash t k).2.slots i).1 = k' ∧
      find hash (erase hash t k).2 k' = i ∧
      find hash (erase hash t k).2 k' ≠ (erase hash t k).2.slot_capacity ∧
      contains hash (erase hash t k).2 k' = true := by
  have hinv := reachable_inv32 hash t hr
  have hinv' := inv_erase hash hinv k
  have hfind : find_impl hash (erase hash t k).2 k' = some i := by
    rcases erase_cases hash hinv k with h | ⟨ie, h1, h2, -, h⟩
    · rw [h]; exact hf
    · rw [h]
      exact find_after_erase_slot hash hinv k' i hf ie h1 (by rw [h2]; exact hne)
  obtain ⟨hkey, hi⟩ := find_impl_key hash hinv' k' i hfind
  obtain ⟨h1, h2⟩ := find_eq_of_find_impl hash _ k' i hfind
  refine ⟨hfind, hkey, h1, ?_, h2⟩
  rw [h1]
  have : (erase hash t k).2.slot_capacity = (erase hash t k).2.capacity := rfl
  omega

/-- **C14.** robin32: `calc_capacity(n)` is a power of two that is at least `n`
and at least 4 for every `n` up to `2 ^ 63`; the capacity of every reachable
table (the constructor with any initial capacity, then insertions, erasures,
`rehash`, `reserve`, ...) is a power of two with `slot_mask = capacity - 1`, and
so is the capacity after an automatic growth step. -/
theorem robin32_capacity_pow2 (hash : K → Nat) :
    (∀ n, n ≤ 2 ^ 63 → ∃ j, calc_capacity n = 2 ^ j ∧ n ≤ 2 ^ j ∧ 4 ≤ 2 ^ j) ∧
    (∀ t : Table K V, Reachable hash t →
      ∃ j, t.capacity = 2 ^ j ∧ t.slot_mask = t.capacity - 1) ∧
    (∀ (fresh : Fresh K V) (t t' : Table K V), Reachable hash t →
      grow_if_necessary hash fresh t = some t' →
      ∃ j, t'.capacity = 2 ^ j ∧ t'.slot_mask = t'.capacity - 1) := by
  have hwf : ∀ t : Table K V, Inv hash t →
      ∃ j, t.capacity = 2 ^ j ∧ t.slot_mask = t.capacity - 1 := by
    intro t hinv
    obtain ⟨n, hn2, hn, hm, -⟩ := hinv.wf
    have hcn := capacity_pow hn hm
    exact ⟨n, hcn, by rw [hcn]; omega⟩
  refine ⟨?_, ?_, ?_⟩
  · intro n hn
    obtain ⟨j, h1, -, h3, h4, -⟩ := calc_capacity_spec hn
    refine ⟨j, h3, h4, ?_⟩
    calc 4 = 2 ^ 2 := rfl
      _ ≤ 2 ^ j := Nat.pow_le_pow_right (by decide) h1
  · intro t hr
    exact hwf t (reachable_inv32 hash t hr)
  · intro fresh t t' hr h
    exact hwf t' (inv_grow_if_necessary hash fresh (reachable_inv32 hash t hr) h)

end robin32

/-! ## `robin32_hash_map`: the theorems at concrete tables -/

namespace robin32

theorem reachable_insertMany {K V : Type} [DecidableEq K] (hash : K → Nat)
    (fresh : Nat → Fresh K V) :
    ∀ (l : List (K × V)) (t t' : Table K V), Reachable hash t →
      insertMany hash fresh t l = some t' → Reachable hash t'
  | [], t, t', hr, h => by
    simp only [insertMany, Option.some.injEq] at h
    subst h; exact hr
  | v :: vs, t, t', hr, h => by
    unfold insertMany at h
    cases hi : insert hash fresh t v with
    | none => rw [hi] at h; exact Option.noConfusion h
    | some r =>
      rw [hi] at h
      obtain ⟨t1, it, b⟩ := r
      exact reachable_insertMany hash fresh vs t1 t'
        (Reachable.emplace fresh false t t1 v it b hr hi) h

theorem reachable_built (l : List (Nat × Nat)) (t : Table Nat Nat) (h : built l = some t) :
    Reachable idHash t := by
  unfold built at h
  obtain ⟨t0, h0, h1⟩ := Option.bind_eq_some.1 h
  exact reachable_insertMany idHash _ l t0 t (Reachable.ctor blank kDefaultCapacity t0 h0) h1

/-- C7 at the default-constructed map after `insert(0, 100)` and
`insert(256, 10)`: `erase(0)` and then `find(256)`. -/
theorem robin32_erase_keeps_others_witness :
    ∃ t, built [(0, 100), (256, 10)] = some t ∧ (0 : Nat) ≠ 256 ∧
      find_impl idHash t 256 = some 1 ∧
      find_impl idHash (erase idHash t 0).2 256 = some 1 ∧
      ((erase idHash t 0).2.slots 1).1 = 256 ∧
      find idHash (erase idHash t 0).2 256 = 1 ∧
      find idHash (erase idHash t 0).2 256 ≠ (erase idHash t 0).2.slot_capacity ∧
      contains idHash (erase idHash t 0).2 256 = true := by
  have h : (built [(0, 100), (256, 10)]).map (fun t => find_impl idHash t 256)
      = some (some 1) := by decide!
  obtain ⟨t, ht, hf⟩ := Option.map_eq_some'.1 h
  exact ⟨t, ht, by decide, hf,
    robin32_erase_keeps_others idHash t (reachable_built _ t ht) 0 256 (by decide) 1 hf⟩

/-- C16 at the default initial capacity 4. -/
theorem robin32_ctor_capacity_witness :
    ∃ t, robin32_hash_map blank 4 = some t ∧ kMinimumCapacity ≤ t.capacity ∧
      4 ≤ t.capacity ∧ t.capacity ≠ 0 ∧ ∃ j, t.capacity = 2 ^ j :=
  robin32_ctor_capacity blank 4 (by norm_num)

/-- C18 at the default-constructed map. -/
theorem robin32_ctor_threshold_witness :
    ∃ t', robin32_hash_map blank 4 = some t' ∧ t'.capacity * kDefaultLoadFactorInt < 2 ^ 64 ∧
      t'.slot_threshold = t'.capacity * kDefaultLoadFactorInt / kLoadFactorAmplify ∧
      (kDefaultLoadFactorInt = kDefaultLoadFactorInt → t'.slot_threshold = t'.capacity / 2) ∧
      (kDefaultLoadFactorInt < kLoadFactorAmplify → t'.slot_threshold < t'.capacity) := by
  have h : (robin32_hash_map blank 4).map (fun t' => t'.capacity) = some 4 := by decide!
  obtain ⟨t', ht', hc⟩ := Option.map_eq_some'.1 h
  have hov : t'.capacity * kDefaultLoadFactorInt < 2 ^ 64 := by rw [hc]; decide
  exact ⟨t', ht', hov, robin32_ctor_threshold true blank _ t' 4 ht' hov⟩

end robin32

/-! ## The mirror records -/

namespace robin32

variable {K V : Type}

end robin32

/-! ## The mirror records of the reachable tables -/

namespace robin32

variable {K V : Type}

section
variable [DecidableEq K]

end

end robin32

/-! ## `robin32_hash_map`: the control records and the group masks -/

namespace robin32

/-- **C28**, amended. robin32: `isUsed` holds exactly for the distance bytes
`0x00..0xFE` and `isUnused` exactly for `0xFF`; the two are disjoint and
exhaustive; the empty mark `0xFF` is unused, and the end mark `0xFE` counts as
used. -/
theorem robin32_control_encoding (c : control_data) :
    (c.isUsed = true ↔ c.distance ≤ 0xFE) ∧
    (c.isUnused = true ↔ 0xFF ≤ c.distance) ∧
    (c.isUsed = true ∨ c.isUnused = true) ∧
    ¬ (c.isUsed = true ∧ c.isUnused = true) ∧
    (c.isEmpty = true ↔ c.distance = 0xFF) ∧
    (c.isEndOf = true ↔ c.distance = 0xFE) ∧
    (c.isEmpty = true → c.isUnused = true ∧ c.isUsed = false) ∧
    (c.isEndOf = true → c.isUsed = true ∧ c.isUnused = false) ∧
    (c.distance < 256 → (c.isUnused = true ↔ c.distance = 0xFF)) := by
  unfold control_data.isUsed control_data.isUnused control_data.isEmpty control_data.isEndOf
    kEmptyEntry kEndOfMark
  simp only [decide_eq_true_eq, beq_iff_eq, decide_eq_false_iff_not]
  refine ⟨?_, ?_, ?_, ?_, ?_, ?_, ?_, ?_, ?_⟩ <;>
    first
    | trivial
    | omega

theorem matchUsed_testBit (ctrl : Nat → control_data) (data i : Nat) :
    (matchUsed ctrl data).testBit i
      = (decide (i < 32) && decide ((ctrl (data + i / 2)).distance > 0xFE)) := by
  unfold matchUsed
  rw [movemask_testBit]
  rfl

/-- **C29.** robin32: the two bits of record `i` in the mask of `matchUsed` are
set exactly when the distance byte of the record is above `0xFE`, that is when
the record is empty; they are clear for every in-use record. For the block that
starts with an in-use record (distance 0), an empty record and an end mark the
mask is `0b1100`. -/
theorem robin32_matchUsed_selects_empty :
    (∀ (ctrl : Nat → control_data) (data i : Nat), i < 16 →
      ((matchUsed ctrl data).testBit (2 * i) = decide ((ctrl (data + i)).distance > 0xFE) ∧
       (matchUsed ctrl data).testBit (2 * i + 1)
         = decide ((ctrl (data + i)).distance > 0xFE)) ∧
      ((ctrl (data + i)).distance < 0xFE → (matchUsed ctrl data).testBit (2 * i) = false) ∧
      ((ctrl (data + i)).isEmpty = true → (matchUsed ctrl data).testBit (2 * i) = true)) ∧
    matchUsed (fun p => if p = 0 then ⟨0, 0⟩ else if p = 1 then ⟨0xFF, 0⟩ else ⟨0xFE, 0⟩) 0
      = 12 := by
  refine ⟨?_, by decide!⟩
  intro ctrl data i hi
  have e1 : 2 * i / 2 = i := by omega
  have e2 : (2 * i + 1) / 2 = i := by omega
  have h1 : (matchUsed ctrl data).testBit (2 * i)
      = decide ((ctrl (data + i)).distance > 0xFE) := by
    rw [matchUsed_testBit, e1]
    simp only [Bool.and_eq_true, decide_eq_true_eq, show 2 * i < 32 from by omega,
      decide_True, Bool.true_and]
  have h2 : (matchUsed ctrl data).testBit (2 * i + 1)
      = decide ((ctrl (data + i)).distance > 0xFE) := by
    rw [matchUsed_testBit, e2]
    simp only [Bool.and_eq_true, decide_eq_true_eq, show 2 * i + 1 < 32 from by omega,
      decide_True, Bool.true_and]
  refine ⟨⟨h1, h2⟩, ?_, ?_⟩
  · intro hd
    rw [h1]
    exact decide_eq_false (by omega)
  · intro he
    rw [h1]
    unfold control_data.isEmpty kEmptyEntry at he
    have := of_decide_eq_true he
    exact decide_eq_true (by omega)

theorem matchHashAndEmpty_testBit (ctrl : Nat → control_data) (data t i : Nat) :
    (matchHashAndEmpty ctrl data t).maskEmpty.testBit i
        = (decide (i < 32) && ((ctrl (data + i / 2)).distance == 0xFF)) ∧
      (matchHashAndEmpty ctrl data t).maskHash.testBit i
        = (decide (i < 32) && (!((ctrl (data + i / 2)).distance == 0xFF) &&
            (256 * (ctrl (data + i / 2)).hash == t))) := by
  unfold matchHashAndEmpty
  dsimp only
  rw [movemask_testBit, movemask_testBit]
  exact ⟨rfl, rfl⟩

/-- **C30.** robin32: `matchHashAndEmpty(t)` sets the bits of record `i` in
`maskEmpty` exactly when the record is empty, and in `maskHash` exactly when the
record is not empty and `256 * hash = t`: the tag is compared with the hash byte
shifted into the high byte, so for every tag `t` from 1 to 255 `maskHash` is 0.
For the block that starts with the in-use record (distance 3, hash 5),
`matchHashAndEmpty(5).maskHash` is 0 while `matchHash(5)` is `0b11`. -/
theorem robin32_matchHashAndEmpty_unshifted :
    (∀ (ctrl : Nat → control_data) (data t i : Nat), i < 16 →
      ((matchHashAndEmpty ctrl data t).maskEmpty.testBit (2 * i)
          = (ctrl (data + i)).isEmpty) ∧
      ((matchHashAndEmpty ctrl data t).maskHash.testBit (2 * i)
          = (!(ctrl (data + i)).isEmpty && (256 * (ctrl (data + i)).hash == t)))) ∧
    (∀ (ctrl : Nat → control_data) (data t : Nat), 0 < t → t < 256 →
      (matchHashAndEmpty ctrl data t).maskHash = 0) ∧
    ((matchHashAndEmpty (fun p => if p = 0 then ⟨3, 5⟩ else ⟨0xFF, 0⟩) 0 5).maskHash = 0 ∧
      (matchHashAndEmpty (fun p => if p = 0 then ⟨3, 5⟩ else ⟨0xFF, 0⟩) 0 5).maskEmpty
        = 4294967292 ∧
      matchHash (fun p => if p = 0 then ⟨3, 5⟩ else ⟨0xFF, 0⟩) 0 5 = 3) := by
  refine ⟨?_, ?_, by decide!, by decide!, by decide!⟩
  · intro ctrl data t i hi
    have e1 : 2 * i / 2 = i := by omega
    obtain ⟨h1, h2⟩ := matchHashAndEmpty_testBit ctrl data t (2 * i)
    rw [e1] at h1 h2
    have hlt : decide (2 * i < 32) = true := decide_eq_true (by omega)
    rw [hlt, Bool.true_and] at h1 h2
    exact ⟨h1, h2⟩
  · intro ctrl data t h0 h256
    apply Nat.eq_of_testBit_eq
    intro i
    rw [(matchHashAndEmpty_testBit ctrl data t i).2, Nat.zero_testBit]
    have : (256 * (ctrl (data + i / 2)).hash == t) = false := by
      rw [beq_eq_false_iff_ne]
      omega
    rw [this]
    simp

end robin32

/-! ## Evaluations at concrete inputs -/

namespace robin32

/-- **C2.** robin32: in the default-constructed map, `insert(1, 10)` returns
`inserted = true` for the slot 1, yet afterwards `find(1)` is `end()` (the
index 4, the capacity) and `contains(1)` is false. -/
theorem robin32_insert_then_find_fails :
    ((robin32_hash_map_default blank).bind fun t0 =>
      (insert idHash (fun _ => blank) t0 (1, 10)).map fun r =>
        (r.2.1, r.2.2, find idHash r.1 1, r.1.slot_capacity, contains idHash r.1 1))
      = some (1, true, 4, 4, false) := by decide!

/-- **C6.** robin32: a default-constructed map after `insert(256, 10)`,
`rehash(512)` and `clear()` has size 0 while the record 256 is still in use;
`erase(256)` then returns 1 and the size becomes `2 ^ 64 - 1`: it has not
decreased by one. -/
theorem robin32_erase_size_wraps :
    ((robin32_hash_map_default blank).bind fun t0 =>
      (insert idHash (fun _ => blank) t0 (256, 10)).bind fun r =>
        (rehash idHash blank r.1 512 false).bind fun t2 =>
          (clear blank t2 false).map fun t3 =>
            (t3.slot_size, (erase idHash t3 256).1, (erase idHash t3 256).2.slot_size))
      = some (0, 1, 18446744073709551615) := by decide!

/-- **C8.** robin32: `robin32_hash_map(32)` after `insert(1, 101)` and
`insert(2, 102)` holds exactly these two pairs with size 2; after `rehash(64)` the
capacity is 128, the size is 28, the pair `(2, 102)` is gone and 27 in-use slots
hold the content `(0, 0)` of cells that never held an element. -/
theorem robin32_rehash_loses_pairs :
    ((robin32_hash_map blank 32).bind fun t0 =>
      (insertMany idHash (fun _ => blank) t0 [(1, 101), (2, 102)]).bind fun t1 =>
        (rehash idHash blank t1 64 false).map fun t2 =>
          (usedPairs t1, [t1.slot_size, t2.slot_size, t2.capacity,
            (usedPairs t2).count (1, 101), (usedPairs t2).count (2, 102),
            (usedPairs t2).count (0, 0)]))
      = some ([(1, 101), (2, 102)], [2, 28, 128, 1, 0, 27]) := by decide!

/-- **C13.** robin32: `robin32_hash_map(64)` after `insert(40, 7)` and `clear()`
has size 0, but the control record 40 is still in use: one in-use record in
`[0, capacity)`. -/
theorem robin32_clear_leaves_used :
    ((robin32_hash_map blank 64).bind fun t0 =>
      (insert idHash (fun _ => blank) t0 (40, 7)).bind fun r =>
        (clear blank r.1 false).map fun t2 =>
          (r.2.1, t2.slot_size, t2.capacity, (t2.controls 40).isUsed,
            (t2.controls 40).isEmpty, usedCount t2))
      = some (40, 0, 64, true, false, 1) := by decide!

/-- **C16**, counterexample. robin32: the default-constructed map has the
capacity 4, below the group width 32. -/
theorem robin32_default_capacity_is_4 :
    (robin32_hash_map_default blank).map (fun t0 => (t0.capacity, kGroupWidth))
      = some (4, 32) := by decide!

/-- **C17.** robin32: the default-constructed map after `insert(0, 100)`,
`insert(4, 104)` and `insert(8, 108)` holds three elements with size 3, while
`slot_threshold` is 2 and the capacity 4. -/
theorem robin32_size_exceeds_threshold :
    ((robin32_hash_map_default blank).bind fun t0 =>
      (insertMany idHash (fun _ => blank) t0 [(0, 100), (4, 104), (8, 108)]).map fun t1 =>
        (t1.slot_size, t1.slot_threshold, t1.capacity, usedPairs t1))
      = some (3, 2, 4, [(0, 100), (4, 104), (8, 108)]) := by decide!

/-- **C19.** robin32: `max_load_factor(0.8f)` (`n_mlf = 52429`,
`n_mlf_rev = 81920`) on the default-constructed map stores the factor and leaves
`slot_threshold` at 2, while `floor(capacity * n_mlf / 65536)` is 3. -/
theorem robin32_max_load_factor_keeps_threshold :
    ((robin32_hash_map_default blank).bind fun t0 =>
      (max_load_factor idHash blank t0 52429 81920).map fun t1 =>
        (t0.slot_threshold, t1.n_mlf, t1.capacity, t1.slot_threshold,
          t1.capacity * t1.n_mlf / 65536, slot_threshold_for t1 t1.capacity))
      = some (2, 52429, 4, 2, 3, 3) := by decide!

/-- **C21.** robin32: the default-constructed map after `insert(1, 10)` and
`insert(5, 50)` has size 2, but only one control record in `[0, capacity)` is in
use: the second insertion wrote over the slot of the first. -/
theorem robin32_size_exceeds_used_records :
    (built [(1, 10), (5, 50)]).map
        (fun t => (t.slot_size, usedCount t, usedPairs t, t.capacity))
      = some (2, 1, [(5, 50)], 4) := by decide!

/-- **C22.** robin32: the default-constructed map after `insert(1, 10)` holds the
key in the slot 1 with the stored distance 1. The probe for the key 1 starts at
the slot 1, while `(p - d) mod capacity` is 0: the stored distance is the slot
index, not the distance from the home slot. -/
theorem robin32_distance_is_slot_index :
    (built [(1, 10)]).map
        (fun t => (usedPairs t, (t.controls 1).isUsed, (t.controls 1).distance,
          homeOf idHash t 1, (1 + t.capacity - (t.controls 1).distance) % t.capacity))
      = some ([(1, 10)], true, 1, 1, 0) := by decide!

/-- **C23.** robin32: on the empty `robin32_hash_map(32)`, `begin()` returns the
index 0, not `end()` (the index 32); after `insert(1, 101)` the only in-use slot
is 1, and `begin()` still returns 0, the index of an empty slot. -/
theorem robin32_begin_returns_empty_slot :
    ((robin32_hash_map blank 32).bind fun t0 =>
      (insertMany idHash (fun _ => blank) t0 [(1, 101)]).map fun t =>
        ([usedCount t0, begin t0, end_ t0, begin t, end_ t], usedPairs t,
          (t.controls 0).isUsed, (t.controls 0).isEmpty, (t.controls 1).isUsed))
      = some ([0, 0, 32, 0, 32], [(1, 101)], false, true, true) := by decide!

/-- **C24.** robin32: in the default-constructed map (capacity 4) the record 4 is
the end mark; after `clear()` it is empty, and `operator++` on the iterator of
the slot 0 runs past the index 4, up to the index 16. -/
theorem robin32_clear_erases_end_mark :
    ((robin32_hash_map_default blank).bind fun t0 =>
      (clear blank t0 false).map fun t =>
        ([t0.capacity, t.capacity],
          [(t0.controls 4).isEndOf, (t0.controls 4).isEmpty, (t.controls 4).isEmpty],
          [iterator_next t0 64 0, iterator_next t 64 0]))
      = some ([4, 4], [true, false, true], [some 4, some 16]) := by decide!

/-- **C25.** robin32: in the default-constructed map after `insert(0, 100)` and
`insert(4, 104)` the slots 0 and 1 are in use, the slot 1 with the distance 1.
`erase(0)` returns 1 and marks the record 0 empty; the record 1 and its cell are
as before: the successor has not been shifted back. -/
theorem robin32_erase_does_not_shift_back :
    (built [(0, 100), (4, 104)]).map
        (fun t => (usedPairs t, [t.controls 0, t.controls 1,
          (erase idHash t 0).2.controls 0, (erase idHash t 0).2.controls 1],
          (erase idHash t 0).1, (erase idHash t 0).2.slots 1))
      = some ([(0, 100), (4, 104)], [⟨0, 0⟩, ⟨1, 148⟩, ⟨255, 0⟩, ⟨1, 148⟩], 1, (4, 104)) := by
  decide!

/-- **C28**, counterexample. robin32: the record with the distance byte `0xFE`,
the end mark, satisfies `isUsed` and not `isUnused`. -/
theorem robin32_end_mark_is_used :
    ((⟨0xFE, 0⟩ : control_data).isUsed, (⟨0xFE, 0⟩ : control_data).isUnused,
      (⟨0xFE, 0⟩ : control_data).isEndOf) = (true, false, true) := by decide

end robin32

namespace flat16

/-- **C12.** flat16: inserting the keys 1..16 (identity hash) into the
default-constructed table fills its 16 entries; `grow()` leaves the capacity at
16, and `insert(17, 17)` then never returns. -/
theorem flat16_insert_full_never_returns :
    ((insertMany idHash (flat16_hash_map zeroMem kDefaultInitialCapacity)
        ((List.range 16).map fun i => (i + 1, i + 1))).map fun t =>
      (t.capacity, t.size, (grow t).capacity, (grow t).size,
        (insert idHash t (17, 17)).isNone,
        (insertMany idHash (flat16_hash_map zeroMem kDefaultInitialCapacity)
          ((List.range 17).map fun i => (i + 1, i + 1))).isNone))
      = some (16, 16, 16, 16, true, true) := by decide!

/-- **C15.** flat16: the constructor called with the initial capacity 33 builds a
table of capacity 48 with `entry_mask = 47` and three clusters: none of the
three is as a power of two requires. -/
theorem flat16_ctor_capacity_not_pow2 :
    ((flat16_hash_map zeroMem 33).capacity, (flat16_hash_map zeroMem 33).entry_mask,
      (flat16_hash_map zeroMem 33).cluster_mask + 1,
      decide (∃ j, j < 64 ∧ 48 = 2 ^ j), decide (∃ j, j < 64 ∧ 3 = 2 ^ j))
      = (48, 47, 3, false, false) := by decide!

end flat16

/-! ## Further evaluations at concrete inputs -/

namespace robin32

/-- **C4.** robin32: the default-constructed map after `insert(1, 10)` holds the
pair `(1, 10)` with size 1; `insert_or_assign(1, 20)` then returns
`inserted = true` and the size becomes 2, with one in-use record. -/
theorem robin32_insert_or_assign_reinserts :
    ((built [(1, 10)]).bind fun t =>
      (insert_or_assign idHash (fun _ => blank) t 1 20).map fun r =>
        ([t.slot_size, r.2.1, r.1.slot_size, usedCount r.1], r.2.2, usedPairs t, usedPairs r.1))
      = some ([1, 1, 2, 1], true, [(1, 10)], [(1, 20)]) := by decide!

/-- **C11.** robin32: `robin32_hash_map(32)` after `insert(16, 1)` has the
capacity 32; when the memory of the new table reads as zero bytes,
`grow_if_necessary()` never returns (with memory that reads as `0xFF` bytes it
returns a table of capacity 64). -/
theorem robin32_grow_never_returns :
    (builtWith 32 [(16, 1)]).map
        (fun t => (usedPairs t, t.capacity, (grow_if_necessary idHash zeroed t).isNone,
          (grow_if_necessary idHash blank t).map fun t1 => t1.capacity))
      = some ([(16, 1)], 32, true, some 64) := by decide!

/-- **C31.** robin32: `round_distance(254)` is `0xFE`, and so is
`round_distance(x)` for every larger `x`: the value is above `0xFD` and equals
the end-of-table sentinel. On `robin32_hash_map(256)`, `insert(254, 7)` stores
the distance `0xFE` in the record 254, which then reads as the end mark while
it is in use. -/
theorem robin32_round_distance_reaches_end_mark :
    round_distance 254 = 0xFE ∧ (∀ x, round_distance (254 + x) = 0xFE) ∧
    ((robin32_hash_map blank 256).bind fun t0 =>
      (insert idHash (fun _ => blank) t0 (254, 7)).map fun r =>
        ([r.2.1, (r.1.controls 254).distance],
          [r.2.2, (r.1.controls 254).isEndOf, (r.1.controls 254).isUsed], usedPairs r.1))
      = some ([254, 0xFE], [true, true, true], [(254, 7)]) := by
  refine ⟨by decide, ?_, by decide!⟩
  intro x
  unfold round_distance kEndOfMark
  split
  · have : x = 0 := by omega
    subst this
    rfl
  · rfl

/-- **C37.** robin32: `erase_slot(index)` writes the record `index` through
`setDistance(kEmptyEntry)`, and `kEmptyEntry = 0xFF` does not satisfy the
asserted condition `distance < 0xFE`. In the default-constructed map after
`insert(0, 100)`, `erase(0)` removes one element and leaves the distance `0xFF`,
the argument of that call, in the record 0; whatever the table and the index,
the distance `erase_slot` leaves in the record fails the condition. The
distance `0xFE` that `round_distance(254)` hands to `setUsedCtrl` does not
satisfy the condition either. -/
theorem robin32_erase_violates_setDistance_assert :
    control_data.setDistance_assert kEmptyEntry = false ∧
    (∀ (t : Table Nat Nat) (i : Nat),
      control_data.setDistance_assert ((erase_slot t i).controls i).distance = false) ∧
    control_data.setDistance_assert (round_distance 254) = false ∧
    (built [(0, 100)]).map
        (fun t => ((erase idHash t 0).1, (t.controls 0).distance,
          ((erase idHash t 0).2.controls 0).distance,
          control_data.setDistance_assert ((erase idHash t 0).2.controls 0).distance))
      = some (1, 0, 0xFF, false) := by
  refine ⟨by decide, ?_, by decide, by decide!⟩
  intro t i
  unfold erase_slot setUnusedCtrl setUnusedMirrorCtrl control_data.setDistance_assert
    control_data.setDistance control_data.setEndOf kEmptyEntry kEndOfMark
  simp only
  split
  · simp only
    split
    · split <;> simp
    · simp
  · simp

/-- **C38.** robin32: on `robin32_hash_map(8)` holding the keys 0, 8 and 16
(size 3, capacity 8), `rehash(1)` with the default `read_only = false` requests
the capacity `max(2, 3) = 3`; the table is rebuilt with the capacity 4, whose
threshold is `floor(4 * 32768 / 65536) = 2`, below the size 3, and
`slot_threshold -= size` wraps to `2 ^ 64 - 1`. `shrink_to_fit(true)` does the
same. -/
theorem robin32_rehash_threshold_wraps :
    ((robin32_hash_map blank 8).bind fun t0 =>
      (insertMany idHash (fun _ => blank) t0 [(0, 100), (8, 101), (16, 102)]).bind fun t =>
        (rehash idHash blank t 1 false).bind fun t1 =>
          (shrink_to_fit idHash blank t true).map fun t2 =>
            ([t.slot_size, t.capacity, max (min_require_capacity t 1) t.slot_size],
              [t1.slot_size, t1.capacity, slot_threshold_for t1 t1.capacity, t1.slot_threshold],
              [t2.slot_size, t2.capacity, slot_threshold_for t2 t2.capacity, t2.slot_threshold]))
      = some ([3, 8, 3], [3, 4, 2, 2 ^ 64 - 1], [3, 4, 2, 2 ^ 64 - 1]) := by decide!

end robin32

namespace pow2

/-- **C35.** `is_pow2(0)` is true, at run time and at compile time, although 0
is no power of two: the code evaluates `(N & (N - 1)) == 0` without the test
`N != 0` of the header comment. -/
theorem is_pow2_zero_is_true :
    is_pow2 0 = true ∧ compile_time.is_pow2 0 = true ∧ ¬ ∃ j, (0 : Nat) = 2 ^ j := by
  refine ⟨by decide, by decide, ?_⟩
  rintro ⟨j, hj⟩
  have : 0 < 2 ^ j := by positivity
  omega

end pow2

namespace flat16

/-- **C27**, counterexample. flat16: in a cluster whose control byte 0 is `0x81`
and whose other bytes are the tag 0, bit 0 of `matchEmptyOrDeleted()` is set
although control 0 is neither empty nor deleted: the mask is 1, while
`matchEmpty() | matchDeleted()` is 0. -/
theorem flat16_cluster_masks_invalid_byte :
    (matchEmptyOrDeleted
        ({ flat16_hash_map zeroMem 16 with controls := fun i => if i = 0 then 0x81 else 0 } :
          Table Nat Nat) 0,
      matchEmpty
        ({ flat16_hash_map zeroMem 16 with controls := fun i => if i = 0 then 0x81 else 0 } :
          Table Nat Nat) 0 |||
        matchDeleted
          ({ flat16_hash_map zeroMem 16 with controls := fun i => if i = 0 then 0x81 else 0 } :
            Table Nat Nat) 0,
      control_byte.isEmpty 0x81, control_byte.isDeleted 0x81)
      = (1, 0, false, false) := by decide!

/-- **C32.** flat16: `round_up_pow2(n)` returns `n` for every `n`; at `n = 3` the
result 3 is no power of two. -/
theorem flat16_round_up_pow2_is_identity :
    (∀ n, round_up_pow2 n = n) ∧ round_up_pow2 3 = 3 ∧ ¬ ∃ j, (3 : Nat) = 2 ^ j := by
  refine ⟨?_, by decide, ?_⟩
  · intro n
    unfold round_up_pow2
    split <;> rfl
  · rintro ⟨j, hj⟩
    cases j with
    | zero => simp at hj
    | succ j =>
      rw [pow_succ] at hj
      omega

end flat16
